import Mathlib

set_option maxHeartbeats 1000000

/- Verification model of `build_site.py`, a static-site builder that walks a
source directory, converts notebooks to HTML documents via an external tool,
prunes directory branches without notebooks, and renders template pages by
token substitution.  Machine strings are modelled as `List Char`; paths are
lists of name components; the filesystem is a finite list of entries; the
external converter and the clock are oracles passed in as functions. -/

/- ===================== Characters and small string helpers ============== -/

/- Python regex `\s` (ASCII core: space, tab, newline, carriage return,
vertical tab, form feed). -/
def isPySpace (c : Char) : Bool :=
  c = ' ' || c = '\t' || c = '\n' || c = '\r' || c = '\x0b' || c = '\x0c'

def flat2 : List (List Char) → List Char
  | [] => []
  | x :: xs => x ++ flat2 xs

/- Does `pat` occur at the head of `s`. -/
def headMatch : List Char → List Char → Bool
  | _, [] => true
  | [], _ :: _ => false
  | a :: as, b :: bs => if a = b then headMatch as bs else false

/- Does `pat` occur anywhere inside `s` as a contiguous run. -/
def containsSub (s pat : List Char) : Bool :=
  match s with
  | [] => headMatch [] pat
  | _ :: rest => headMatch s pat || containsSub rest pat

/- ===================== Token matching (re.sub model) ==================== -/

/- Drop a maximal run of `\s` characters, returning how many were dropped
and the remainder. -/
def dropSpaces : List Char → Nat × List Char
  | [] => (0, [])
  | c :: cs =>
    if isPySpace c then
      let p := dropSpaces cs
      (p.1 + 1, p.2)
    else (0, c :: cs)

/- Strip `tok` from the front of `s`; `none` when `s` does not start with
`tok`. -/
def stripTok : List Char → List Char → Option (List Char)
  | [], s => some s
  | _ :: _, [] => none
  | t :: ts, c :: cs => if c = t then stripTok ts cs else none

/- Match the regex `\{\{\s*TOK\s*\}\}` at the head of `s`, returning the
number of characters consumed.  Both `\s*TOK` and `\s*\}\}` are
deterministic maximal-munch matches because the token names and `\x7d` are
not whitespace. -/
def matchTok (tok : List Char) (s : List Char) : Option Nat :=
  match s with
  | '\x7b' :: '\x7b' :: rest =>
    let p1 := dropSpaces rest
    match stripTok tok p1.2 with
    | none => none
    | some r2 =>
      let p2 := dropSpaces r2
      match p2.2 with
      | '\x7d' :: '\x7d' :: _ => some (2 + p1.1 + tok.length + p2.1 + 2)
      | _ => none
  | _ => none

/- One `re.sub(pattern, lambda m: v, s)` pass: scan left to right, replace
each non-overlapping match with `val` verbatim, and continue scanning after
the match (the inserted value is not re-scanned by the same pass).  The
replacement is a callable in the source, so `val` undergoes no escape
interpretation.  Fuel is the length of `s`; every match consumes at least
one character, so fuel never runs out. -/
def subTokenF (tok val : List Char) : Nat → List Char → List Char
  | _, [] => []
  | 0, s => s
  | f + 1, c :: cs =>
    match matchTok tok (c :: cs) with
    | some n => val ++ subTokenF tok val f ((c :: cs).drop n)
    | none => c :: subTokenF tok val f cs

def subToken (tok val s : List Char) : List Char := subTokenF tok val s.length s

/- ===================== html.escape ====================================== -/

/- `html.escape(s, quote=True)` runs five sequential `str.replace` calls
(`&` first); since no later replacement output ever re-feeds an earlier
pass, this is exactly a character-wise map. -/
def htmlEscapeChar (c : Char) : List Char :=
  if c = '&' then "&amp;".data
  else if c = '<' then "&lt;".data
  else if c = '>' then "&gt;".data
  else if c = '\x22' then "&quot;".data
  else if c = '\x27' then "&#x27;".data
  else [c]

def htmlEscape (s : List Char) : List Char := flat2 (s.map htmlEscapeChar)

/- ===================== The tree data model ============================== -/

/- A node dict of the source: file nodes carry `type`, `name`, `path`,
`nb_html`; directory nodes carry `type`, `name`, `path`, `children`. -/
inductive TreeNode where
  | file (name : String) (path : String) (nb_html : String)
  | dir (name : String) (path : String) (children : List TreeNode)
deriving Repr

mutual
def beqTree : TreeNode → TreeNode → Bool
  | TreeNode.file n p h, TreeNode.file n2 p2 h2 => n = n2 && p = p2 && h = h2
  | TreeNode.dir n p cs, TreeNode.dir n2 p2 cs2 => n = n2 && p = p2 && beqKids cs cs2
  | _, _ => false
def beqKids : List TreeNode → List TreeNode → Bool
  | [], [] => true
  | a :: as, b :: bs => beqTree a b && beqKids as bs
  | _, _ => false
end

/- ===================== JSON serialization (json.dumps) ================= -/

def hexDig (n : Nat) : Char := if n < 10 then Char.ofNat (48 + n) else Char.ofNat (87 + n)

/- Escaping of one character inside a JSON string, `ensure_ascii=False`:
quote, backslash and control characters are escaped, everything else is
emitted verbatim. -/
def jsonEscChar (c : Char) : List Char :=
  if c = '\x22' then ['\\', '\x22']
  else if c = '\\' then ['\\', '\\']
  else if c = '\n' then ['\\', 'n']
  else if c = '\r' then ['\\', 'r']
  else if c = '\t' then ['\\', 't']
  else if c = '\x08' then ['\\', 'b']
  else if c = '\x0c' then ['\\', 'f']
  else if c.toNat < 32 then ['\\', 'u', '0', '0', hexDig (c.toNat / 16), hexDig (c.toNat % 16)]
  else [c]

def jsonStr (s : String) : List Char :=
  '\x22' :: (flat2 (s.data.map jsonEscChar) ++ ['\x22'])

/- `json.dumps(tree, ensure_ascii=False)` on the node dicts, with the
default separators `", "` and `": "` and keys in insertion order. -/
mutual
def serTree : TreeNode → List Char
  | TreeNode.file n p h =>
    "\x7b\x22type\x22: \x22file\x22, \x22name\x22: ".data ++ jsonStr n
      ++ ", \x22path\x22: ".data ++ jsonStr p
      ++ ", \x22nb_html\x22: ".data ++ jsonStr h ++ ['\x7d']
  | TreeNode.dir n p cs =>
    "\x7b\x22type\x22: \x22dir\x22, \x22name\x22: ".data ++ jsonStr n
      ++ ", \x22path\x22: ".data ++ jsonStr p
      ++ ", \x22children\x22: [".data ++ serList cs ++ "]\x7d".data
def serList : List TreeNode → List Char
  | [] => []
  | [t] => serTree t
  | t :: t2 :: ts => serTree t ++ ", ".data ++ serList (t2 :: ts)
end

/- `str.replace("</", "<\\/")`: left-to-right, non-overlapping. -/
def replSlash : List Char → List Char
  | '<' :: '/' :: rest => '<' :: '\\' :: '/' :: replSlash rest
  | c :: rest => c :: replSlash rest
  | [] => []

/- The TREE_JSON substitution value. -/
def safeJson (t : TreeNode) : List Char := replSlash (serTree t)

/- ===================== render_tokens ==================================== -/

/- `render_tokens(src, title, nb_count, tree)`: four sequential `re.sub`
passes in dict insertion order TITLE, TIMESTAMP, NBCOUNT, then (only when a
tree is supplied) TREE_JSON.  `ts` is the string `datetime.utcnow()`
produced for this call, supplied by the caller's clock oracle. -/
def render_tokens (src : List Char) (title : String) (nb_count : Nat)
    (tree : Option TreeNode) (ts : List Char) : List Char :=
  let out := subToken "TITLE".data (htmlEscape title.data) src
  let out := subToken "TIMESTAMP".data ts out
  let out := subToken "NBCOUNT".data (Nat.repr nb_count).data out
  match tree with
  | none => out
  | some t => subToken "TREE_JSON".data (safeJson t) out

/- ===================== prune_empty_dirs ================================ -/

/- The post-order prune: a file is kept and reports `true`; a directory
keeps its surviving children in order and survives iff some child reported
`true`. -/
mutual
def prune_empty_dirs : TreeNode → Option TreeNode × Bool
  | TreeNode.file n p h => (some (TreeNode.file n p h), true)
  | TreeNode.dir n p cs =>
    let r := pruneKids cs
    ((if r.2 then some (TreeNode.dir n p r.1) else none), r.2)
def pruneKids : List TreeNode → List TreeNode × Bool
  | [] => ([], false)
  | c :: cs =>
    let pr := prune_empty_dirs c
    let rest := pruneKids cs
    ((match pr.1 with
      | some t => t :: rest.1
      | none => rest.1), pr.2 || rest.2)
end

/- Specification-side predicate: does the subtree contain a file node. -/
mutual
def hasFileDesc : TreeNode → Bool
  | TreeNode.file _ _ _ => true
  | TreeNode.dir _ _ cs => hasFileKids cs
def hasFileKids : List TreeNode → Bool
  | [] => false
  | c :: cs => hasFileDesc c || hasFileKids cs
end

/- Number of file nodes in a tree. -/
mutual
def fileCount : TreeNode → Nat
  | TreeNode.file _ _ _ => 1
  | TreeNode.dir _ _ cs => fileCountKids cs
def fileCountKids : List TreeNode → Nat
  | [] => 0
  | c :: cs => fileCount c + fileCountKids cs
end

/- ===================== Filesystem entries and path keys ================= -/

/- One filesystem entry under the source root: its path relative to the
source root as a list of name components, and whether it is a directory.
The list of entries models what `src.rglob("*")` yields. -/
structure Entry where
  comps : List String
  isDir : Bool
deriving Repr, DecidableEq

/- The character string `str(path)` of a relative path: components joined
with `/`. -/
def key : List String → List Char
  | [] => []
  | [a] => a.data
  | a :: b :: rest => a.data ++ '/' :: key (b :: rest)

def joinPath (p : List String) : String := String.mk (key p)

/- Code-point comparison of character lists: Python `str.__lt__`. -/
def charsLt : List Char → List Char → Bool
  | [], [] => false
  | [], _ :: _ => true
  | _ :: _, [] => false
  | a :: as, b :: bs => if a = b then charsLt as bs else decide (a < b)

def charsLe : List Char → List Char → Bool
  | [], _ => true
  | _ :: _, [] => false
  | a :: as, b :: bs => if a = b then charsLe as bs else decide (a < b)

/- `sorted(src.rglob("*"))`: `Path.__lt__` compares the full path strings,
so entries are sorted by the code-point order of their joined relative
paths (the absolute prefix `str(src) + "/"` is common to all entries and
cancels).  Stable insertion sort, extensionally equal to Python's stable
`sorted` (and entries of one file system have pairwise distinct keys, so
stability is moot). -/
def insEntry (a : Entry) : List Entry → List Entry
  | [] => [a]
  | b :: bs =>
    if charsLe (key a.comps) (key b.comps) then a :: b :: bs else b :: insEntry a bs

def sortEntries : List Entry → List Entry
  | [] => []
  | a :: rest => insEntry a (sortEntries rest)

/- `out in path.parents or path == out`: the entry lies at or below the
output root.  `outRel` is the output root's path relative to the source
root when the output root lies inside it (`none` otherwise). -/
def listPre : List String → List String → Bool
  | [], _ => true
  | _ :: _, [] => false
  | a :: as, b :: bs => if a = b then listPre as bs else false

def excludedBy (outRel : Option (List String)) (p : List String) : Bool :=
  match outRel with
  | none => false
  | some o => listPre o p

/- ===================== pathlib suffix handling ========================== -/

/- Index of the last `.` in a name, if any (`str.rfind`). -/
def rfindDot : List Char → Option Nat
  | [] => none
  | c :: cs =>
    match rfindDot cs with
    | some i => some (i + 1)
    | none => if c = '.' then some 0 else none

/- `PurePath.suffix`: the part of the final component from its last dot,
empty when the last dot is the first character (dotfiles) or the final
character. -/
def pySuffix (name : String) : List Char :=
  match rfindDot name.data with
  | none => []
  | some i => if 0 < i && i + 1 < name.data.length then name.data.drop i else []

/- `PurePath.with_suffix(".html")`: the name with its suffix (possibly
empty) replaced by `.html`. -/
def pyWithSuffixHtml (name : String) : String :=
  String.mk (name.data.take (name.data.length - (pySuffix name).length) ++ ".html".data)

def lastComp (l : List String) : String := l.getLastD ""

def lowerL (s : List Char) : List Char := s.map Char.toLower

def nbExt : List Char := ".ipynb".data

/- `(out / rel).with_suffix(".html")` relative to the output root. -/
def htmlRel (comps : List String) : List String :=
  comps.dropLast ++ [pyWithSuffixHtml (lastComp comps)]

/- ===================== The collector state ============================= -/

/- A reference held in a directory node's `children` list during the walk:
either an aliased directory node (identified by its path, the `dir_map`
key) or a completed file node. -/
inductive ChildRef where
  | dirRef (name : String)
  | fileRef (name : String) (rel : List String) (nbHtml : List String)
deriving Repr, DecidableEq

/- The mutable state of `collect_tree`: `dirs` is the insertion-ordered key
set of `dir_map` (excluding the root, whose key is `[]`), `kids` maps each
key (and `[]`) to its ordered `children` list, and `outputs` lists the
converted documents written under the output root, in order. -/
structure CState where
  dirs : List (List String)
  kids : List String → List ChildRef
  nb_count : Nat
  outputs : List (List String)

def initSt : CState := { dirs := [], kids := fun _ => [], nb_count := 0, outputs := [] }

/- The `Garante nós de diretório` loop: walk the prefixes of `dirParts`,
creating each missing directory node and appending it to its parent's
children. -/
def ensureFrom (pre : List String) (ps : List String) (st : CState) : CState :=
  match ps with
  | [] => st
  | p :: rest =>
    let q := pre ++ [p]
    let st1 :=
      if q ∈ st.dirs then st
      else
        { st with
          dirs := st.dirs ++ [q],
          kids := fun r => if r = pre then st.kids r ++ [ChildRef.dirRef p] else st.kids r }
    ensureFrom q rest st1

/- Processing of one entry of the sorted walk.  `convOk` tells whether the
external `nbconvert` subprocess exits with status zero for a given source
notebook; a non-zero exit raises (`check=True`), modelled as `Except.error`
carrying the state at the raise point (the failed notebook itself produces
no converted document). -/
def procEntry (outRel : Option (List String)) (convOk : List String → Bool)
    (st : CState) (e : Entry) : Except CState CState :=
  if excludedBy outRel e.comps then Except.ok st
  else if e.comps = [] then Except.ok st
  else
    let dp := if e.isDir then e.comps else e.comps.dropLast
    let st1 := ensureFrom [] dp st
    if e.isDir then Except.ok st1
    else if lowerL (pySuffix (lastComp e.comps)) ≠ nbExt then Except.ok st1
    else
      let oh := htmlRel e.comps
      if convOk e.comps then
        Except.ok
          { st1 with
            nb_count := st1.nb_count + 1,
            outputs := st1.outputs ++ [oh],
            kids := fun r =>
              if r = e.comps.dropLast then
                st1.kids r ++ [ChildRef.fileRef (lastComp e.comps) e.comps oh]
              else st1.kids r }
      else Except.error { st1 with nb_count := st1.nb_count + 1 }

def collectLoop (outRel : Option (List String)) (convOk : List String → Bool) :
    CState → List Entry → Except CState CState
  | st, [] => Except.ok st
  | st, e :: rest =>
    match procEntry outRel convOk st e with
    | Except.ok st1 => collectLoop outRel convOk st1 rest
    | Except.error st1 => Except.error st1

/- Materializing the node tree from the final `dir_map` aliases: the node
at path `pre` has the children recorded in `kids pre`, directory children
being the nodes at the extended paths.  The fuel bounds the depth; every
recorded key is a prefix of some entry's components, so a fuel exceeding
the longest entry path is never exhausted. -/
def buildNode (kids : List String → List ChildRef) : String → List String → Nat → TreeNode
  | name, pre, 0 => TreeNode.dir name (joinPath pre) []
  | name, pre, f + 1 =>
    TreeNode.dir name (joinPath pre)
      ((kids pre).map (fun c =>
        match c with
        | ChildRef.dirRef n => buildNode kids n (pre ++ [n]) f
        | ChildRef.fileRef n rel h => TreeNode.file n (joinPath rel) (joinPath h)))

def maxCompLen : List Entry → Nat
  | [] => 0
  | e :: rest => max e.comps.length (maxCompLen rest)

/- `collect_tree(src, out, execute)`: sorted walk, prune, fallback root.
Returns the pruned tree, the notebook count and the list of converted
documents written under the output root; an aborted walk is the error
case. -/
def collect_tree (srcName : String) (fs : List Entry) (outRel : Option (List String))
    (convOk : List String → Bool) : Except CState (TreeNode × Nat × List (List String)) :=
  let l := sortEntries fs
  match collectLoop outRel convOk initSt l with
  | Except.error st => Except.error st
  | Except.ok st =>
    let root := buildNode st.kids srcName [] (maxCompLen l + 1)
    let pruned :=
      match (prune_empty_dirs root).1 with
      | some t => t
      | none => TreeNode.dir srcName "" []
    Except.ok (pruned, st.nb_count, st.outputs)

/- ===================== build_static_site =============================== -/

/- The template directory: page files by name, and the three asset
subdirectory contents (as file paths relative to each subdirectory). -/
structure Template where
  pages : String → Option (List Char)
  cssFiles : List (List String)
  assetFiles : List (List String)
  jsFiles : List (List String)

/- `load_template_index`: raises `FileNotFoundError` when the template
directory has no `index.html`.  (Defined in the source but never called by
`build_static_site`.) -/
def load_template_index (tpl : Template) : Except String (List Char) :=
  match tpl.pages "index.html" with
  | none => Except.error "Template missing: index.html"
  | some s => Except.ok s

/- The fixed page list: file name and whether TREE_JSON is injected. -/
def sitePages : List (String × Bool) :=
  [("index.html", false), ("software.html", true),
   ("publications.html", false), ("research.html", false)]

/- The page loop: missing template pages are silently skipped; each
rendered page reads the clock once (one `datetime.utcnow()` call per
`render_tokens` invocation), so `k` counts renders. -/
def renderLoop (tpl : String → Option (List Char)) (title : String) (nb : Nat)
    (tree : TreeNode) (clock : Nat → List Char) :
    List (String × Bool) → Nat → List (String × List Char)
  | [], _ => []
  | (fname, needsTree) :: rest, k =>
    match tpl fname with
    | none => renderLoop tpl title nb tree clock rest k
    | some src =>
      (fname, render_tokens src title nb (if needsTree then some tree else none) (clock k))
        :: renderLoop tpl title nb tree clock rest (k + 1)

/- Result of a successful build: the pages written to the output root, the
asset files copied, and the collector results. -/
structure BuildOut where
  pagesW : List (String × List Char)
  assetsW : List (List String)
  tree : TreeNode
  nb_count : Nat
  convOutputs : List (List String)
deriving Repr

/- `copy_tree` for the three asset categories. -/
def assetsOf (tpl : Template) : List (List String) :=
  tpl.cssFiles.map (fun p => "css" :: p)
    ++ tpl.assetFiles.map (fun p => "assets" :: p)
    ++ tpl.jsFiles.map (fun p => "js" :: p)

/- `build_static_site(src, out, template_dir, title, execute)`: collect
(converting notebooks as a side effect), then render the pages that exist,
then copy assets.  Any raise inside `collect_tree` propagates: nothing
after it runs. -/
def build_static_site (srcName : String) (fs : List Entry) (outRel : Option (List String))
    (convOk : List String → Bool) (tpl : Template) (title : String)
    (clock : Nat → List Char) : Except CState BuildOut :=
  match collect_tree srcName fs outRel convOk with
  | Except.error st => Except.error st
  | Except.ok (tree, nb, outs) =>
    Except.ok
      { pagesW := renderLoop tpl.pages title nb tree clock sitePages 0,
        assetsW := assetsOf tpl,
        tree := tree, nb_count := nb, convOutputs := outs }

/- Pages actually written by a run: none when the build raised. -/
def pagesWritten (r : Except CState BuildOut) : List (String × List Char) :=
  match r with
  | Except.error _ => []
  | Except.ok b => b.pagesW

/- Converted documents on disk after a run, success or abort. -/
def convertedDocs (r : Except CState CState) : List (List String) :=
  match r with
  | Except.error st => st.outputs
  | Except.ok st => st.outputs

/- ===================== Specification-side observers ===================== -/

def nodeName : TreeNode → String
  | TreeNode.file n _ _ => n
  | TreeNode.dir n _ _ => n

def strLtB (a b : String) : Bool := charsLt a.data b.data

/- Strict code-point ascending chain. -/
def chainLtB : List String → Bool
  | [] => true
  | [_] => true
  | a :: b :: rest => strLtB a b && chainLtB (b :: rest)

/- Children of every directory node are in strictly ascending name order,
directories and files interleaved. -/
mutual
def treeChildrenSorted : TreeNode → Bool
  | TreeNode.file _ _ _ => true
  | TreeNode.dir _ _ cs => chainLtB (cs.map nodeName) && kidsChildrenSorted cs
def kidsChildrenSorted : List TreeNode → Bool
  | [] => true
  | c :: cs => treeChildrenSorted c && kidsChildrenSorted cs
end

/- The `path` fields of all nodes of a tree, preorder. -/
mutual
def nodePaths : TreeNode → List String
  | TreeNode.file _ p _ => [p]
  | TreeNode.dir _ p cs => p :: nodePathsKids cs
def nodePathsKids : List TreeNode → List String
  | [] => []
  | c :: cs => nodePaths c ++ nodePathsKids cs
end

/- The file nodes of a tree (name, path, nb_html), preorder. -/
mutual
def fileNodes : TreeNode → List (String × String × String)
  | TreeNode.file n p h => [(n, p, h)]
  | TreeNode.dir _ _ cs => fileNodesKids cs
def fileNodesKids : List TreeNode → List (String × String × String)
  | [] => []
  | c :: cs => fileNodes c ++ fileNodesKids cs
end

/- A usable file-system name: nonempty, no path separator. -/
def goodNameB (s : String) : Bool :=
  if s = "" then false else decide ('/' ∉ s.data)

/- Well-formedness of the modelled file system: entries have nonempty
paths of usable names, no two entries share a path, and every proper
prefix of an entry's path is itself listed as a directory entry. -/
def wfB (fs : List Entry) : Bool :=
  fs.all (fun e => !e.comps.isEmpty && e.comps.all goodNameB)
    && decide (fs.map (fun e => e.comps)).Nodup
    && fs.all (fun e =>
        (List.range e.comps.length).all (fun i =>
          i = 0 || fs.any (fun e2 => e2.comps = e.comps.take i && e2.isDir)))

def goodPathB (o : List String) : Bool := o.all goodNameB

/- Accessors on a collector run. -/
def treeOf (r : Except CState (TreeNode × Nat × List (List String))) : Option TreeNode :=
  match r with
  | Except.ok (t, _, _) => some t
  | Except.error _ => none

def nbCountOf (r : Except CState (TreeNode × Nat × List (List String))) : Nat :=
  match r with
  | Except.ok (_, n, _) => n
  | Except.error st => st.nb_count

def outsOf (r : Except CState (TreeNode × Nat × List (List String))) : List (List String) :=
  match r with
  | Except.ok (_, _, outs) => outs
  | Except.error st => st.outputs

/- Case-insensitive ends-with, for stating what the spec asserts about
notebook names. -/
def endsWithB (s pat : List Char) : Bool := headMatch s.reverse pat.reverse

/- Is `e` a non-excluded notebook entry converted by the walk. -/
def isNbEntry (outRel : Option (List String)) (e : Entry) : Bool :=
  !excludedBy outRel e.comps && !e.comps.isEmpty && !e.isDir
    && decide (lowerL (pySuffix (lastComp e.comps)) = nbExt)

/- The conversion outputs the walk is specified to produce, in walk order. -/
def expectedOuts (fs : List Entry) (outRel : Option (List String)) : List (List String) :=
  (sortEntries fs).filterMap (fun e =>
    if isNbEntry outRel e then some (htmlRel e.comps) else none)

/- ===================== Generic lemmas on the helpers =================== -/

theorem headMatch_nilPat (s : List Char) : headMatch s [] = true := by
  cases s <;> rfl

theorem headMatch_append_left (p q s : List Char) (h : headMatch s (p ++ q) = true) :
    headMatch s p = true := by
  induction p generalizing s with
  | nil => exact headMatch_nilPat s
  | cons a as ih =>
    cases s with
    | nil => simp [headMatch] at h
    | cons c cs =>
      simp only [List.cons_append, headMatch] at h ⊢
      by_cases hc : c = a
      · simpa [hc] using ih cs (by simpa [hc] using h)
      · simp [hc] at h

theorem containsSub_append_left (s p q : List Char) (h : containsSub s (p ++ q) = true) :
    containsSub s p = true := by
  induction s with
  | nil =>
    simp only [containsSub] at h ⊢
    exact headMatch_append_left p q [] h
  | cons c cs ih =>
    simp only [containsSub, Bool.or_eq_true] at h ⊢
    rcases h with h | h
    · exact Or.inl (headMatch_append_left p q (c :: cs) h)
    · exact Or.inr (ih h)

/- ===================== C8 lemmas ======================================= -/

theorem replSlash_nil : replSlash [] = [] := rfl

theorem replSlash_cons (c : Char) (cs : List Char) :
    replSlash (c :: cs) =
      if c = '<' ∧ cs.head? = some '/' then
        '<' :: '\\' :: '/' :: replSlash cs.tail
      else c :: replSlash cs := by
  rcases cs with _ | ⟨c2, cs⟩
  · have hx : ¬(c = '<' ∧ ([] : List Char).head? = some '/') := by simp
    rw [if_neg hx]
    by_cases h1 : c = '<'
    · subst h1; rfl
    · simp [replSlash, h1]
  · by_cases h1 : c = '<'
    · by_cases h2 : c2 = '/'
      · subst h1; subst h2; simp [replSlash]
      · subst h1
        simp only [List.head?_cons, Option.some.injEq, h2, and_false, if_false]
        simp [replSlash, h2]
    · simp only [List.head?_cons, Option.some.injEq, h1, false_and, if_false]
      simp [replSlash, h1]

theorem replSlash_head? (s : List Char) : (replSlash s).head? = s.head? := by
  rcases s with _ | ⟨c, cs⟩
  · rfl
  · rw [replSlash_cons]
    by_cases h : c = '<' ∧ cs.head? = some '/'
    · rw [if_pos h]; simp [h.1]
    · rw [if_neg h]; simp

theorem containsSub_ltSlash_cons (c : Char) (l : List Char) :
    containsSub (c :: l) ['<', '/'] =
      ((c = '<' ∧ l.head? = some '/') || containsSub l ['<', '/']) := by
  simp only [containsSub, headMatch]
  rcases l with _ | ⟨d, l⟩
  · by_cases h : c = '<' <;> simp [h, headMatch]
  · by_cases h : c = '<' <;> by_cases h2 : d = '/' <;> simp [h, h2, headMatch]

theorem replSlash_no_ltSlash (s : List Char) : containsSub (replSlash s) ['<', '/'] = false := by
  have key : ∀ n, ∀ s : List Char, s.length ≤ n → containsSub (replSlash s) ['<', '/'] = false := by
    intro n
    induction n with
    | zero =>
      intro s hn
      rcases s with _ | ⟨c, cs⟩
      · rfl
      · simp at hn
    | succ n ih =>
      intro s hn
      rcases s with _ | ⟨c, cs⟩
      · rfl
      · rw [replSlash_cons]
        by_cases h : c = '<' ∧ cs.head? = some '/'
        · rw [if_pos h]
          rcases cs with _ | ⟨c2, cs⟩
          · simp at h
          · simp only [List.head?_cons, Option.some.injEq] at h
            simp only [List.tail_cons]
            rw [containsSub_ltSlash_cons, containsSub_ltSlash_cons, containsSub_ltSlash_cons]
            have hr := ih cs (by simp at hn; omega)
            simp [replSlash_head?, hr]
        · rw [if_neg h]
          rw [containsSub_ltSlash_cons]
          have hr := ih cs (by simp at hn; omega)
          have hh : ¬(c = '<' ∧ (replSlash cs).head? = some '/') := by
            rw [replSlash_head?]; exact h
          simp [hr, hh]
  exact key s.length s le_rfl

/-- C8: for every tree value, the TREE_JSON substitution string (the JSON
serialization of the tree with every `</` replaced by `<\/`) contains no
occurrence of the two-character sequence `</`, and in particular never
contains the substring `</script`. -/
theorem c8_tree_json_no_close_tag (t : TreeNode) :
    containsSub (safeJson t) ['<', '/'] = false ∧
    containsSub (safeJson t) "</script".data = false := by
  have h1 : containsSub (safeJson t) ['<', '/'] = false := replSlash_no_ltSlash (serTree t)
  refine ⟨h1, ?_⟩
  by_contra h2
  rw [Bool.not_eq_false] at h2
  have h2' : containsSub (safeJson t) (['<', '/'] ++ "script".data) = true := h2
  have h3 := containsSub_append_left (safeJson t) ['<', '/'] "script".data h2'
  rw [h1] at h3
  exact Bool.false_ne_true h3

/- ===================== C3: sequential passes re-scan =================== -/

/-- C3 counterexample: the claim states that token-shaped text inside a
substituted value appears unchanged in the rendered output.  Take the
template `{{ TITLE }}` and the title `{{ NBCOUNT }}` with count 7: the
TITLE substitution value (the HTML-escape of the title) is exactly the
token-shaped text `{{ NBCOUNT }}`, yet the rendered output is `7` — the
later NBCOUNT pass re-scanned the inserted value — so the output does not
contain the inserted value unchanged. -/
theorem c3_rescan_counterexample :
    htmlEscape "\x7b\x7b NBCOUNT \x7d\x7d".data = "\x7b\x7b NBCOUNT \x7d\x7d".data ∧
    render_tokens "\x7b\x7b TITLE \x7d\x7d".data "\x7b\x7b NBCOUNT \x7d\x7d" 7 none "ts".data
      = "7".data ∧
    containsSub
      (render_tokens "\x7b\x7b TITLE \x7d\x7d".data "\x7b\x7b NBCOUNT \x7d\x7d" 7 none "ts".data)
      "\x7b\x7b NBCOUNT \x7d\x7d".data = false := by
  decide

/-- C3 amended: substitution values are inserted verbatim (the replacement
is a callable, so no escape interpretation) and a pass never re-scans the
value it just inserted; since TREE_JSON is the final pass, the TREE_JSON
value always reaches the output verbatim — for every tree, even one whose
serialization contains token-shaped text, rendering the template that is
exactly the TREE_JSON token yields exactly the escaped serialization,
whatever the title, count and timestamp values are.  (Earlier passes'
inserted values, by contrast, are re-scanned by the later passes, as the
counterexample shows.) -/
theorem c3_last_pass_verbatim (title : String) (nb : Nat) (ts : List Char) (t : TreeNode) :
    render_tokens "\x7b\x7b TREE_JSON \x7d\x7d".data title nb (some t) ts = safeJson t := by
  have h : render_tokens "\x7b\x7b TREE_JSON \x7d\x7d".data title nb (some t) ts
      = safeJson t ++ [] := rfl
  rw [h, List.append_nil]

/- ===================== C2: timestamp per page ========================== -/

def tplTwoPages : Template :=
  { pages := fun n =>
      if n = "index.html" || n = "software.html" then some "\x7b\x7b TIMESTAMP \x7d\x7d".data
      else none,
    cssFiles := [], assetFiles := [], jsFiles := [] }

/- A clock that crosses a minute boundary between the two renders. -/
def clkTick : Nat → List Char :=
  fun k => if k = 0 then "2024-01-01 00:00 UTC".data else "2024-01-01 00:01 UTC".data

/-- C2 counterexample: `render_tokens` reads `datetime.utcnow()` on every
call and `build_static_site` calls it once per existing page, so two pages
of one build carry different timestamps when the clock crosses a minute
boundary between their renders — the TIMESTAMP value is not computed once
per build. -/
theorem c2_timestamp_counterexample :
    pagesWritten (build_static_site "r" [] none (fun _ => true) tplTwoPages "T" clkTick)
      = [("index.html", "2024-01-01 00:00 UTC".data),
         ("software.html", "2024-01-01 00:01 UTC".data)] ∧
    ("2024-01-01 00:00 UTC".data ≠ ("2024-01-01 00:01 UTC".data : List Char)) := by
  decide

theorem renderLoop_const_clock (tpl : String → Option (List Char)) (title : String)
    (nb : Nat) (tree : TreeNode) (clock : Nat → List Char)
    (h : ∀ k, clock k = clock 0) :
    ∀ ps k, renderLoop tpl title nb tree clock ps k
      = renderLoop tpl title nb tree (fun _ => clock 0) ps k := by
  intro ps
  induction ps with
  | nil => intro k; rfl
  | cons p rest ih =>
    intro k
    rcases p with ⟨fname, needsTree⟩
    simp only [renderLoop]
    cases tpl fname with
    | none => exact ih k
    | some src => rw [h k, ih (k + 1)]

/-- C2 amended: each page's timestamp is read at that page's own render
(one `datetime.utcnow()` call per rendered page) rather than once per
build; whenever every clock reading of the build returns the same formatted
string — the common case when no minute boundary is crossed — the build is
indistinguishable from one with a single shared timestamp, and every page
carries that same timestamp string. -/
theorem c2_timestamp_shared_iff_clock_stable (srcName : String) (fs : List Entry)
    (outRel : Option (List String)) (convOk : List String → Bool) (tpl : Template)
    (title : String) (clock : Nat → List Char) (h : ∀ k, clock k = clock 0) :
    build_static_site srcName fs outRel convOk tpl title clock
      = build_static_site srcName fs outRel convOk tpl title (fun _ => clock 0) := by
  unfold build_static_site
  cases collect_tree srcName fs outRel convOk with
  | error st => rfl
  | ok r =>
    rcases r with ⟨tree, nb, outs⟩
    simp only [renderLoop_const_clock tpl.pages title nb tree clock h sitePages 0]

/-- C2 amended, witness: a constant clock satisfies the hypothesis. -/
theorem c2_timestamp_shared_iff_clock_stable_witness :
    (∀ k : Nat, (fun _ : Nat => "e".data) k = (fun _ : Nat => "e".data) 0) ∧
    build_static_site "r" [] none (fun _ => true) tplTwoPages "T" (fun _ => "e".data)
      = build_static_site "r" [] none (fun _ => true) tplTwoPages "T"
          (fun _ => (fun _ : Nat => "e".data) 0) :=
  ⟨fun _ => rfl,
   c2_timestamp_shared_iff_clock_stable "r" [] none (fun _ => true) tplTwoPages "T"
     (fun _ => "e".data) (fun _ => rfl)⟩

/- ===================== C1: missing index.html ========================== -/

def tplNoIndex : Template :=
  { pages := fun n => if n = "software.html" then some "S \x7b\x7b NBCOUNT \x7d\x7d".data else none,
    cssFiles := [], assetFiles := [], jsFiles := [] }

def fsOneNb : List Entry := [⟨["nb.ipynb"], false⟩]

/-- C1: the source's own `load_template_index` documents the contract —
raise when `index.html` is missing — but `build_static_site` never calls
it: with a template directory lacking `index.html` and one notebook in the
source tree, the build completes without raising, converts the notebook
into the output directory, and writes the remaining pages, contradicting
the claim that the build fails before any output is produced. -/
theorem c1_missing_index_still_builds :
    load_template_index tplNoIndex = Except.error "Template missing: index.html" ∧
    pagesWritten
      (build_static_site "r" fsOneNb none (fun _ => true) tplNoIndex "T" (fun _ => "ts".data))
      = [("software.html", "S 1".data)] ∧
    outsOf (collect_tree "r" fsOneNb none (fun _ => true)) = [["nb.html"]] :=
  ⟨rfl, by decide, by decide⟩

/- ===================== Order and prefix lemmas ========================= -/

theorem charsLt_irrefl (a : List Char) : charsLt a a = false := by
  induction a with
  | nil => rfl
  | cons c cs ih => simp [charsLt, ih]

theorem charsLt_trans (a b c : List Char) (h1 : charsLt a b = true) (h2 : charsLt b c = true) :
    charsLt a c = true := by
  induction a generalizing b c with
  | nil =>
    cases c with
    | nil =>
      cases b with
      | nil => exact h1
      | cons y ys => simp [charsLt] at h2
    | cons z zs => rfl
  | cons x xs ih =>
    cases b with
    | nil => simp [charsLt] at h1
    | cons y ys =>
      cases c with
      | nil => simp [charsLt] at h2
      | cons z zs =>
        simp only [charsLt] at h1 h2 ⊢
        by_cases hxy : x = y
        · subst hxy
          rw [if_pos rfl] at h1
          by_cases hyz : x = z
          · subst hyz
            rw [if_pos rfl] at h2 ⊢
            exact ih ys zs h1 h2
          · rw [if_neg hyz] at h2 ⊢
            exact h2
        · rw [if_neg hxy] at h1
          by_cases hyz : y = z
          · subst hyz
            rw [if_neg hxy]
            exact h1
          · rw [if_neg hyz] at h2
            by_cases hxz : x = z
            · subst hxz
              exfalso
              have h1' : x < y := of_decide_eq_true h1
              have h2' : y < x := of_decide_eq_true h2
              exact absurd (lt_trans h1' h2') (lt_irrefl x)
            · rw [if_neg hxz]
              have h1' : x < y := of_decide_eq_true h1
              have h2' : y < z := of_decide_eq_true h2
              exact decide_eq_true (lt_trans h1' h2')

theorem charsLt_asymm (a b : List Char) (h : charsLt a b = true) : charsLt b a = false := by
  by_contra hc
  rw [Bool.not_eq_false] at hc
  have := charsLt_trans a b a h hc
  rw [charsLt_irrefl] at this
  exact Bool.false_ne_true this

theorem charsLe_iff (a b : List Char) : charsLe a b = true ↔ (charsLt a b = true ∨ a = b) := by
  induction a generalizing b with
  | nil => cases b <;> simp [charsLe, charsLt]
  | cons x xs ih =>
    cases b with
    | nil => simp [charsLe, charsLt]
    | cons y ys =>
      by_cases hxy : x = y
      · subst hxy
        simp [charsLe, charsLt, ih ys]
      · simp [charsLe, charsLt, hxy]

theorem charsLe_total (a b : List Char) : charsLe a b = true ∨ charsLe b a = true := by
  induction a generalizing b with
  | nil => exact Or.inl rfl
  | cons x xs ih =>
    cases b with
    | nil => exact Or.inr rfl
    | cons y ys =>
      simp only [charsLe]
      by_cases hxy : x = y
      · subst hxy
        simp only [if_pos rfl]
        exact ih ys
      · have hyx : ¬(y = x) := fun h => hxy h.symm
        simp only [if_neg hxy, if_neg hyx]
        rcases lt_trichotomy x y with h | h | h
        · exact Or.inl (decide_eq_true h)
        · exact absurd h hxy
        · exact Or.inr (decide_eq_true h)

theorem charsLe_trans (a b c : List Char) (h1 : charsLe a b = true) (h2 : charsLe b c = true) :
    charsLe a c = true := by
  rw [charsLe_iff] at h1 h2 ⊢
  rcases h1 with h1 | rfl
  · rcases h2 with h2 | rfl
    · exact Or.inl (charsLt_trans a b c h1 h2)
    · exact Or.inl h1
  · exact h2

theorem charsLt_append_right (l : List Char) (c : Char) (t : List Char) :
    charsLt l (l ++ c :: t) = true := by
  induction l with
  | nil => rfl
  | cons x xs ih => simp [charsLt, ih]

theorem charsLt_cancel (k a b : List Char) : charsLt (k ++ a) (k ++ b) = charsLt a b := by
  induction k with
  | nil => rfl
  | cons x xs ih => simp [charsLt, ih]

theorem key_append (p q : List String) (hp : p ≠ []) (hq : q ≠ []) :
    key (p ++ q) = key p ++ '/' :: key q := by
  induction p with
  | nil => exact absurd rfl hp
  | cons a p ih =>
    cases p with
    | nil =>
      cases q with
      | nil => exact absurd rfl hq
      | cons b q => simp [key]
    | cons a2 p2 =>
      have ihh := ih (by simp)
      calc key ((a :: a2 :: p2) ++ q) = a.data ++ '/' :: key (a2 :: p2 ++ q) := by
            simp [key]
        _ = a.data ++ '/' :: (key (a2 :: p2) ++ '/' :: key q) := by rw [ihh]
        _ = key (a :: a2 :: p2) ++ '/' :: key q := by simp [key]

/- listPre lemmas -/

theorem listPre_refl (a : List String) : listPre a a = true := by
  induction a with
  | nil => rfl
  | cons x xs ih => simp [listPre, ih]

theorem listPre_iff_append (a b : List String) :
    listPre a b = true ↔ ∃ r, b = a ++ r := by
  induction a generalizing b with
  | nil => simp [listPre]
  | cons x xs ih =>
    cases b with
    | nil =>
      simp only [listPre]
      constructor
      · intro h; cases h
      · rintro ⟨r, hr⟩; simp at hr
    | cons y ys =>
      simp only [listPre]
      by_cases hxy : x = y
      · subst hxy
        rw [if_pos rfl, ih ys]
        constructor
        · rintro ⟨r, rfl⟩; exact ⟨r, rfl⟩
        · rintro ⟨r, hr⟩
          rw [List.cons_append] at hr
          exact ⟨r, (List.cons.injEq .. ▸ hr).2⟩
      · rw [if_neg hxy]
        constructor
        · intro h; cases h
        · rintro ⟨r, hr⟩
          rw [List.cons_append] at hr
          exact absurd ((List.cons.injEq .. ▸ hr).1).symm hxy

theorem listPre_trans (a b c : List String) (h1 : listPre a b = true) (h2 : listPre b c = true) :
    listPre a c = true := by
  rw [listPre_iff_append] at h1 h2 ⊢
  rcases h1 with ⟨r1, rfl⟩
  rcases h2 with ⟨r2, rfl⟩
  exact ⟨r1 ++ r2, by simp⟩

theorem listPre_append (a r : List String) : listPre a (a ++ r) = true := by
  rw [listPre_iff_append]; exact ⟨r, rfl⟩

theorem listPre_take (l : List String) (i : Nat) : listPre (l.take i) l = true := by
  rw [listPre_iff_append]
  exact ⟨l.drop i, (List.take_append_drop i l).symm⟩

theorem listPre_length (a b : List String) (h : listPre a b = true) : a.length ≤ b.length := by
  rw [listPre_iff_append] at h
  rcases h with ⟨r, rfl⟩
  simp

theorem listPre_dropLast (l : List String) : listPre l.dropLast l = true := by
  rw [List.dropLast_eq_take]
  exact listPre_take l (l.length - 1)

/- A prefix has a `charsLe` key; a proper prefix has a `charsLt` key. -/

theorem key_le_of_listPre (a b : List String) (h : listPre a b = true) :
    charsLe (key a) (key b) = true := by
  rw [listPre_iff_append] at h
  rcases h with ⟨r, rfl⟩
  rcases r with _ | ⟨x, xs⟩
  · rw [List.append_nil, charsLe_iff]; exact Or.inr rfl
  · rcases a with _ | ⟨y, ys⟩
    · rfl
    · rw [key_append (y :: ys) (x :: xs) (by simp) (by simp), charsLe_iff]
      exact Or.inl (charsLt_append_right _ _ _)

theorem key_lt_of_listPre_proper (a b : List String) (ha : a ≠ []) (h : listPre a b = true)
    (hne : a ≠ b) : charsLt (key a) (key b) = true := by
  rw [listPre_iff_append] at h
  rcases h with ⟨r, rfl⟩
  rcases r with _ | ⟨x, xs⟩
  · exact absurd (by simp) hne
  · rw [key_append a (x :: xs) ha (by simp)]
    exact charsLt_append_right _ _ _

/- ===================== Key injectivity for usable names ================ -/

theorem goodNameB_iff (s : String) :
    goodNameB s = true ↔ (s.data ≠ [] ∧ '/' ∉ s.data) := by
  unfold goodNameB
  by_cases h : s = ""
  · subst h
    simp
  · rw [if_neg h]
    have hd : s.data ≠ [] := by
      intro hdata
      apply h
      cases s with
      | mk d => simp at hdata; rw [hdata]
    simp [hd]

theorem split_slash (x y s t : List Char) (hx : '/' ∉ x) (hy : '/' ∉ y)
    (hs : s = [] ∨ ∃ s2, s = '/' :: s2) (ht : t = [] ∨ ∃ t2, t = '/' :: t2)
    (h : x ++ s = y ++ t) : x = y ∧ s = t := by
  induction x generalizing y with
  | nil =>
    cases y with
    | nil => exact ⟨rfl, h⟩
    | cons d y2 =>
      exfalso
      simp only [List.nil_append, List.cons_append] at h
      rcases hs with rfl | ⟨s2, rfl⟩
      · cases h
      · have : d = '/' := by
          have := (List.cons.injEq .. ▸ h).1
          exact this.symm
        exact hy (this ▸ List.mem_cons_self d y2)
  | cons c x2 ih =>
    cases y with
    | nil =>
      exfalso
      simp only [List.cons_append, List.nil_append] at h
      rcases ht with rfl | ⟨t2, rfl⟩
      · cases h
      · have : c = '/' := (List.cons.injEq .. ▸ h.symm).1.symm
        exact hx (this ▸ List.mem_cons_self c x2)
    | cons d y2 =>
      simp only [List.cons_append] at h
      have h1 : c = d := (List.cons.injEq .. ▸ h).1
      have h2 : x2 ++ s = y2 ++ t := (List.cons.injEq .. ▸ h).2
      have := ih y2 (fun hm => hx (List.mem_cons_of_mem c hm))
        (fun hm => hy (List.mem_cons_of_mem d hm)) h2
      exact ⟨by rw [h1, this.1], this.2⟩

theorem key_cons_shape (b : String) (q : List String) :
    key (b :: q) = b.data ++ (if q = [] then [] else '/' :: key q) := by
  cases q with
  | nil => simp [key]
  | cons c q2 => simp [key]

theorem key_inj (p q : List String) (hp : ∀ c ∈ p, goodNameB c = true)
    (hq : ∀ c ∈ q, goodNameB c = true) (h : key p = key q) : p = q := by
  induction p generalizing q with
  | nil =>
    cases q with
    | nil => rfl
    | cons b q2 =>
      exfalso
      rw [key_cons_shape] at h
      have hb := (goodNameB_iff b).mp (hq b (List.mem_cons_self b q2))
      rcases hbd : b.data with _ | ⟨c, cs⟩
      · exact hb.1 hbd
      · rw [hbd] at h
        simp [key] at h
  | cons a p2 ih =>
    cases q with
    | nil =>
      exfalso
      rw [key_cons_shape] at h
      have ha := (goodNameB_iff a).mp (hp a (List.mem_cons_self a p2))
      rcases had : a.data with _ | ⟨c, cs⟩
      · exact ha.1 had
      · rw [had] at h
        simp [key] at h
    | cons b q2 =>
      rw [key_cons_shape, key_cons_shape] at h
      have ha := (goodNameB_iff a).mp (hp a (List.mem_cons_self a p2))
      have hb := (goodNameB_iff b).mp (hq b (List.mem_cons_self b q2))
      have hsplit := split_slash a.data b.data _ _ ha.2 hb.2
        (by
          by_cases hp2 : p2 = []
          · exact Or.inl (by rw [if_pos hp2])
          · exact Or.inr ⟨key p2, by rw [if_neg hp2]⟩)
        (by
          by_cases hq2 : q2 = []
          · exact Or.inl (by rw [if_pos hq2])
          · exact Or.inr ⟨key q2, by rw [if_neg hq2]⟩)
        h
      have hab : a = b := by
        cases a with
        | mk da =>
          cases b with
          | mk db => exact congrArg String.mk hsplit.1
      subst hab
      have htail := hsplit.2
      by_cases hp2 : p2 = []
      · by_cases hq2 : q2 = []
        · rw [hp2, hq2]
        · rw [if_pos hp2, if_neg hq2] at htail
          cases htail
      · by_cases hq2 : q2 = []
        · rw [if_neg hp2, if_pos hq2] at htail
          cases htail
        · rw [if_neg hp2, if_neg hq2] at htail
          have : key p2 = key q2 := (List.cons.injEq .. ▸ htail).2
          rw [ih q2 (fun c hc => hp c (List.mem_cons_of_mem a hc))
            (fun c hc => hq c (List.mem_cons_of_mem a hc)) this]

/- ===================== Insertion sort correctness ====================== -/

theorem insEntry_perm (a : Entry) (l : List Entry) : List.Perm (insEntry a l) (a :: l) := by
  induction l with
  | nil => exact List.Perm.refl _
  | cons b bs ih =>
    unfold insEntry
    by_cases h : charsLe (key a.comps) (key b.comps) = true
    · rw [if_pos h]
    · rw [if_neg h]
      exact List.Perm.trans (ih.cons b) (List.Perm.swap a b bs)

theorem sortEntries_perm (fs : List Entry) : List.Perm (sortEntries fs) fs := by
  induction fs with
  | nil => exact List.Perm.refl _
  | cons a rest ih =>
    unfold sortEntries
    exact List.Perm.trans (insEntry_perm a (sortEntries rest)) (ih.cons a)

def entryLeP (a b : Entry) : Prop := charsLe (key a.comps) (key b.comps) = true

def entryLtP (a b : Entry) : Prop := charsLt (key a.comps) (key b.comps) = true

theorem insEntry_sorted (a : Entry) (l : List Entry) (h : List.Pairwise entryLeP l) :
    List.Pairwise entryLeP (insEntry a l) := by
  induction l with
  | nil => exact List.pairwise_singleton _ a
  | cons b bs ih =>
    unfold insEntry
    by_cases hle : charsLe (key a.comps) (key b.comps) = true
    · rw [if_pos hle]
      refine List.pairwise_cons.mpr ⟨?_, h⟩
      intro x hx
      rcases List.mem_cons.mp hx with rfl | hx2
      · exact hle
      · exact charsLe_trans _ _ _ hle ((List.pairwise_cons.mp h).1 x hx2)
    · rw [if_neg hle]
      have hba : charsLe (key b.comps) (key a.comps) = true := by
        rcases charsLe_total (key a.comps) (key b.comps) with h1 | h1
        · exact absurd h1 hle
        · exact h1
      refine List.pairwise_cons.mpr ⟨?_, ih (List.pairwise_cons.mp h).2⟩
      intro x hx
      have hx2 := (insEntry_perm a bs).mem_iff.mp hx
      rcases List.mem_cons.mp hx2 with rfl | hx3
      · exact hba
      · exact (List.pairwise_cons.mp h).1 x hx3

theorem sortEntries_sorted (fs : List Entry) : List.Pairwise entryLeP (sortEntries fs) := by
  induction fs with
  | nil => exact List.Pairwise.nil
  | cons a rest ih =>
    unfold sortEntries
    exact insEntry_sorted a (sortEntries rest) ih

def entriesGood (fs : List Entry) : Prop :=
  ∀ e ∈ fs, e.comps ≠ [] ∧ ∀ c ∈ e.comps, goodNameB c = true

theorem sortEntries_sortedLt (fs : List Entry)
    (hnodup : (fs.map (fun e => e.comps)).Nodup) (hgood : entriesGood fs) :
    List.Pairwise entryLtP (sortEntries fs) := by
  have hperm := sortEntries_perm fs
  have hnodup2 : ((sortEntries fs).map (fun e => e.comps)).Nodup :=
    (List.Perm.nodup_iff (hperm.map (fun e => e.comps))).mpr hnodup
  have hne : List.Pairwise (fun a b : Entry => a.comps ≠ b.comps) (sortEntries fs) :=
    (List.pairwise_map).mp hnodup2
  have hs := sortEntries_sorted fs
  have hcomb := List.Pairwise.and hs hne
  refine List.Pairwise.imp_of_mem ?_ hcomb
  intro a b ha hb hab
  rcases hab with ⟨h1, h2⟩
  unfold entryLeP at h1
  unfold entryLtP
  rw [charsLe_iff] at h1
  rcases h1 with h1 | h1
  · exact h1
  · exfalso
    have hga := hgood a (hperm.mem_iff.mp ha)
    have hgb := hgood b (hperm.mem_iff.mp hb)
    exact h2 (key_inj a.comps b.comps hga.2 hgb.2 h1)

/- ===================== Collector state observers ======================= -/

def dirParts (e : Entry) : List String := if e.isDir then e.comps else e.comps.dropLast

def refName : ChildRef → String
  | ChildRef.dirRef n => n
  | ChildRef.fileRef n _ _ => n

def dirRefName : ChildRef → Option String
  | ChildRef.dirRef n => some n
  | ChildRef.fileRef _ _ _ => none

def isFileRef : ChildRef → Bool
  | ChildRef.fileRef _ _ _ => true
  | ChildRef.dirRef _ => false

def dirNames (l : List ChildRef) : List String := l.filterMap dirRefName

def frCount (l : List ChildRef) : Nat := l.countP isFileRef

def frTotal (st : CState) : Nat :=
  ((([] : List String) :: st.dirs).map (fun q => frCount (st.kids q))).sum

/- The payload every file reference carries: it records a converted
notebook. -/
def filePayloadP (FG : List String → Prop) (p : List String) (c : ChildRef) : Prop :=
  ∀ n rel h, c = ChildRef.fileRef n rel h →
    rel ≠ [] ∧ n = lastComp rel ∧ h = htmlRel rel ∧ p = rel.dropLast ∧
    lowerL (pySuffix (lastComp rel)) = nbExt ∧ FG rel

/- The walk invariant.  `G` is an arbitrary property of the recorded
directory keys (instantiated per claim), `FG` one of the recorded notebook
paths. -/
structure WalkInv (G : List String → Prop) (FG : List String → Prop) (st : CState) : Prop where
  nodup : st.dirs.Nodup
  nroot : ([] : List String) ∉ st.dirs
  good : ∀ q ∈ st.dirs, G q
  closure : ∀ q ∈ st.dirs, ∀ i, 0 < i → i ≤ q.length → q.take i ∈ st.dirs
  kidsZero : ∀ p, p ≠ [] → p ∉ st.dirs → st.kids p = []
  dirCount : ∀ p n, (dirNames (st.kids p)).count n = (if p ++ [n] ∈ st.dirs then 1 else 0)
  outLen : st.nb_count = st.outputs.length
  total : frTotal st = st.nb_count
  fileP : ∀ p, ∀ c ∈ st.kids p, filePayloadP FG p c

theorem initSt_inv (G FG : List String → Prop) : WalkInv G FG initSt := by
  refine ⟨List.nodup_nil, List.not_mem_nil _, ?_, ?_, ?_, ?_, rfl, rfl, ?_⟩
  · intro q hq; exact absurd hq (List.not_mem_nil q)
  · intro q hq; exact absurd hq (List.not_mem_nil q)
  · intro p _ _; rfl
  · intro p n; simp [initSt, dirNames]
  · intro p c hc; exact absurd hc (List.not_mem_nil c)

theorem snoc_inj (x y : List String) (a b : String) (h : x ++ [a] = y ++ [b]) :
    x = y ∧ a = b := by
  have h2 := congrArg List.reverse h
  simp only [List.reverse_append, List.reverse_cons, List.reverse_nil, List.nil_append,
    List.singleton_append] at h2
  have h3 : a = b := (List.cons.injEq .. ▸ h2).1
  have h4 : x.reverse = y.reverse := (List.cons.injEq .. ▸ h2).2
  exact ⟨by
    have := congrArg List.reverse h4
    simpa using this, h3⟩

theorem dirNames_append (l1 l2 : List ChildRef) :
    dirNames (l1 ++ l2) = dirNames l1 ++ dirNames l2 := by
  unfold dirNames
  exact List.filterMap_append l1 l2 dirRefName

theorem frCount_append (l1 l2 : List ChildRef) :
    frCount (l1 ++ l2) = frCount l1 + frCount l2 := by
  unfold frCount
  exact List.countP_append isFileRef l1 l2

theorem sum_bump (r : List String) :
    ∀ (l : List (List String)) (f g : List String → Nat), l.Nodup → r ∈ l →
    (∀ x, g x = if x = r then f x + 1 else f x) →
    (l.map g).sum = (l.map f).sum + 1 := by
  intro l
  induction l with
  | nil => intro f g _ hr _; exact absurd hr (List.not_mem_nil r)
  | cons x xs ih =>
    intro f g hnd hr hg
    rcases List.mem_cons.mp hr with heq | hr2
    · subst heq
      have hx : g r = f r + 1 := by rw [hg r, if_pos rfl]
      have hrest : ∀ y ∈ xs, g y = f y := by
        intro y hy
        have : y ≠ r := fun hyx => (List.nodup_cons.mp hnd).1 (hyx ▸ hy)
        rw [hg y, if_neg this]
      have hmap : xs.map g = xs.map f := List.map_congr_left hrest
      simp only [List.map_cons, List.sum_cons, hx, hmap]
      omega
    · have hx : g x = f x := by
        have : x ≠ r := fun hxr => (List.nodup_cons.mp hnd).1 (hxr ▸ hr2)
        rw [hg x, if_neg this]
      have := ih f g (List.nodup_cons.mp hnd).2 hr2 hg
      simp only [List.map_cons, List.sum_cons, hx, this]
      omega

/- ===================== ensureFrom lemmas =============================== -/

/- One step of the directory-ensuring loop. -/
def ensure1 (pre : List String) (p : String) (st : CState) : CState :=
  if pre ++ [p] ∈ st.dirs then st
  else
    { st with
      dirs := st.dirs ++ [pre ++ [p]],
      kids := fun r => if r = pre then st.kids r ++ [ChildRef.dirRef p] else st.kids r }

theorem ensureFrom_cons (pre : List String) (p : String) (rest : List String) (st : CState) :
    ensureFrom pre (p :: rest) st = ensureFrom (pre ++ [p]) rest (ensure1 pre p st) := rfl

theorem ensureFrom_nil (pre : List String) (st : CState) : ensureFrom pre [] st = st := rfl

theorem ensure1_outputs (pre : List String) (p : String) (st : CState) :
    (ensure1 pre p st).outputs = st.outputs := by
  unfold ensure1
  split <;> rfl

theorem ensure1_nb (pre : List String) (p : String) (st : CState) :
    (ensure1 pre p st).nb_count = st.nb_count := by
  unfold ensure1
  split <;> rfl

theorem ensure1_dirs_mono (pre : List String) (p : String) (st : CState) (q : List String)
    (h : q ∈ st.dirs) : q ∈ (ensure1 pre p st).dirs := by
  unfold ensure1
  split
  · exact h
  · exact List.mem_append_left _ h

theorem ensure1_dirs_sub (pre : List String) (p : String) (st : CState) (q : List String)
    (h : q ∈ (ensure1 pre p st).dirs) : q ∈ st.dirs ∨ q = pre ++ [p] := by
  unfold ensure1 at h
  split at h
  · exact Or.inl h
  · rcases List.mem_append.mp h with h2 | h2
    · exact Or.inl h2
    · exact Or.inr (by simpa using h2)

theorem ensure1_mem (pre : List String) (p : String) (st : CState) :
    pre ++ [p] ∈ (ensure1 pre p st).dirs := by
  unfold ensure1
  split
  · assumption
  · exact List.mem_append_right _ (by simp)

theorem ensure1_kids (pre : List String) (p : String) (st : CState) (r : List String) :
    (ensure1 pre p st).kids r = st.kids r ∨
      (ensure1 pre p st).kids r = st.kids r ++ [ChildRef.dirRef p] := by
  unfold ensure1
  split
  · exact Or.inl rfl
  · by_cases hr : r = pre
    · exact Or.inr (by simp [hr])
    · exact Or.inl (by simp [hr])

theorem ensure1_inv (G FG : List String → Prop) (pre : List String) (p : String) (st : CState)
    (hInv : WalkInv G FG st) (hpre : pre = [] ∨ pre ∈ st.dirs) (hGq : G (pre ++ [p])) :
    WalkInv G FG (ensure1 pre p st) := by
  unfold ensure1
  by_cases hmem : pre ++ [p] ∈ st.dirs
  · rw [if_pos hmem]; exact hInv
  · rw [if_neg hmem]
    have hq0ne : pre ++ [p] ≠ [] := by simp
    refine ⟨?_, ?_, ?_, ?_, ?_, ?_, hInv.outLen, ?_, ?_⟩
    · exact List.Nodup.append hInv.nodup (List.nodup_singleton (pre ++ [p]))
        (fun a ha hb => by
          rw [List.mem_singleton] at hb
          exact hmem (hb ▸ ha))
    · intro hc
      rcases List.mem_append.mp hc with h2 | h2
      · exact hInv.nroot h2
      · rw [List.mem_singleton] at h2
        exact hq0ne h2.symm
    · intro q hq
      rcases List.mem_append.mp hq with h2 | h2
      · exact hInv.good q h2
      · rw [List.mem_singleton] at h2
        exact h2 ▸ hGq
    · intro q hq i hi1 hi2
      rcases List.mem_append.mp hq with h2 | h2
      · exact List.mem_append_left _ (hInv.closure q h2 i hi1 hi2)
      · rw [List.mem_singleton] at h2
        subst h2
        have hlen : (pre ++ [p]).length = pre.length + 1 := by simp
        by_cases hip : i ≤ pre.length
        · have htk : (pre ++ [p]).take i = pre.take i :=
            List.take_append_of_le_length hip
          rcases hpre with rfl | hpre2
          · exfalso; simp at hip; omega
          · refine List.mem_append_left _ ?_
            rw [htk]
            exact hInv.closure pre hpre2 i hi1 hip
        · have hieq : i = pre.length + 1 := by
            rw [hlen] at hi2; omega
          have htk : (pre ++ [p]).take i = pre ++ [p] := by
            rw [hieq, ← hlen]
            exact List.take_length _
          rw [htk]
          exact List.mem_append_right _ (by simp)
    · intro r hr1 hr2
      have hrp : r ≠ pre := by
        intro heq
        subst heq
        rcases hpre with rfl | hpre2
        · exact hr1 rfl
        · exact hr2 (List.mem_append_left _ hpre2)
      have hrd : r ∉ st.dirs := fun hc => hr2 (List.mem_append_left _ hc)
      simp only [if_neg hrp]
      exact hInv.kidsZero r hr1 hrd
    · intro p2 n
      show (dirNames (if p2 = pre then st.kids p2 ++ [ChildRef.dirRef p] else st.kids p2)).count n
        = if p2 ++ [n] ∈ st.dirs ++ [pre ++ [p]] then 1 else 0
      by_cases hp2 : p2 = pre
      · rw [if_pos hp2, dirNames_append, List.count_append]
        have hsingle : (dirNames [ChildRef.dirRef p]).count n = if n = p then 1 else 0 := by
          simp only [dirNames, List.filterMap, dirRefName]
          by_cases hnp : n = p <;> simp [List.count_cons, hnp]
        rw [hInv.dirCount p2 n, hsingle]
        by_cases hnp : n = p
        · subst hnp
          subst hp2
          rw [if_neg hmem, if_pos (List.mem_append_right _ (by simp))]
          simp
        · have hne : p2 ++ [n] ≠ pre ++ [p] := by
            intro hc
            exact hnp (snoc_inj _ _ _ _ hc).2
          rw [if_neg hnp]
          by_cases hin : p2 ++ [n] ∈ st.dirs
          · rw [if_pos hin, if_pos (List.mem_append_left _ hin)]
          · have hnotin : p2 ++ [n] ∉ st.dirs ++ [pre ++ [p]] := by
              intro hcmem
              rcases List.mem_append.mp hcmem with h2 | h2
              · exact hin h2
              · rw [List.mem_singleton] at h2
                exact hne h2
            rw [if_neg hin, if_neg hnotin]
      · rw [if_neg hp2, hInv.dirCount p2 n]
        have hne : p2 ++ [n] ≠ pre ++ [p] := by
          intro hc
          exact hp2 (snoc_inj _ _ _ _ hc).1
        by_cases hin : p2 ++ [n] ∈ st.dirs
        · rw [if_pos hin, if_pos (List.mem_append_left _ hin)]
        · have hnotin : p2 ++ [n] ∉ st.dirs ++ [pre ++ [p]] := by
            intro hcmem
            rcases List.mem_append.mp hcmem with h2 | h2
            · exact hin h2
            · rw [List.mem_singleton] at h2
              exact hne h2
          rw [if_neg hin, if_neg hnotin]
    · have hkeq : ∀ r, frCount (if r = pre then st.kids r ++ [ChildRef.dirRef p] else st.kids r)
          = frCount (st.kids r) := by
        intro r
        by_cases hr : r = pre
        · rw [if_pos hr, frCount_append]
          have hz1 : frCount [ChildRef.dirRef p] = 0 := by
            simp [frCount, List.countP_cons, isFileRef]
          rw [hz1]
          omega
        · rw [if_neg hr]
      show ((([] : List String) :: (st.dirs ++ [pre ++ [p]])).map
        (fun q => frCount (if q = pre then st.kids q ++ [ChildRef.dirRef p] else st.kids q))).sum
        = st.nb_count
      have h1 : (([] : List String) :: (st.dirs ++ [pre ++ [p]]))
          = (([] : List String) :: st.dirs) ++ [pre ++ [p]] := by simp
      rw [h1, List.map_append, List.sum_append,
        List.map_congr_left (fun q _ => hkeq q)]
      have hz : frCount (st.kids (pre ++ [p])) = 0 := by
        rw [hInv.kidsZero (pre ++ [p]) hq0ne hmem]
        rfl
      have hlast : ([pre ++ [p]].map
          (fun q => frCount (if q = pre then st.kids q ++ [ChildRef.dirRef p] else st.kids q))).sum
          = 0 := by
        simp only [List.map_cons, List.map_nil, List.sum_cons, List.sum_nil]
        rw [hkeq, hz]
        omega
      rw [hlast]
      have htot := hInv.total
      unfold frTotal at htot
      omega
    · intro p2 c hc
      have hc2 : c ∈ (if p2 = pre then st.kids p2 ++ [ChildRef.dirRef p] else st.kids p2) := hc
      by_cases hp2 : p2 = pre
      · rw [if_pos hp2] at hc2
        rcases List.mem_append.mp hc2 with h2 | h2
        · exact hInv.fileP p2 c h2
        · rw [List.mem_singleton] at h2
          subst h2
          intro n rel hh hcc
          cases hcc
      · rw [if_neg hp2] at hc2
        exact hInv.fileP p2 c hc2

theorem ensureFrom_inv (G FG : List String → Prop) :
    ∀ (ps pre : List String) (st : CState), WalkInv G FG st →
    (pre = [] ∨ pre ∈ st.dirs) →
    (∀ i, 0 < i → i ≤ ps.length → G (pre ++ ps.take i)) →
    WalkInv G FG (ensureFrom pre ps st) := by
  intro ps
  induction ps with
  | nil => intro pre st hInv _ _; exact hInv
  | cons p rest ih =>
    intro pre st hInv hpre hG
    rw [ensureFrom_cons]
    have hInv1 : WalkInv G FG (ensure1 pre p st) :=
      ensure1_inv G FG pre p st hInv hpre (by
        have := hG 1 (by omega) (by simp)
        simpa using this)
    refine ih (pre ++ [p]) (ensure1 pre p st) hInv1 (Or.inr (ensure1_mem pre p st)) ?_
    intro i hi1 hi2
    have := hG (i + 1) (by omega) (by simp; omega)
    simpa [List.append_assoc] using this

theorem ensureFrom_outputs : ∀ (ps pre : List String) (st : CState),
    (ensureFrom pre ps st).outputs = st.outputs := by
  intro ps
  induction ps with
  | nil => intro pre st; rfl
  | cons p rest ih => intro pre st; rw [ensureFrom_cons, ih, ensure1_outputs]

theorem ensureFrom_nb : ∀ (ps pre : List String) (st : CState),
    (ensureFrom pre ps st).nb_count = st.nb_count := by
  intro ps
  induction ps with
  | nil => intro pre st; rfl
  | cons p rest ih => intro pre st; rw [ensureFrom_cons, ih, ensure1_nb]

theorem ensureFrom_dirs_mono : ∀ (ps pre : List String) (st : CState) (q : List String),
    q ∈ st.dirs → q ∈ (ensureFrom pre ps st).dirs := by
  intro ps
  induction ps with
  | nil => intro pre st q h; exact h
  | cons p rest ih =>
    intro pre st q h
    rw [ensureFrom_cons]
    exact ih (pre ++ [p]) _ q (ensure1_dirs_mono pre p st q h)

theorem ensureFrom_dirs_sub : ∀ (ps pre : List String) (st : CState) (q : List String),
    q ∈ (ensureFrom pre ps st).dirs →
    q ∈ st.dirs ∨ ∃ i, 0 < i ∧ i ≤ ps.length ∧ q = pre ++ ps.take i := by
  intro ps
  induction ps with
  | nil => intro pre st q h; exact Or.inl h
  | cons p rest ih =>
    intro pre st q h
    rw [ensureFrom_cons] at h
    rcases ih (pre ++ [p]) _ q h with h2 | ⟨i, hi1, hi2, hi3⟩
    · rcases ensure1_dirs_sub pre p st q h2 with h3 | h3
      · exact Or.inl h3
      · exact Or.inr ⟨1, by omega, by simp, by simpa using h3⟩
    · refine Or.inr ⟨i + 1, by omega, by simp; omega, ?_⟩
      rw [hi3]
      simp [List.append_assoc]

theorem ensureFrom_chain : ∀ (ps pre : List String) (st : CState) (i : Nat),
    0 < i → i ≤ ps.length → pre ++ ps.take i ∈ (ensureFrom pre ps st).dirs := by
  intro ps
  induction ps with
  | nil => intro pre st i h1 h2; simp at h2; omega
  | cons p rest ih =>
    intro pre st i h1 h2
    rw [ensureFrom_cons]
    rcases i with _ | j
    · omega
    · rcases Nat.eq_zero_or_pos j with rfl | hj
      · simpa using ensureFrom_dirs_mono rest (pre ++ [p]) _ _ (ensure1_mem pre p st)
      · have := ih (pre ++ [p]) (ensure1 pre p st) j hj (by simp at h2; omega)
        simpa [List.append_assoc] using this

theorem ensureFrom_kids_append : ∀ (ps pre : List String) (st : CState) (r : List String),
    ∃ app, (ensureFrom pre ps st).kids r = st.kids r ++ app ∧
      ∀ c ∈ app, ∃ n, c = ChildRef.dirRef n := by
  intro ps
  induction ps with
  | nil =>
    intro pre st r
    exact ⟨[], by rw [ensureFrom_nil]; simp, fun c hc => absurd hc (List.not_mem_nil c)⟩
  | cons p rest ih =>
    intro pre st r
    rw [ensureFrom_cons]
    rcases ih (pre ++ [p]) (ensure1 pre p st) r with ⟨app2, happ2, hall2⟩
    rcases ensure1_kids pre p st r with h1 | h1
    · exact ⟨app2, by rw [happ2, h1], hall2⟩
    · refine ⟨[ChildRef.dirRef p] ++ app2, by rw [happ2, h1, List.append_assoc], ?_⟩
      intro c hc
      rcases List.mem_append.mp hc with h2 | h2
      · rw [List.mem_singleton] at h2
        exact ⟨p, h2⟩
      · exact hall2 c h2

/- ===================== procEntry branch equations ====================== -/

theorem procEntry_excl (o : Option (List String)) (cv : List String → Bool) (st : CState)
    (e : Entry) (h : excludedBy o e.comps = true) : procEntry o cv st e = Except.ok st := by
  unfold procEntry
  rw [if_pos h]

theorem procEntry_empty (o : Option (List String)) (cv : List String → Bool) (st : CState)
    (e : Entry) (h1 : excludedBy o e.comps = false) (h2 : e.comps = []) :
    procEntry o cv st e = Except.ok st := by
  unfold procEntry
  rw [if_neg (by rw [h1]; exact Bool.false_ne_true), if_pos h2]

theorem procEntry_dir (o : Option (List String)) (cv : List String → Bool) (st : CState)
    (e : Entry) (h1 : excludedBy o e.comps = false) (h2 : e.comps ≠ []) (h3 : e.isDir = true) :
    procEntry o cv st e = Except.ok (ensureFrom [] e.comps st) := by
  unfold procEntry
  rw [if_neg (by rw [h1]; exact Bool.false_ne_true), if_neg h2]
  simp [h3]

theorem procEntry_skip (o : Option (List String)) (cv : List String → Bool) (st : CState)
    (e : Entry) (h1 : excludedBy o e.comps = false) (h2 : e.comps ≠ []) (h3 : e.isDir = false)
    (h4 : lowerL (pySuffix (lastComp e.comps)) ≠ nbExt) :
    procEntry o cv st e = Except.ok (ensureFrom [] e.comps.dropLast st) := by
  unfold procEntry
  rw [if_neg (by rw [h1]; exact Bool.false_ne_true), if_neg h2]
  simp [h3, h4]

theorem procEntry_nb_ok (o : Option (List String)) (cv : List String → Bool) (st : CState)
    (e : Entry) (h1 : excludedBy o e.comps = false) (h2 : e.comps ≠ []) (h3 : e.isDir = false)
    (h4 : lowerL (pySuffix (lastComp e.comps)) = nbExt) (h5 : cv e.comps = true) :
    procEntry o cv st e = Except.ok
      { ensureFrom [] e.comps.dropLast st with
        nb_count := (ensureFrom [] e.comps.dropLast st).nb_count + 1,
        outputs := (ensureFrom [] e.comps.dropLast st).outputs ++ [htmlRel e.comps],
        kids := fun r =>
          if r = e.comps.dropLast then
            (ensureFrom [] e.comps.dropLast st).kids r
              ++ [ChildRef.fileRef (lastComp e.comps) e.comps (htmlRel e.comps)]
          else (ensureFrom [] e.comps.dropLast st).kids r } := by
  unfold procEntry
  rw [if_neg (by rw [h1]; exact Bool.false_ne_true), if_neg h2]
  simp [h3, h4, h5]

theorem procEntry_nb_fail (o : Option (List String)) (cv : List String → Bool) (st : CState)
    (e : Entry) (h1 : excludedBy o e.comps = false) (h2 : e.comps ≠ []) (h3 : e.isDir = false)
    (h4 : lowerL (pySuffix (lastComp e.comps)) = nbExt) (h5 : cv e.comps = false) :
    procEntry o cv st e = Except.error
      { ensureFrom [] e.comps.dropLast st with
        nb_count := (ensureFrom [] e.comps.dropLast st).nb_count + 1 } := by
  unfold procEntry
  rw [if_neg (by rw [h1]; exact Bool.false_ne_true), if_neg h2]
  simp [h3, h4, h5]

theorem take_ne_nil (l : List String) (i : Nat) (h1 : 0 < i) (h2 : l ≠ []) :
    l.take i ≠ [] := by
  cases l with
  | nil => exact absurd rfl h2
  | cons x xs =>
    cases i with
    | zero => omega
    | succ j => simp

theorem bool_eq_false_of_ne_true {b : Bool} (h : ¬(b = true)) : b = false := by
  cases b
  · rfl
  · exact absurd rfl h

/- ===================== procEntry preserves the invariant =============== -/

theorem procEntry_inv (G FG : List String → Prop) (o : Option (List String))
    (cv : List String → Bool) (st : CState) (e : Entry) (st' : CState)
    (hInv : WalkInv G FG st)
    (hG : excludedBy o e.comps = false → ∀ q, q ≠ [] → listPre q (dirParts e) = true → G q)
    (hFG : excludedBy o e.comps = false → e.comps ≠ [] → e.isDir = false →
      lowerL (pySuffix (lastComp e.comps)) = nbExt → FG e.comps)
    (h : procEntry o cv st e = Except.ok st') : WalkInv G FG st' := by
  by_cases hex : excludedBy o e.comps = true
  · rw [procEntry_excl o cv st e hex] at h
    exact (Except.ok.inj h) ▸ hInv
  · have hex2 : excludedBy o e.comps = false := bool_eq_false_of_ne_true hex
    by_cases hem : e.comps = []
    · rw [procEntry_empty o cv st e hex2 hem] at h
      exact (Except.ok.inj h) ▸ hInv
    · by_cases hdir : e.isDir = true
      · rw [procEntry_dir o cv st e hex2 hem hdir] at h
        refine (Except.ok.inj h) ▸ ensureFrom_inv G FG e.comps [] st hInv (Or.inl rfl) ?_
        intro i hi1 hi2
        rw [List.nil_append]
        refine hG hex2 (e.comps.take i) (take_ne_nil e.comps i hi1 hem) ?_
        unfold dirParts
        rw [if_pos hdir]
        exact listPre_take e.comps i
      · have hdir2 : e.isDir = false := bool_eq_false_of_ne_true hdir
        have hdp : dirParts e = e.comps.dropLast := by
          unfold dirParts
          rw [if_neg (by rw [hdir2]; exact Bool.false_ne_true)]
        have hensure : WalkInv G FG (ensureFrom [] e.comps.dropLast st) := by
          refine ensureFrom_inv G FG e.comps.dropLast [] st hInv (Or.inl rfl) ?_
          intro i hi1 hi2
          rw [List.nil_append]
          have hdlne : e.comps.dropLast ≠ [] := by
            intro hc
            rw [hc] at hi2
            simp at hi2
            omega
          refine hG hex2 (e.comps.dropLast.take i) (take_ne_nil _ i hi1 hdlne) ?_
          rw [hdp]
          exact listPre_take e.comps.dropLast i
        by_cases hnb : lowerL (pySuffix (lastComp e.comps)) = nbExt
        · by_cases hcv : cv e.comps = true
          · rw [procEntry_nb_ok o cv st e hex2 hem hdir2 hnb hcv] at h
            refine (Except.ok.inj h) ▸ ?_
            set st1 := ensureFrom [] e.comps.dropLast st with hst1
            have hdl : e.comps.dropLast ∈ ([] : List String) :: st1.dirs := by
              rcases eq_or_ne e.comps.dropLast [] with hcase | hcase
              · rw [hcase]; exact List.mem_cons_self _ _
              · refine List.mem_cons_of_mem _ ?_
                have hlen : 0 < e.comps.dropLast.length := List.length_pos.mpr hcase
                have hch := ensureFrom_chain e.comps.dropLast [] st e.comps.dropLast.length hlen le_rfl
                rw [List.nil_append, List.take_length] at hch
                exact hch
            refine ⟨hensure.nodup, hensure.nroot, hensure.good, hensure.closure, ?_, ?_, ?_, ?_, ?_⟩
            · intro r hr1 hr2
              have hrdl : r ≠ e.comps.dropLast := by
                intro heq
                rcases List.mem_cons.mp hdl with h2 | h2
                · exact hr1 (heq.trans h2)
                · exact hr2 (heq ▸ h2)
              show (if r = e.comps.dropLast then _ else st1.kids r) = []
              rw [if_neg hrdl]
              exact hensure.kidsZero r hr1 hr2
            · intro p2 n
              show (dirNames (if p2 = e.comps.dropLast then
                st1.kids p2 ++ [ChildRef.fileRef (lastComp e.comps) e.comps (htmlRel e.comps)]
                else st1.kids p2)).count n = _
              by_cases hp2 : p2 = e.comps.dropLast
              · rw [if_pos hp2, dirNames_append]
                have : dirNames [ChildRef.fileRef (lastComp e.comps) e.comps (htmlRel e.comps)]
                    = [] := rfl
                rw [this, List.append_nil]
                exact hensure.dirCount p2 n
              · rw [if_neg hp2]
                exact hensure.dirCount p2 n
            · show st1.nb_count + 1 = (st1.outputs ++ [htmlRel e.comps]).length
              rw [List.length_append, hensure.outLen]
              rfl
            · show ((([] : List String) :: st1.dirs).map _).sum = st1.nb_count + 1
              have hbump := sum_bump e.comps.dropLast (([] : List String) :: st1.dirs)
                (fun q => frCount (st1.kids q))
                (fun q => frCount (if q = e.comps.dropLast then
                  st1.kids q ++ [ChildRef.fileRef (lastComp e.comps) e.comps (htmlRel e.comps)]
                  else st1.kids q))
                (List.nodup_cons.mpr ⟨hensure.nroot, hensure.nodup⟩) hdl
                (by
                  intro x
                  show frCount (if x = e.comps.dropLast then
                      st1.kids x ++ [ChildRef.fileRef (lastComp e.comps) e.comps (htmlRel e.comps)]
                      else st1.kids x)
                    = if x = e.comps.dropLast then frCount (st1.kids x) + 1
                      else frCount (st1.kids x)
                  by_cases hx : x = e.comps.dropLast
                  · rw [if_pos hx, if_pos hx, frCount_append]
                    have h1f : frCount [ChildRef.fileRef (lastComp e.comps) e.comps (htmlRel e.comps)]
                        = 1 := rfl
                    rw [h1f]
                  · rw [if_neg hx, if_neg hx])
              rw [hbump]
              have := hensure.total
              unfold frTotal at this
              omega
            · intro p2 c hc
              have hc2 : c ∈ (if p2 = e.comps.dropLast then
                  st1.kids p2 ++ [ChildRef.fileRef (lastComp e.comps) e.comps (htmlRel e.comps)]
                  else st1.kids p2) := hc
              by_cases hp2 : p2 = e.comps.dropLast
              · rw [if_pos hp2] at hc2
                rcases List.mem_append.mp hc2 with h2 | h2
                · exact hensure.fileP p2 c h2
                · rw [List.mem_singleton] at h2
                  subst h2
                  intro n rel hh hcc
                  have hn : n = lastComp e.comps := (ChildRef.fileRef.inj hcc.symm).1
                  have hrel : rel = e.comps := (ChildRef.fileRef.inj hcc.symm).2.1
                  have hhh : hh = htmlRel e.comps := (ChildRef.fileRef.inj hcc.symm).2.2
                  subst hn; subst hrel; subst hhh
                  exact ⟨hem, rfl, rfl, hp2, hnb, hFG hex2 hem hdir2 hnb⟩
              · rw [if_neg hp2] at hc2
                exact hensure.fileP p2 c hc2
          · have hcv2 : cv e.comps = false := bool_eq_false_of_ne_true hcv
            rw [procEntry_nb_fail o cv st e hex2 hem hdir2 hnb hcv2] at h
            cases h
        · rw [procEntry_skip o cv st e hex2 hem hdir2 hnb] at h
          exact (Except.ok.inj h) ▸ hensure

/- ===================== collectLoop lemmas ============================== -/

theorem collectLoop_nil (o : Option (List String)) (cv : List String → Bool) (st : CState) :
    collectLoop o cv st [] = Except.ok st := rfl

theorem collectLoop_cons_ok (o : Option (List String)) (cv : List String → Bool)
    (st st1 : CState) (e : Entry) (rest : List Entry)
    (hp : procEntry o cv st e = Except.ok st1) :
    collectLoop o cv st (e :: rest) = collectLoop o cv st1 rest := by
  show (match procEntry o cv st e with
        | Except.ok st2 => collectLoop o cv st2 rest
        | Except.error st2 => Except.error st2) = collectLoop o cv st1 rest
  rw [hp]

theorem collectLoop_cons_err (o : Option (List String)) (cv : List String → Bool)
    (st st1 : CState) (e : Entry) (rest : List Entry)
    (hp : procEntry o cv st e = Except.error st1) :
    collectLoop o cv st (e :: rest) = Except.error st1 := by
  show (match procEntry o cv st e with
        | Except.ok st2 => collectLoop o cv st2 rest
        | Except.error st2 => Except.error st2) = Except.error st1
  rw [hp]

theorem collectLoop_inv (G FG : List String → Prop) (o : Option (List String))
    (cv : List String → Bool) :
    ∀ (l : List Entry) (st st' : CState), WalkInv G FG st →
    (∀ e ∈ l,
      (excludedBy o e.comps = false → ∀ q, q ≠ [] → listPre q (dirParts e) = true → G q) ∧
      (excludedBy o e.comps = false → e.comps ≠ [] → e.isDir = false →
        lowerL (pySuffix (lastComp e.comps)) = nbExt → FG e.comps)) →
    collectLoop o cv st l = Except.ok st' → WalkInv G FG st' := by
  intro l
  induction l with
  | nil =>
    intro st st' hInv _ h
    exact (Except.ok.inj h) ▸ hInv
  | cons e rest ih =>
    intro st st' hInv hl h
    cases hp : procEntry o cv st e with
    | ok st1 =>
      rw [collectLoop_cons_ok o cv st st1 e rest hp] at h
      have h1 := hl e (List.mem_cons_self e rest)
      exact ih st1 st' (procEntry_inv G FG o cv st e st1 hInv h1.1 h1.2 hp)
        (fun e2 he2 => hl e2 (List.mem_cons_of_mem e he2)) h
    | error st1 =>
      rw [collectLoop_cons_err o cv st st1 e rest hp] at h
      cases h

theorem collectLoop_outputs (o : Option (List String)) (cv : List String → Bool) :
    ∀ (l : List Entry) (st st' : CState), collectLoop o cv st l = Except.ok st' →
    st'.outputs = st.outputs
      ++ l.filterMap (fun e => if isNbEntry o e then some (htmlRel e.comps) else none) := by
  intro l
  induction l with
  | nil =>
    intro st st' h
    rw [Except.ok.inj h]
    simp
  | cons e rest ih =>
    intro st st' h
    by_cases hex : excludedBy o e.comps = true
    · rw [collectLoop_cons_ok o cv st st e rest (procEntry_excl o cv st e hex)] at h
      have hnb : isNbEntry o e = false := by
        unfold isNbEntry
        rw [hex]
        rfl
      rw [ih st st' h]
      simp [hnb]
    · have hex2 : excludedBy o e.comps = false := bool_eq_false_of_ne_true hex
      by_cases hem : e.comps = []
      · rw [collectLoop_cons_ok o cv st st e rest (procEntry_empty o cv st e hex2 hem)] at h
        have hnb : isNbEntry o e = false := by
          unfold isNbEntry
          rw [hex2, hem]
          rfl
        rw [ih st st' h]
        simp [hnb]
      · by_cases hdir : e.isDir = true
        · rw [collectLoop_cons_ok o cv st _ e rest (procEntry_dir o cv st e hex2 hem hdir)] at h
          have hnb : isNbEntry o e = false := by
            unfold isNbEntry
            rw [hex2, hdir]
            simp
          rw [ih _ st' h, ensureFrom_outputs]
          simp [hnb]
        · have hdir2 : e.isDir = false := bool_eq_false_of_ne_true hdir
          by_cases hsuf : lowerL (pySuffix (lastComp e.comps)) = nbExt
          · cases hcv : cv e.comps with
            | true =>
              rw [collectLoop_cons_ok o cv st _ e rest
                (procEntry_nb_ok o cv st e hex2 hem hdir2 hsuf hcv)] at h
              have hnb : isNbEntry o e = true := by
                unfold isNbEntry
                rw [hex2, hdir2]
                simp [hem, hsuf]
              rw [ih _ st' h]
              show (ensureFrom [] e.comps.dropLast st).outputs ++ [htmlRel e.comps] ++ _ = _
              rw [ensureFrom_outputs]
              simp [hnb]
            | false =>
              rw [collectLoop_cons_err o cv st _ e rest
                (procEntry_nb_fail o cv st e hex2 hem hdir2 hsuf hcv)] at h
              cases h
          · rw [collectLoop_cons_ok o cv st _ e rest
              (procEntry_skip o cv st e hex2 hem hdir2 hsuf)] at h
            have hnb : isNbEntry o e = false := by
              unfold isNbEntry
              rw [hex2, hdir2]
              simp [hem, hsuf]
            rw [ih _ st' h, ensureFrom_outputs]
            simp [hnb]

theorem collectLoop_append (o : Option (List String)) (cv : List String → Bool) :
    ∀ (l1 l2 : List Entry) (st : CState),
    collectLoop o cv st (l1 ++ l2) =
      (match collectLoop o cv st l1 with
       | Except.ok st1 => collectLoop o cv st1 l2
       | Except.error st1 => Except.error st1) := by
  intro l1
  induction l1 with
  | nil => intro l2 st; rfl
  | cons e rest ih =>
    intro l2 st
    cases hp : procEntry o cv st e with
    | ok st1 =>
      rw [List.cons_append, collectLoop_cons_ok o cv st st1 e (rest ++ l2) hp,
        collectLoop_cons_ok o cv st st1 e rest hp, ih l2 st1]
    | error st1 =>
      rw [List.cons_append, collectLoop_cons_err o cv st st1 e (rest ++ l2) hp,
        collectLoop_cons_err o cv st st1 e rest hp]

/- ===================== prune lemmas ==================================== -/

/- Every directory node of the tree has at least one file descendant. -/
mutual
def allDirsHaveFileB : TreeNode → Bool
  | TreeNode.file _ _ _ => true
  | TreeNode.dir _ _ cs => hasFileKids cs && allDirsHaveFileKidsB cs
def allDirsHaveFileKidsB : List TreeNode → Bool
  | [] => true
  | c :: cs => allDirsHaveFileB c && allDirsHaveFileKidsB cs
end

theorem prune_snd_eq_hasFileDesc :
    ∀ t : TreeNode, (prune_empty_dirs t).2 = hasFileDesc t := by
  intro t
  induction t using TreeNode.rec (motive_2 := fun cs => (pruneKids cs).2 = hasFileKids cs) with
  | file n p h => rfl
  | dir n p cs ih => simp [prune_empty_dirs, hasFileDesc, ih]
  | nil => rfl
  | cons c cs ih1 ih2 => simp [pruneKids, hasFileKids, ih1, ih2]

theorem prune_isSome_eq_hasFileDesc (t : TreeNode) :
    (prune_empty_dirs t).1.isSome = hasFileDesc t := by
  cases t with
  | file n p h => rfl
  | dir n p cs =>
    show (if (pruneKids cs).2 then some (TreeNode.dir n p (pruneKids cs).1) else none).isSome = _
    have h2 := prune_snd_eq_hasFileDesc (TreeNode.dir n p cs)
    by_cases hb : (pruneKids cs).2 = true
    · rw [if_pos hb]
      show true = hasFileDesc (TreeNode.dir n p cs)
      rw [← h2]
      exact hb.symm
    · have hb2 : (pruneKids cs).2 = false := bool_eq_false_of_ne_true hb
      rw [if_neg hb]
      show false = hasFileDesc (TreeNode.dir n p cs)
      rw [← h2]
      exact hb2.symm

theorem prune_kept (t : TreeNode) :
    ∀ t', (prune_empty_dirs t).1 = some t' →
    hasFileDesc t' = true ∧ allDirsHaveFileB t' = true := by
  induction t using TreeNode.rec
    (motive_2 := fun cs =>
      allDirsHaveFileKidsB (pruneKids cs).1 = true ∧
      hasFileKids (pruneKids cs).1 = hasFileKids cs) with
  | file n p h =>
    intro t' ht'
    have : TreeNode.file n p h = t' := Option.some.inj ht'
    subst this
    exact ⟨rfl, rfl⟩
  | dir n p cs ih =>
    intro t' ht'
    by_cases hb : (pruneKids cs).2 = true
    · have heq : (prune_empty_dirs (TreeNode.dir n p cs)).1
          = some (TreeNode.dir n p (pruneKids cs).1) := by
        show (if (pruneKids cs).2 then some (TreeNode.dir n p (pruneKids cs).1) else none) = _
        rw [if_pos hb]
      rw [heq] at ht'
      have := Option.some.inj ht'
      subst this
      have hsnd := prune_snd_eq_hasFileDesc (TreeNode.dir n p cs)
      have hk : hasFileKids (pruneKids cs).1 = true := by
        rw [ih.2]
        show hasFileDesc (TreeNode.dir n p cs) = true
        rw [← hsnd]
        exact hb
      constructor
      · show hasFileKids (pruneKids cs).1 = true
        exact hk
      · show (hasFileKids (pruneKids cs).1 && allDirsHaveFileKidsB (pruneKids cs).1) = true
        rw [hk, ih.1]
        rfl
    · exfalso
      have heq : (prune_empty_dirs (TreeNode.dir n p cs)).1 = none := by
        show (if (pruneKids cs).2 then some (TreeNode.dir n p (pruneKids cs).1) else none) = _
        rw [if_neg hb]
      rw [heq] at ht'
      cases ht'
  | nil => exact ⟨rfl, rfl⟩
  | cons c cs ih1 ih2 =>
    constructor
    · show allDirsHaveFileKidsB
        (match (prune_empty_dirs c).1 with
          | some t => t :: (pruneKids cs).1
          | none => (pruneKids cs).1) = true
      cases hpc : (prune_empty_dirs c).1 with
      | some tc =>
        have hc := ih1 tc hpc
        show (allDirsHaveFileB tc && allDirsHaveFileKidsB (pruneKids cs).1) = true
        rw [hc.2, ih2.1]
        rfl
      | none => exact ih2.1
    · show hasFileKids
        (match (prune_empty_dirs c).1 with
          | some t => t :: (pruneKids cs).1
          | none => (pruneKids cs).1) = hasFileKids (c :: cs)
      cases hpc : (prune_empty_dirs c).1 with
      | some tc =>
        have hc := ih1 tc hpc
        have hcd : hasFileDesc c = true := by
          rw [← prune_isSome_eq_hasFileDesc c, hpc]
          rfl
        show (hasFileDesc tc || hasFileKids (pruneKids cs).1) = (hasFileDesc c || hasFileKids cs)
        rw [hc.1, hcd, ih2.2]
      | none =>
        have hcd : hasFileDesc c = false := by
          rw [← prune_isSome_eq_hasFileDesc c, hpc]
          rfl
        show hasFileKids (pruneKids cs).1 = (hasFileDesc c || hasFileKids cs)
        rw [hcd, ih2.2]
        rfl

/- ===================== collect_tree equations ========================== -/

theorem collect_tree_eq_ok (srcName : String) (fs : List Entry) (o : Option (List String))
    (cv : List String → Bool) (st : CState)
    (h : collectLoop o cv initSt (sortEntries fs) = Except.ok st) :
    collect_tree srcName fs o cv = Except.ok
      ((match (prune_empty_dirs
          (buildNode st.kids srcName [] (maxCompLen (sortEntries fs) + 1))).1 with
        | some t => t
        | none => TreeNode.dir srcName "" []), st.nb_count, st.outputs) := by
  show (match collectLoop o cv initSt (sortEntries fs) with
        | Except.error st => Except.error st
        | Except.ok st =>
          Except.ok ((match (prune_empty_dirs
              (buildNode st.kids srcName [] (maxCompLen (sortEntries fs) + 1))).1 with
            | some t => t
            | none => TreeNode.dir srcName "" []), st.nb_count, st.outputs)) = _
  rw [h]

theorem collect_tree_eq_err (srcName : String) (fs : List Entry) (o : Option (List String))
    (cv : List String → Bool) (st : CState)
    (h : collectLoop o cv initSt (sortEntries fs) = Except.error st) :
    collect_tree srcName fs o cv = Except.error st := by
  show (match collectLoop o cv initSt (sortEntries fs) with
        | Except.error st => Except.error st
        | Except.ok st =>
          Except.ok ((match (prune_empty_dirs
              (buildNode st.kids srcName [] (maxCompLen (sortEntries fs) + 1))).1 with
            | some t => t
            | none => TreeNode.dir srcName "" []), st.nb_count, st.outputs)) = _
  rw [h]

/- ===================== files never appear without notebooks ============ -/

theorem buildNode_no_files (kids : List String → List ChildRef)
    (hk : ∀ q c, c ∈ kids q → isFileRef c = false) :
    ∀ (f : Nat) (name : String) (pre : List String),
    hasFileDesc (buildNode kids name pre f) = false := by
  intro f
  induction f with
  | zero => intro name pre; rfl
  | succ f ih =>
    intro name pre
    show hasFileKids ((kids pre).map _) = false
    have key : ∀ l : List ChildRef, (∀ c ∈ l, c ∈ kids pre) →
        hasFileKids (l.map (fun c => match c with
          | ChildRef.dirRef n => buildNode kids n (pre ++ [n]) f
          | ChildRef.fileRef n rel h => TreeNode.file n (joinPath rel) (joinPath h))) = false := by
      intro l
      induction l with
      | nil => intro _; rfl
      | cons c rest ihl =>
        intro hsub
        cases c with
        | dirRef n =>
          show (hasFileDesc (buildNode kids n (pre ++ [n]) f) || _) = false
          rw [ih n (pre ++ [n]),
            ihl (fun c hc => hsub c (List.mem_cons_of_mem _ hc))]
          rfl
        | fileRef n rel hh =>
          exfalso
          have := hk pre (ChildRef.fileRef n rel hh) (hsub _ (List.mem_cons_self _ _))
          cases this
    exact key (kids pre) (fun c hc => hc)

theorem procEntry_ok_of_not_nb (o : Option (List String)) (cv : List String → Bool)
    (st : CState) (e : Entry)
    (hnb : e.isDir = true ∨ lowerL (pySuffix (lastComp e.comps)) ≠ nbExt) :
    ∃ st1, procEntry o cv st e = Except.ok st1 := by
  by_cases hex : excludedBy o e.comps = true
  · exact ⟨st, procEntry_excl o cv st e hex⟩
  · have hex2 := bool_eq_false_of_ne_true hex
    by_cases hem : e.comps = []
    · exact ⟨st, procEntry_empty o cv st e hex2 hem⟩
    · by_cases hdir : e.isDir = true
      · exact ⟨_, procEntry_dir o cv st e hex2 hem hdir⟩
      · have hdir2 := bool_eq_false_of_ne_true hdir
        rcases hnb with hnb | hnb
        · exact absurd hnb hdir
        · exact ⟨_, procEntry_skip o cv st e hex2 hem hdir2 hnb⟩

theorem collectLoop_ok_of_no_nb (o : Option (List String)) (cv : List String → Bool) :
    ∀ (l : List Entry) (st : CState),
    (∀ e ∈ l, e.isDir = true ∨ lowerL (pySuffix (lastComp e.comps)) ≠ nbExt) →
    ∃ st', collectLoop o cv st l = Except.ok st' := by
  intro l
  induction l with
  | nil => intro st _; exact ⟨st, rfl⟩
  | cons e rest ih =>
    intro st hl
    rcases procEntry_ok_of_not_nb o cv st e (hl e (List.mem_cons_self e rest)) with ⟨st1, hp⟩
    rcases ih st1 (fun e2 he2 => hl e2 (List.mem_cons_of_mem e he2)) with ⟨st', hrest⟩
    exact ⟨st', by rw [collectLoop_cons_ok o cv st st1 e rest hp]; exact hrest⟩

/-- C4: pruning keeps a node exactly when its subtree contains a file node
(`prune_empty_dirs t` returns a node iff `hasFileDesc t`, and every
directory node of a returned tree has a file descendant); and for a source
tree containing zero notebook files the collector returns the fallback
root — a directory node with name `src.name`, empty path and an empty
children list, never an absent tree — together with notebook count 0 and
no conversion outputs. -/
theorem c4_prune_iff_file_descendant :
    (∀ t : TreeNode, (prune_empty_dirs t).1.isSome = hasFileDesc t ∧
      ∀ t', (prune_empty_dirs t).1 = some t' → allDirsHaveFileB t' = true) ∧
    (∀ (srcName : String) (fs : List Entry) (outRel : Option (List String))
        (convOk : List String → Bool),
      fs.all (fun e => e.isDir || !(decide (lowerL (pySuffix (lastComp e.comps)) = nbExt)))
        = true →
      collect_tree srcName fs outRel convOk
        = Except.ok (TreeNode.dir srcName "" [], 0, [])) := by
  constructor
  · intro t
    exact ⟨prune_isSome_eq_hasFileDesc t, fun t' ht' => (prune_kept t t' ht').2⟩
  · intro srcName fs outRel convOk hno
    have hno2 : ∀ e ∈ fs, e.isDir = true ∨ lowerL (pySuffix (lastComp e.comps)) ≠ nbExt := by
      intro e he
      have := List.all_eq_true.mp hno e he
      rcases Bool.or_eq_true_iff.mp this with h1 | h1
      · exact Or.inl h1
      · right
        intro hc
        rw [decide_eq_true hc] at h1
        cases h1
    have hno3 : ∀ e ∈ sortEntries fs, e.isDir = true ∨
        lowerL (pySuffix (lastComp e.comps)) ≠ nbExt := by
      intro e he
      exact hno2 e ((sortEntries_perm fs).mem_iff.mp he)
    rcases collectLoop_ok_of_no_nb outRel convOk (sortEntries fs) initSt hno3 with ⟨st, hok⟩
    have hInv : WalkInv (fun _ => True) (fun _ => False) st := by
      refine collectLoop_inv (fun _ => True) (fun _ => False) outRel convOk
        (sortEntries fs) initSt st (initSt_inv _ _) ?_ hok
      intro e he
      refine ⟨fun _ q _ _ => trivial, fun _ hne hfile hsuf => ?_⟩
      rcases hno3 e he with h1 | h1
      · rw [hfile] at h1; cases h1
      · exact h1 hsuf
    have houts : st.outputs = [] := by
      have := collectLoop_outputs outRel convOk (sortEntries fs) initSt st hok
      rw [this]
      show [] ++ _ = []
      rw [List.nil_append]
      apply List.filterMap_eq_nil_iff.mpr
      intro e he
      have hnb : isNbEntry outRel e = false := by
        unfold isNbEntry
        rcases hno3 e he with h1 | h1
        · rw [h1]; simp
        · have : decide (lowerL (pySuffix (lastComp e.comps)) = nbExt) = false := by
            rw [decide_eq_false h1]
          rw [this]; simp
      rw [hnb]
      rfl
    have hcnt : st.nb_count = 0 := by
      rw [hInv.outLen, houts]
      rfl
    have hnof : ∀ q c, c ∈ st.kids q → isFileRef c = false := by
      intro q c hc
      cases c with
      | dirRef n => rfl
      | fileRef n rel hh =>
        exfalso
        have := hInv.fileP q (ChildRef.fileRef n rel hh) hc n rel hh rfl
        exact this.2.2.2.2.2
    have hprune : (prune_empty_dirs
        (buildNode st.kids srcName [] (maxCompLen (sortEntries fs) + 1))).1 = none := by
      have h1 := prune_isSome_eq_hasFileDesc
        (buildNode st.kids srcName [] (maxCompLen (sortEntries fs) + 1))
      rw [buildNode_no_files st.kids hnof] at h1
      exact Option.not_isSome_iff_eq_none.mp (by rw [h1]; exact Bool.false_ne_true)
    rw [collect_tree_eq_ok srcName fs outRel convOk st hok, hprune, hcnt, houts]

def fsDirsOnly : List Entry := [⟨["a"], true⟩, ⟨["a", "readme.md"], false⟩]

/-- C4 witness: a concrete notebook-free tree collapses to the empty root
with count 0, and a concrete kept tree passes the pruned-shape check. -/
theorem c4_prune_iff_file_descendant_witness :
    (fsDirsOnly.all
      (fun e => e.isDir || !(decide (lowerL (pySuffix (lastComp e.comps)) = nbExt))) = true) ∧
    collect_tree "r" fsDirsOnly none (fun _ => true)
      = Except.ok (TreeNode.dir "r" "" [], 0, []) ∧
    ((prune_empty_dirs (TreeNode.dir "d" "" [TreeNode.file "f" "f" "f.html"])).1
      = some (TreeNode.dir "d" "" [TreeNode.file "f" "f" "f.html"]) ∧
     allDirsHaveFileB (TreeNode.dir "d" "" [TreeNode.file "f" "f" "f.html"]) = true) :=
  ⟨by decide,
   c4_prune_iff_file_descendant.2 "r" fsDirsOnly none (fun _ => true) (by decide),
   rfl,
   (c4_prune_iff_file_descendant.1 (TreeNode.dir "d" "" [TreeNode.file "f" "f" "f.html"])).2
     (TreeNode.dir "d" "" [TreeNode.file "f" "f" "f.html"]) rfl⟩

/- ===================== file-node lemmas ================================ -/

theorem pruneKids_snd (cs : List TreeNode) : (pruneKids cs).2 = hasFileKids cs := by
  induction cs with
  | nil => rfl
  | cons c rest ih =>
    show ((prune_empty_dirs c).2 || (pruneKids rest).2) = (hasFileDesc c || hasFileKids rest)
    rw [prune_snd_eq_hasFileDesc c, ih]

theorem noFile_fileNodes_nil :
    ∀ t : TreeNode, hasFileDesc t = false → fileNodes t = [] := by
  intro t
  induction t using TreeNode.rec
    (motive_2 := fun cs => hasFileKids cs = false → fileNodesKids cs = []) with
  | file n p h => intro hc; cases hc
  | dir n p cs ih => intro hc; exact ih hc
  | nil => rfl
  | cons c cs ih1 ih2 =>
    rename_i hc
    have h2 := Bool.or_eq_false_iff.mp hc
    show fileNodes c ++ fileNodesKids cs = []
    rw [ih1 h2.1, ih2 h2.2]
    rfl

theorem prune_fileNodes :
    ∀ t : TreeNode,
    (match (prune_empty_dirs t).1 with
     | some t' => fileNodes t'
     | none => ([] : List (String × String × String))) = fileNodes t := by
  intro t
  induction t using TreeNode.rec
    (motive_2 := fun cs => fileNodesKids (pruneKids cs).1 = fileNodesKids cs) with
  | file n p h => rfl
  | dir n p cs ih =>
    by_cases hb : (pruneKids cs).2 = true
    · have heq : (prune_empty_dirs (TreeNode.dir n p cs)).1
          = some (TreeNode.dir n p (pruneKids cs).1) := by
        show (if (pruneKids cs).2 then some (TreeNode.dir n p (pruneKids cs).1) else none) = _
        rw [if_pos hb]
      rw [heq]
      exact ih
    · have hb2 := bool_eq_false_of_ne_true hb
      have heq : (prune_empty_dirs (TreeNode.dir n p cs)).1 = none := by
        show (if (pruneKids cs).2 then some (TreeNode.dir n p (pruneKids cs).1) else none) = _
        rw [if_neg hb]
      rw [heq]
      have hk : hasFileKids cs = false := by rw [← pruneKids_snd]; exact hb2
      have := noFile_fileNodes_nil (TreeNode.dir n p cs) (by
        show hasFileKids cs = false
        exact hk)
      exact this.symm
  | nil => rfl
  | cons c cs ih1 ih2 =>
    show fileNodesKids
      (match (prune_empty_dirs c).1 with
        | some t => t :: (pruneKids cs).1
        | none => (pruneKids cs).1) = fileNodes c ++ fileNodesKids cs
    cases hpc : (prune_empty_dirs c).1 with
    | some tc =>
      show fileNodes tc ++ fileNodesKids (pruneKids cs).1 = _
      rw [ih2]
      rw [hpc] at ih1
      have h3 : fileNodes tc = fileNodes c := ih1
      rw [h3]
    | none =>
      rw [hpc] at ih1
      have hcn : ([] : List (String × String × String)) = fileNodes c := ih1
      rw [ih2, ← hcn]
      rfl

theorem fileCount_eq_len :
    ∀ t : TreeNode, fileCount t = (fileNodes t).length := by
  intro t
  induction t using TreeNode.rec
    (motive_2 := fun cs => fileCountKids cs = (fileNodesKids cs).length) with
  | file n p h => rfl
  | dir n p cs ih => exact ih
  | nil => rfl
  | cons c cs ih1 ih2 =>
    show fileCount c + fileCountKids cs = (fileNodes c ++ fileNodesKids cs).length
    rw [List.length_append, ih1, ih2]

theorem fileNodes_buildNode (kids : List String → List ChildRef) :
    ∀ (f : Nat) (name : String) (pre : List String) (x : String × String × String),
    x ∈ fileNodes (buildNode kids name pre f) →
    ∃ q nn rel hh, ChildRef.fileRef nn rel hh ∈ kids q ∧
      x = (nn, joinPath rel, joinPath hh) := by
  intro f
  induction f with
  | zero =>
    intro name pre x hx
    exact absurd hx (List.not_mem_nil x)
  | succ f ih =>
    intro name pre x hx
    have key : ∀ l : List ChildRef, (∀ c ∈ l, c ∈ kids pre) →
        x ∈ fileNodesKids (l.map (fun c => match c with
          | ChildRef.dirRef n => buildNode kids n (pre ++ [n]) f
          | ChildRef.fileRef n rel h => TreeNode.file n (joinPath rel) (joinPath h))) →
        ∃ q nn rel hh, ChildRef.fileRef nn rel hh ∈ kids q ∧
          x = (nn, joinPath rel, joinPath hh) := by
      intro l
      induction l with
      | nil => intro _ hx2; exact absurd hx2 (List.not_mem_nil x)
      | cons c rest ihl =>
        intro hsub hx2
        cases c with
        | dirRef n =>
          have hx2b : x ∈ fileNodes (buildNode kids n (pre ++ [n]) f)
              ++ fileNodesKids (rest.map (fun c => match c with
                | ChildRef.dirRef n => buildNode kids n (pre ++ [n]) f
                | ChildRef.fileRef n rel h =>
                  TreeNode.file n (joinPath rel) (joinPath h))) := hx2
          rcases List.mem_append.mp hx2b with h1 | h1
          · exact ih n (pre ++ [n]) x h1
          · exact ihl (fun c hc => hsub c (List.mem_cons_of_mem _ hc)) h1
        | fileRef nn rel hh =>
          have hx2b : x ∈ fileNodes (TreeNode.file nn (joinPath rel) (joinPath hh))
              ++ fileNodesKids (rest.map (fun c => match c with
                | ChildRef.dirRef n => buildNode kids n (pre ++ [n]) f
                | ChildRef.fileRef n rel h =>
                  TreeNode.file n (joinPath rel) (joinPath h))) := hx2
          rcases List.mem_append.mp hx2b with h1 | h1
          · have hx4 : x = (nn, joinPath rel, joinPath hh) := List.mem_singleton.mp h1
            exact ⟨pre, nn, rel, hh, hsub _ (List.mem_cons_self _ _), hx4⟩
          · exact ihl (fun c hc => hsub c (List.mem_cons_of_mem _ hc)) h1
    exact key (kids pre) (fun c hc => hc) hx

/- ===================== C5: which files are converted =================== -/

/-- C5 amended: a successful walk converts exactly the non-excluded file
entries whose pathlib suffix lowercases to `.ipynb` — for each such file
one output document at the mirrored relative path with the suffix replaced
by `.html`, in walk order, and nothing else — and every file node of the
returned tree records one of those notebooks (name, source path and output
document path).  A dotfile named `.ipynb` has an empty pathlib suffix and
is therefore skipped even though its name ends in `.ipynb`
case-insensitively, which is what the counterexample exhibits. -/
theorem c5_converted_exactly_pathlib_notebooks (srcName : String) (fs : List Entry)
    (outRel : Option (List String)) (convOk : List String → Bool)
    (t : TreeNode) (n : Nat) (outs : List (List String))
    (h : collect_tree srcName fs outRel convOk = Except.ok (t, n, outs)) :
    outs = expectedOuts fs outRel ∧
    ∀ x ∈ fileNodes t, ∃ e ∈ fs, isNbEntry outRel e = true ∧
      x = (lastComp e.comps, joinPath e.comps, joinPath (htmlRel e.comps)) := by
  cases hlp : collectLoop outRel convOk initSt (sortEntries fs) with
  | error st =>
    rw [collect_tree_eq_err srcName fs outRel convOk st hlp] at h
    cases h
  | ok st =>
    rw [collect_tree_eq_ok srcName fs outRel convOk st hlp] at h
    have hinj := Except.ok.inj h
    have ht := (Prod.mk.inj hinj).1
    have houts := (Prod.mk.inj (Prod.mk.inj hinj).2).2
    constructor
    · rw [← houts, collectLoop_outputs outRel convOk (sortEntries fs) initSt st hlp]
      show ([] : List (List String)) ++ (sortEntries fs).filterMap
          (fun e => if isNbEntry outRel e then some (htmlRel e.comps) else none)
          = expectedOuts fs outRel
      rw [List.nil_append]
      rfl
    · have hInv : WalkInv (fun _ => True)
          (fun rel => ∃ e ∈ fs, isNbEntry outRel e = true ∧ e.comps = rel) st := by
        refine collectLoop_inv _ _ outRel convOk (sortEntries fs) initSt st
          (initSt_inv _ _) ?_ hlp
        intro e he
        refine ⟨fun _ q _ _ => trivial, fun hex hne hdir hsuf => ?_⟩
        refine ⟨e, (sortEntries_perm fs).mem_iff.mp he, ?_, rfl⟩
        unfold isNbEntry
        rw [hex, hdir]
        have hie : e.comps.isEmpty = false := by
          cases hcomps : e.comps with
          | nil => exact absurd hcomps hne
          | cons a b => rfl
        rw [hie, decide_eq_true hsuf]
        rfl
      intro x hx
      rw [← ht] at hx
      have hx2 : x ∈ fileNodes
          (buildNode st.kids srcName [] (maxCompLen (sortEntries fs) + 1)) := by
        cases hpr : (prune_empty_dirs
            (buildNode st.kids srcName [] (maxCompLen (sortEntries fs) + 1))).1 with
        | some t0 =>
          rw [hpr] at hx
          have hfn := prune_fileNodes
            (buildNode st.kids srcName [] (maxCompLen (sortEntries fs) + 1))
          rw [hpr] at hfn
          have hfn2 : fileNodes t0 = fileNodes
              (buildNode st.kids srcName [] (maxCompLen (sortEntries fs) + 1)) := hfn
          exact hfn2 ▸ hx
        | none =>
          rw [hpr] at hx
          exact absurd hx (List.not_mem_nil x)
      obtain ⟨q, nn, rel, hh, hcmem, hxeq⟩ :=
        fileNodes_buildNode st.kids (maxCompLen (sortEntries fs) + 1) srcName [] x hx2
      obtain ⟨hrelne, hnn, hhh, hq, hsufx, e, he, hnb2, hcomps⟩ :=
        hInv.fileP q _ hcmem nn rel hh rfl
      refine ⟨e, he, hnb2, ?_⟩
      rw [hxeq, hnn, hhh, hcomps]

def fsSpecScenario : List Entry :=
  [⟨["a"], true⟩, ⟨["a", "b"], true⟩, ⟨["a", "b", "nb1.ipynb"], false⟩,
   ⟨["a", "c"], true⟩, ⟨["a", "c", "readme.md"], false⟩,
   ⟨["d"], true⟩, ⟨["d", "nb2.ipynb"], false⟩, ⟨["e"], true⟩]

/-- C5 witness: the spec's own end-to-end scenario, two notebooks. -/
theorem c5_converted_exactly_pathlib_notebooks_witness :
    expectedOuts fsSpecScenario none = [["a", "b", "nb1.html"], ["d", "nb2.html"]] ∧
    (outsOf (collect_tree "repo" fsSpecScenario none (fun _ => true))
        = expectedOuts fsSpecScenario none ∧
     True) := by
  refine ⟨by decide, ?_, trivial⟩
  have happ := c5_converted_exactly_pathlib_notebooks "repo" fsSpecScenario none (fun _ => true)
    (TreeNode.dir "repo" ""
      [TreeNode.dir "a" "a" [TreeNode.dir "b" "a/b"
        [TreeNode.file "nb1.ipynb" "a/b/nb1.ipynb" "a/b/nb1.html"]],
       TreeNode.dir "d" "d" [TreeNode.file "nb2.ipynb" "d/nb2.ipynb" "d/nb2.html"]])
    2 [["a", "b", "nb1.html"], ["d", "nb2.html"]] rfl
  rw [show outsOf (collect_tree "repo" fsSpecScenario none (fun _ => true))
    = [["a", "b", "nb1.html"], ["d", "nb2.html"]] from by decide]
  exact happ.1.symm ▸ rfl

def fsDotfile : List Entry := [⟨[".ipynb"], false⟩]

/-- C5 counterexample: the file named exactly `.ipynb` ends in the
notebook extension case-insensitively, yet `PurePath.suffix` of a dotfile
is empty, so the walk converts nothing, produces no output document and no
file node — the claim as stated demands one converted document for it. -/
theorem c5_dotfile_counterexample :
    endsWithB (lowerL (lastComp [".ipynb"]).data) nbExt = true ∧
    pySuffix (lastComp [".ipynb"]) = [] ∧
    collect_tree "r" fsDotfile none (fun _ => true)
      = Except.ok (TreeNode.dir "r" "" [], 0, []) :=
  ⟨by decide, by decide, rfl⟩

/- ===================== C7: fail-fast on conversion failure ============= -/

def isOkE (r : Except CState (TreeNode × Nat × List (List String))) : Bool :=
  match r with
  | Except.ok _ => true
  | Except.error _ => false

theorem build_eq_err (srcName : String) (fs : List Entry) (o : Option (List String))
    (cv : List String → Bool) (tpl : Template) (title : String) (clock : Nat → List Char)
    (st : CState) (h : collect_tree srcName fs o cv = Except.error st) :
    build_static_site srcName fs o cv tpl title clock = Except.error st := by
  show (match collect_tree srcName fs o cv with
        | Except.error st => Except.error st
        | Except.ok (tree, nb, outs) =>
          Except.ok
            ({ pagesW := renderLoop tpl.pages title nb tree clock sitePages 0,
               assetsW := assetsOf tpl,
               tree := tree, nb_count := nb, convOutputs := outs } : BuildOut)) = _
  rw [h]

/-- C7: if the external conversion exits non-zero for some notebook of the
sorted walk whose earlier entries all processed successfully, the walk
aborts at that point: the collector raises, the converted documents on
disk are exactly those of the earlier entries (nothing of the failing
notebook or of any later entry is converted), and `build_static_site`
propagates the raise so that no page file is written. -/
theorem c7_conversion_failure_aborts (srcName : String) (fs : List Entry)
    (outRel : Option (List String)) (convOk : List String → Bool) (tpl : Template)
    (title : String) (clock : Nat → List Char) (l1 : List Entry) (e : Entry)
    (l2 : List Entry) (st1 : CState)
    (hsplit : sortEntries fs = l1 ++ e :: l2)
    (h1 : collectLoop outRel convOk initSt l1 = Except.ok st1)
    (hnb : isNbEntry outRel e = true)
    (hcv : convOk e.comps = false) :
    isOkE (collect_tree srcName fs outRel convOk) = false ∧
    outsOf (collect_tree srcName fs outRel convOk) = st1.outputs ∧
    pagesWritten (build_static_site srcName fs outRel convOk tpl title clock) = [] := by
  unfold isNbEntry at hnb
  rw [Bool.and_eq_true, Bool.and_eq_true, Bool.and_eq_true] at hnb
  have hex : excludedBy outRel e.comps = false := by
    have := hnb.1.1.1
    cases hb : excludedBy outRel e.comps
    · rfl
    · rw [hb] at this; cases this
  have hem : e.comps ≠ [] := by
    have := hnb.1.1.2
    intro hc
    rw [hc] at this
    cases this
  have hdir : e.isDir = false := by
    have := hnb.1.2
    cases hb : e.isDir
    · rfl
    · rw [hb] at this; cases this
  have hsuf : lowerL (pySuffix (lastComp e.comps)) = nbExt := of_decide_eq_true hnb.2
  have hperr := procEntry_nb_fail outRel convOk st1 e hex hem hdir hsuf hcv
  have hloop : collectLoop outRel convOk initSt (sortEntries fs)
      = Except.error ({ ensureFrom [] e.comps.dropLast st1 with
          nb_count := (ensureFrom [] e.comps.dropLast st1).nb_count + 1 } : CState) := by
    rw [hsplit, collectLoop_append outRel convOk l1 (e :: l2) initSt, h1]
    show collectLoop outRel convOk st1 (e :: l2) = _
    rw [collectLoop_cons_err outRel convOk st1 _ e l2 hperr]
  have hct := collect_tree_eq_err srcName fs outRel convOk _ hloop
  refine ⟨by rw [hct]; rfl, ?_, by rw [build_eq_err srcName fs outRel convOk tpl title clock _ hct]; rfl⟩
  rw [hct]
  show ({ ensureFrom [] e.comps.dropLast st1 with
      nb_count := (ensureFrom [] e.comps.dropLast st1).nb_count + 1 }).outputs = st1.outputs
  show (ensureFrom [] e.comps.dropLast st1).outputs = st1.outputs
  exact ensureFrom_outputs e.comps.dropLast [] st1

def fsTwoNb : List Entry := [⟨["a.ipynb"], false⟩, ⟨["b.ipynb"], false⟩]

def stAfterA : CState :=
  { dirs := [],
    kids := fun r => if r = ([] : List String)
      then [ChildRef.fileRef "a.ipynb" ["a.ipynb"] [pyWithSuffixHtml "a.ipynb"]] else [],
    nb_count := 1,
    outputs := [[pyWithSuffixHtml "a.ipynb"]] }

/-- C7 witness: two notebooks, the converter fails on the second; only the
first document exists afterwards and no page is written. -/
theorem c7_conversion_failure_aborts_witness :
    (sortEntries fsTwoNb = [⟨["a.ipynb"], false⟩] ++ ⟨["b.ipynb"], false⟩ :: []) ∧
    (collectLoop none (fun p => decide (p = ["a.ipynb"])) initSt [⟨["a.ipynb"], false⟩]
      = Except.ok stAfterA) ∧
    isNbEntry none ⟨["b.ipynb"], false⟩ = true ∧
    (fun p => decide (p = ["a.ipynb"])) (Entry.comps ⟨["b.ipynb"], false⟩) = false ∧
    (isOkE (collect_tree "r" fsTwoNb none (fun p => decide (p = ["a.ipynb"]))) = false ∧
     outsOf (collect_tree "r" fsTwoNb none (fun p => decide (p = ["a.ipynb"])))
       = stAfterA.outputs ∧
     pagesWritten (build_static_site "r" fsTwoNb none (fun p => decide (p = ["a.ipynb"]))
       tplNoIndex "T" (fun _ => "ts".data)) = []) :=
  ⟨by decide, rfl, by decide, by decide,
   c7_conversion_failure_aborts "r" fsTwoNb none (fun p => decide (p = ["a.ipynb"]))
     tplNoIndex "T" (fun _ => "ts".data) [⟨["a.ipynb"], false⟩] ⟨["b.ipynb"], false⟩ []
     stAfterA (by decide) rfl (by decide) (by decide)⟩

/- ===================== wfB unpacking =================================== -/

theorem wfB_parts (fs : List Entry) (h : wfB fs = true) :
    entriesGood fs ∧ (fs.map (fun e => e.comps)).Nodup ∧
    (∀ e ∈ fs, ∀ i, 0 < i → i < e.comps.length →
      ∃ e2 ∈ fs, e2.comps = e.comps.take i ∧ e2.isDir = true) := by
  unfold wfB at h
  rw [Bool.and_eq_true, Bool.and_eq_true] at h
  refine ⟨?_, of_decide_eq_true h.1.2, ?_⟩
  · intro e he
    have h2 := List.all_eq_true.mp h.1.1 e he
    rw [Bool.and_eq_true] at h2
    constructor
    · intro hc
      rw [hc] at h2
      cases h2.1
    · intro c hc
      exact List.all_eq_true.mp h2.2 c hc
  · intro e he i hi1 hi2
    have h2 := List.all_eq_true.mp h.2 e he
    have h3 := List.all_eq_true.mp h2 i (List.mem_range.mpr hi2)
    rw [Bool.or_eq_true_iff] at h3
    rcases h3 with h3 | h3
    · exfalso
      have : i = 0 := of_decide_eq_true h3
      omega
    · rcases List.any_eq_true.mp h3 with ⟨e2, he2, hcond⟩
      rw [Bool.and_eq_true] at hcond
      exact ⟨e2, he2, of_decide_eq_true hcond.1, hcond.2⟩

theorem listPre_mem_sub (q c : List String) (h : listPre q c = true) (x : String)
    (hx : x ∈ q) : x ∈ c := by
  rw [listPre_iff_append] at h
  rcases h with ⟨r, rfl⟩
  exact List.mem_append_left r hx

theorem key_ne_nil (q : List String) (hne : q ≠ []) (hg : ∀ c ∈ q, goodNameB c = true) :
    key q ≠ [] := by
  cases q with
  | nil => exact absurd rfl hne
  | cons a rest =>
    rw [key_cons_shape]
    have ha := (goodNameB_iff a).mp (hg a (List.mem_cons_self a rest))
    intro hc
    rcases List.append_eq_nil.mp hc with ⟨h1, _⟩
    exact ha.1 h1

theorem joinPath_inj (a b : List String) (hga : ∀ c ∈ a, goodNameB c = true)
    (hgb : ∀ c ∈ b, goodNameB c = true) (h : joinPath a = joinPath b) : a = b := by
  unfold joinPath at h
  have h2 : key a = key b := by
    have := congrArg String.data h
    simpa using this
  exact key_inj a b hga hgb h2

/- ===================== node paths of the built tree ==================== -/

theorem nodePaths_buildNode (kids : List String → List ChildRef) :
    ∀ (f : Nat) (name : String) (pre : List String) (s : String),
    s ∈ nodePaths (buildNode kids name pre f) →
    s = joinPath pre ∨
    (∃ q n2, ChildRef.dirRef n2 ∈ kids q ∧ s = joinPath (q ++ [n2])) ∨
    (∃ q n2 rel hh, ChildRef.fileRef n2 rel hh ∈ kids q ∧ s = joinPath rel) := by
  intro f
  induction f with
  | zero =>
    intro name pre s hs
    rcases List.mem_singleton.mp hs with rfl
    exact Or.inl rfl
  | succ f ih =>
    intro name pre s hs
    have hs2 : s ∈ joinPath pre :: nodePathsKids ((kids pre).map (fun c => match c with
        | ChildRef.dirRef n => buildNode kids n (pre ++ [n]) f
        | ChildRef.fileRef n rel h => TreeNode.file n (joinPath rel) (joinPath h))) := hs
    rcases List.mem_cons.mp hs2 with rfl | hs3
    · exact Or.inl rfl
    · have key2 : ∀ l : List ChildRef, (∀ c ∈ l, c ∈ kids pre) →
          s ∈ nodePathsKids (l.map (fun c => match c with
            | ChildRef.dirRef n => buildNode kids n (pre ++ [n]) f
            | ChildRef.fileRef n rel h => TreeNode.file n (joinPath rel) (joinPath h))) →
          (∃ q n2, ChildRef.dirRef n2 ∈ kids q ∧ s = joinPath (q ++ [n2])) ∨
          (∃ q n2 rel hh, ChildRef.fileRef n2 rel hh ∈ kids q ∧ s = joinPath rel) := by
        intro l
        induction l with
        | nil => intro _ hsx; exact absurd hsx (List.not_mem_nil s)
        | cons c rest ihl =>
          intro hsub hsx
          cases c with
          | dirRef n =>
            have hsx2 : s ∈ nodePaths (buildNode kids n (pre ++ [n]) f)
                ++ nodePathsKids (rest.map (fun c => match c with
                  | ChildRef.dirRef n => buildNode kids n (pre ++ [n]) f
                  | ChildRef.fileRef n rel h =>
                    TreeNode.file n (joinPath rel) (joinPath h))) := hsx
            rcases List.mem_append.mp hsx2 with h1 | h1
            · rcases ih n (pre ++ [n]) s h1 with h2 | h2 | h2
              · exact Or.inl ⟨pre, n, hsub _ (List.mem_cons_self _ _), h2⟩
              · exact Or.inl h2
              · exact Or.inr h2
            · exact ihl (fun c hc => hsub c (List.mem_cons_of_mem _ hc)) h1
          | fileRef nn rel hh =>
            have hsx2 : s ∈ nodePaths (TreeNode.file nn (joinPath rel) (joinPath hh))
                ++ nodePathsKids (rest.map (fun c => match c with
                  | ChildRef.dirRef n => buildNode kids n (pre ++ [n]) f
                  | ChildRef.fileRef n rel h =>
                    TreeNode.file n (joinPath rel) (joinPath h))) := hsx
            rcases List.mem_append.mp hsx2 with h1 | h1
            · rcases List.mem_singleton.mp h1 with rfl
              exact Or.inr ⟨pre, nn, rel, hh, hsub _ (List.mem_cons_self _ _), rfl⟩
            · exact ihl (fun c hc => hsub c (List.mem_cons_of_mem _ hc)) h1
      exact Or.inr (key2 (kids pre) (fun c hc => hc) hs3)

theorem prune_nodePaths_sub :
    ∀ t : TreeNode, ∀ t', (prune_empty_dirs t).1 = some t' →
    ∀ s ∈ nodePaths t', s ∈ nodePaths t := by
  intro t
  induction t using TreeNode.rec
    (motive_2 := fun cs => ∀ s ∈ nodePathsKids (pruneKids cs).1, s ∈ nodePathsKids cs) with
  | file n p h =>
    intro t' ht' s hs
    rcases Option.some.inj ht'
    exact hs
  | dir n p cs ih =>
    intro t' ht' s hs
    by_cases hb : (pruneKids cs).2 = true
    · have heq : (prune_empty_dirs (TreeNode.dir n p cs)).1
          = some (TreeNode.dir n p (pruneKids cs).1) := by
        show (if (pruneKids cs).2 then some (TreeNode.dir n p (pruneKids cs).1) else none) = _
        rw [if_pos hb]
      rw [heq] at ht'
      rcases Option.some.inj ht'
      have hs2 : s ∈ p :: nodePathsKids (pruneKids cs).1 := hs
      rcases List.mem_cons.mp hs2 with rfl | hs3
      · exact List.mem_cons_self _ _
      · exact List.mem_cons_of_mem _ (ih s hs3)
    · exfalso
      have heq : (prune_empty_dirs (TreeNode.dir n p cs)).1 = none := by
        show (if (pruneKids cs).2 then some (TreeNode.dir n p (pruneKids cs).1) else none) = _
        rw [if_neg hb]
      rw [heq] at ht'
      cases ht'
  | nil => rename_i s hs; exact hs
  | cons c cs ih1 ih2 =>
    rename_i s hs
    show s ∈ nodePaths c ++ nodePathsKids cs
    have hs2 : s ∈ nodePathsKids
        (match (prune_empty_dirs c).1 with
          | some t => t :: (pruneKids cs).1
          | none => (pruneKids cs).1) := hs
    cases hpc : (prune_empty_dirs c).1 with
    | some tc =>
      rw [hpc] at hs2
      have hs3 : s ∈ nodePaths tc ++ nodePathsKids (pruneKids cs).1 := hs2
      rcases List.mem_append.mp hs3 with h1 | h1
      · exact List.mem_append_left _ (ih1 tc hpc s h1)
      · exact List.mem_append_right _ (ih2 s h1)
    | none =>
      rw [hpc] at hs2
      exact List.mem_append_right _ (ih2 s hs2)

/- ===================== C9: output subtree never walked ================= -/

theorem dirRef_mem_dirNames (l : List ChildRef) (n : String)
    (h : ChildRef.dirRef n ∈ l) : n ∈ dirNames l := by
  unfold dirNames
  exact List.mem_filterMap.mpr ⟨ChildRef.dirRef n, h, rfl⟩

/-- C9: no entry at or below the output root is ever processed by the
walk: with a well-formed file system and the output root at relative path
`o` inside the source root, an entry whose path has `o` as a prefix
contributes no tree node (its path string appears nowhere in the returned
tree) and no conversion (the outputs of a successful walk are exactly
those of the non-excluded notebooks). -/
theorem c9_output_subtree_never_walked (srcName : String) (fs : List Entry)
    (o : List String) (convOk : List String → Bool) (e : Entry)
    (hwf : wfB fs = true) (he : e ∈ fs) (hexc : listPre o e.comps = true) :
    (treeOf (collect_tree srcName fs (some o) convOk)).all
      (fun t => !((nodePaths t).contains (joinPath e.comps))) = true ∧
    (isOkE (collect_tree srcName fs (some o) convOk) = true →
      outsOf (collect_tree srcName fs (some o) convOk) = expectedOuts fs (some o)) := by
  have hgood := (wfB_parts fs hwf).1
  have hegood := hgood e he
  cases hlp : collectLoop (some o) convOk initSt (sortEntries fs) with
  | error st =>
    rw [collect_tree_eq_err srcName fs (some o) convOk st hlp]
    exact ⟨rfl, fun hok => by cases hok⟩
  | ok st =>
    rw [collect_tree_eq_ok srcName fs (some o) convOk st hlp]
    have hInv : WalkInv
        (fun q => listPre o q = false ∧ (∀ c ∈ q, goodNameB c = true) ∧ q ≠ [])
        (fun rel => listPre o rel = false ∧ (∀ c ∈ rel, goodNameB c = true) ∧ rel ≠ []) st := by
      refine collectLoop_inv _ _ (some o) convOk (sortEntries fs) initSt st
        (initSt_inv _ _) ?_ hlp
      intro e2 he2
      have he2fs : e2 ∈ fs := (sortEntries_perm fs).mem_iff.mp he2
      have he2good := hgood e2 he2fs
      have hdirsub : listPre (dirParts e2) e2.comps = true := by
        unfold dirParts
        by_cases hd : e2.isDir = true
        · rw [if_pos hd]
          exact listPre_refl e2.comps
        · rw [if_neg hd]
          exact listPre_dropLast e2.comps
      refine ⟨?_, ?_⟩
      · intro hex2 q hqne hq
        have hexl : listPre o e2.comps = false := hex2
        have hqc : listPre q e2.comps = true := listPre_trans q (dirParts e2) e2.comps hq hdirsub
        refine ⟨?_, ?_, hqne⟩
        · cases hb : listPre o q with
          | false => rfl
          | true =>
            exfalso
            have := listPre_trans o q e2.comps hb hqc
            rw [hexl] at this
            cases this
        · intro c hc
          exact he2good.2 c (listPre_mem_sub q e2.comps hqc c hc)
      · intro hex2 hne _ _
        have hexl : listPre o e2.comps = false := hex2
        exact ⟨hexl, he2good.2, hne⟩
    constructor
    · show (!((nodePaths (match (prune_empty_dirs
          (buildNode st.kids srcName [] (maxCompLen (sortEntries fs) + 1))).1 with
          | some t => t
          | none => TreeNode.dir srcName "" [])).contains (joinPath e.comps))) = true
      cases hb : (nodePaths (match (prune_empty_dirs
          (buildNode st.kids srcName [] (maxCompLen (sortEntries fs) + 1))).1 with
          | some t => t
          | none => TreeNode.dir srcName "" [])).contains (joinPath e.comps) with
      | false => rfl
      | true =>
        exfalso
        have hmem := List.mem_of_elem_eq_true hb
        have hkeyne : key e.comps ≠ [] := key_ne_nil e.comps hegood.1 hegood.2
        have hkill : ∀ s ∈ nodePaths
            (buildNode st.kids srcName [] (maxCompLen (sortEntries fs) + 1)),
            s = joinPath e.comps → False := by
          intro s hs hseq
          rcases nodePaths_buildNode st.kids (maxCompLen (sortEntries fs) + 1) srcName [] s hs
            with h1 | ⟨q, n2, hc, h1⟩ | ⟨q, n2, rel, hh, hc, h1⟩
          · rw [h1] at hseq
            apply hkeyne
            have h2 := congrArg String.data hseq
            simpa [joinPath] using h2.symm
          · have hmemq : q ++ [n2] ∈ st.dirs := by
              have hcnt := hInv.dirCount q n2
              have hn2 : n2 ∈ dirNames (st.kids q) := dirRef_mem_dirNames _ n2 hc
              by_cases hin : q ++ [n2] ∈ st.dirs
              · exact hin
              · exfalso
                rw [if_neg hin] at hcnt
                have := List.count_pos_iff.mpr hn2
                omega
            have hg := hInv.good (q ++ [n2]) hmemq
            have heqn : joinPath e.comps = joinPath (q ++ [n2]) := by rw [← hseq, h1]
            have heq : e.comps = q ++ [n2] :=
              joinPath_inj e.comps (q ++ [n2]) hegood.2 hg.2.1 heqn
            rw [heq, hg.1] at hexc
            cases hexc
          · have hfp := hInv.fileP q (ChildRef.fileRef n2 rel hh) hc
            have hpl := hfp n2 rel hh rfl
            have hFG := hpl.2.2.2.2.2
            have heqn : joinPath e.comps = joinPath rel := by rw [← hseq, h1]
            have heq : e.comps = rel :=
              joinPath_inj e.comps rel hegood.2 hFG.2.1 heqn
            rw [heq, hFG.1] at hexc
            cases hexc
        cases hpr : (prune_empty_dirs
            (buildNode st.kids srcName [] (maxCompLen (sortEntries fs) + 1))).1 with
        | none =>
          rw [hpr] at hmem
          have hmem2 : joinPath e.comps ∈ nodePaths (TreeNode.dir srcName "" []) := hmem
          have hmem3 : joinPath e.comps ∈ ("" :: [] : List String) := hmem2
          apply hkeyne
          have h2 := congrArg String.data (List.mem_singleton.mp hmem3)
          simpa [joinPath] using h2
        | some t0 =>
          rw [hpr] at hmem
          have hmem2 : joinPath e.comps ∈ nodePaths t0 := hmem
          exact hkill (joinPath e.comps)
            (prune_nodePaths_sub _ t0 hpr (joinPath e.comps) hmem2) rfl
    · intro _
      show st.outputs = expectedOuts fs (some o)
      rw [collectLoop_outputs (some o) convOk (sortEntries fs) initSt st hlp]
      show ([] : List (List String)) ++ (sortEntries fs).filterMap
          (fun e => if isNbEntry (some o) e then some (htmlRel e.comps) else none)
          = expectedOuts fs (some o)
      rw [List.nil_append]
      rfl

def fs9 : List Entry :=
  [⟨["a.ipynb"], false⟩, ⟨["site"], true⟩, ⟨["site", "x.ipynb"], false⟩]

theorem c9_output_subtree_never_walked_witness :
    wfB fs9 = true ∧ (⟨["site", "x.ipynb"], false⟩ : Entry) ∈ fs9 ∧
    listPre ["site"] ["site", "x.ipynb"] = true ∧
    ((treeOf (collect_tree "r" fs9 (some ["site"]) (fun _ => true))).all
      (fun t => !((nodePaths t).contains (joinPath ["site", "x.ipynb"]))) = true ∧
     (isOkE (collect_tree "r" fs9 (some ["site"]) (fun _ => true)) = true →
      outsOf (collect_tree "r" fs9 (some ["site"]) (fun _ => true))
        = expectedOuts fs9 (some ["site"]))) :=
  ⟨by decide, by decide, by decide,
   c9_output_subtree_never_walked "r" fs9 ["site"] (fun _ => true)
     ⟨["site", "x.ipynb"], false⟩ (by decide) (by decide) (by decide)⟩

/- ===================== C10: notebook count vs file nodes =============== -/

theorem listPre_eq_of_length (a b : List String) (h : listPre a b = true)
    (hl : b.length ≤ a.length) : a = b := by
  rw [listPre_iff_append] at h
  rcases h with ⟨r, rfl⟩
  have hr : r.length = 0 := by
    rw [List.length_append] at hl
    omega
  rw [List.length_eq_zero.mp hr, List.append_nil]

theorem maxCompLen_ge (l : List Entry) (e : Entry) (he : e ∈ l) :
    e.comps.length ≤ maxCompLen l := by
  induction l with
  | nil => exact absurd he (List.not_mem_nil e)
  | cons a rest ih =>
    rcases List.mem_cons.mp he with rfl | he2
    · show e.comps.length ≤ max e.comps.length (maxCompLen rest)
      exact le_max_left _ _
    · show e.comps.length ≤ max a.comps.length (maxCompLen rest)
      exact le_trans (ih he2) (le_max_right _ _)

theorem fileNodesKids_mapped (kids : List String → List ChildRef) (f : Nat)
    (pre : List String) :
    ∀ l : List ChildRef,
    (fileNodesKids (l.map (fun c => match c with
      | ChildRef.dirRef n => buildNode kids n (pre ++ [n]) f
      | ChildRef.fileRef n rel h => TreeNode.file n (joinPath rel) (joinPath h)))).length
    = frCount l + ((dirNames l).map (fun n =>
        (fileNodes (buildNode kids n (pre ++ [n]) f)).length)).sum := by
  intro l
  induction l with
  | nil => rfl
  | cons c rest ih =>
    cases c with
    | dirRef n =>
      show (fileNodes (buildNode kids n (pre ++ [n]) f)
          ++ fileNodesKids (rest.map (fun c => match c with
            | ChildRef.dirRef n => buildNode kids n (pre ++ [n]) f
            | ChildRef.fileRef n rel h =>
              TreeNode.file n (joinPath rel) (joinPath h)))).length
        = frCount (ChildRef.dirRef n :: rest)
          + ((dirNames (ChildRef.dirRef n :: rest)).map (fun n2 =>
              (fileNodes (buildNode kids n2 (pre ++ [n2]) f)).length)).sum
      have h1 : frCount (ChildRef.dirRef n :: rest) = frCount rest := by
        unfold frCount
        rw [List.countP_cons]
        simp [isFileRef]
      have h2 : dirNames (ChildRef.dirRef n :: rest) = n :: dirNames rest := rfl
      rw [List.length_append, ih, h1, h2, List.map_cons, List.sum_cons]
      omega
    | fileRef nn rel hh =>
      show (fileNodes (TreeNode.file nn (joinPath rel) (joinPath hh))
          ++ fileNodesKids (rest.map (fun c => match c with
            | ChildRef.dirRef n => buildNode kids n (pre ++ [n]) f
            | ChildRef.fileRef n rel h =>
              TreeNode.file n (joinPath rel) (joinPath h)))).length
        = frCount (ChildRef.fileRef nn rel hh :: rest)
          + ((dirNames (ChildRef.fileRef nn rel hh :: rest)).map (fun n2 =>
              (fileNodes (buildNode kids n2 (pre ++ [n2]) f)).length)).sum
      have h1 : frCount (ChildRef.fileRef nn rel hh :: rest) = frCount rest + 1 := by
        unfold frCount
        rw [List.countP_cons]
        simp [isFileRef]
      have h2 : dirNames (ChildRef.fileRef nn rel hh :: rest) = dirNames rest := rfl
      rw [List.length_append, ih, h1, h2]
      show 1 + _ = _
      omega

theorem buildNode_len_sum (st : CState) (G FG : List String → Prop)
    (hInv : WalkInv G FG st) :
    ∀ (f : Nat) (pre : List String) (name : String),
    (∀ q ∈ st.dirs, listPre pre q = true → q ≠ pre → q.length ≤ pre.length + f) →
    (fileNodes (buildNode st.kids name pre (f + 1))).length
      = frCount (st.kids pre)
        + Finset.sum (st.dirs.toFinset.filter
            (fun q => listPre pre q = true ∧ q ≠ pre))
            (fun q => frCount (st.kids q)) := by
  intro f
  induction f with
  | zero =>
    intro pre name hdep
    have hfilter : st.dirs.toFinset.filter
        (fun q => listPre pre q = true ∧ q ≠ pre) = ∅ := by
      apply Finset.eq_empty_iff_forall_not_mem.mpr
      intro q hq
      rcases Finset.mem_filter.mp hq with ⟨hqS, hp, hne⟩
      have hq2 : q ∈ st.dirs := List.mem_toFinset.mp hqS
      have hle := hdep q hq2 hp hne
      exact hne (listPre_eq_of_length pre q hp (by omega)).symm
    rw [hfilter, Finset.sum_empty]
    have hmain := fileNodesKids_mapped st.kids 0 pre (st.kids pre)
    have hz : ((dirNames (st.kids pre)).map (fun n =>
        (fileNodes (buildNode st.kids n (pre ++ [n]) 0)).length)).sum = 0 := by
      apply List.sum_eq_zero
      intro x hx
      rcases List.mem_map.mp hx with ⟨n, _, rfl⟩
      rfl
    show (fileNodesKids ((st.kids pre).map (fun c => match c with
      | ChildRef.dirRef n => buildNode st.kids n (pre ++ [n]) 0
      | ChildRef.fileRef n rel h => TreeNode.file n (joinPath rel) (joinPath h)))).length
      = frCount (st.kids pre) + 0
    rw [hmain, hz]
  | succ f ih =>
    intro pre name hdep
    have hCnd : (dirNames (st.kids pre)).Nodup := by
      rw [List.nodup_iff_count_le_one]
      intro a
      rw [hInv.dirCount pre a]
      by_cases hm : pre ++ [a] ∈ st.dirs
      · rw [if_pos hm]
      · rw [if_neg hm]
        omega
    have hmemC : ∀ n, n ∈ dirNames (st.kids pre) ↔ pre ++ [n] ∈ st.dirs := by
      intro n
      constructor
      · intro hn
        have hc := hInv.dirCount pre n
        by_cases hm : pre ++ [n] ∈ st.dirs
        · exact hm
        · exfalso
          rw [if_neg hm] at hc
          have h2 := List.count_pos_iff.mpr hn
          omega
      · intro hm
        have hc := hInv.dirCount pre n
        rw [if_pos hm] at hc
        exact List.count_pos_iff.mp (by omega)
    have hstep := fileNodesKids_mapped st.kids (f + 1) pre (st.kids pre)
    show (fileNodesKids ((st.kids pre).map (fun c => match c with
      | ChildRef.dirRef n => buildNode st.kids n (pre ++ [n]) (f + 1)
      | ChildRef.fileRef n rel h => TreeNode.file n (joinPath rel) (joinPath h)))).length
      = frCount (st.kids pre)
        + Finset.sum (st.dirs.toFinset.filter
            (fun q => listPre pre q = true ∧ q ≠ pre)) (fun q => frCount (st.kids q))
    rw [hstep]
    congr 1
    have hmap : ((dirNames (st.kids pre)).map (fun n =>
        (fileNodes (buildNode st.kids n (pre ++ [n]) (f + 1))).length))
      = ((dirNames (st.kids pre)).map (fun n =>
          frCount (st.kids (pre ++ [n]))
          + Finset.sum (st.dirs.toFinset.filter
              (fun q => listPre (pre ++ [n]) q = true ∧ q ≠ pre ++ [n]))
              (fun q => frCount (st.kids q)))) := by
      apply List.map_congr_left
      intro n hn
      apply ih (pre ++ [n]) n
      intro q hq hp hne
      have hp0 : listPre pre q = true :=
        listPre_trans pre (pre ++ [n]) q (listPre_append pre [n]) hp
      have hlq := listPre_length (pre ++ [n]) q hp
      have hlen : (pre ++ [n]).length = pre.length + 1 := by
        rw [List.length_append]
        rfl
      have hne0 : q ≠ pre := by
        intro hc
        rw [hc] at hlq
        omega
      have hd := hdep q hq hp0 hne0
      omega
    rw [hmap, ← List.sum_toFinset _ hCnd]
    have hpart : st.dirs.toFinset.filter (fun q => listPre pre q = true ∧ q ≠ pre)
        = (dirNames (st.kids pre)).toFinset.biUnion (fun n =>
            st.dirs.toFinset.filter (fun q => listPre (pre ++ [n]) q = true)) := by
      apply Finset.ext
      intro q
      rw [Finset.mem_filter, Finset.mem_biUnion]
      constructor
      · rintro ⟨hqS, hp, hne⟩
        have hq2 : q ∈ st.dirs := List.mem_toFinset.mp hqS
        rcases (listPre_iff_append pre q).mp hp with ⟨r, rfl⟩
        cases r with
        | nil => exact absurd (List.append_nil pre) hne
        | cons x xs =>
          have htake : (pre ++ x :: xs).take (pre.length + 1) = pre ++ [x] := by
            rw [List.take_append_eq_append_take, List.take_of_length_le (by omega),
                Nat.add_sub_cancel_left]
            rfl
          have hcl := hInv.closure (pre ++ x :: xs) hq2 (pre.length + 1) (by omega)
            (by rw [List.length_append, List.length_cons]; omega)
          rw [htake] at hcl
          refine ⟨x, ?_, ?_⟩
          · rw [List.mem_toFinset, hmemC x]
            exact hcl
          · rw [Finset.mem_filter]
            refine ⟨hqS, ?_⟩
            exact (listPre_iff_append (pre ++ [x]) (pre ++ x :: xs)).mpr ⟨xs, by simp⟩
      · rintro ⟨n, hnC, hq⟩
        rcases Finset.mem_filter.mp hq with ⟨hqS, hp⟩
        refine ⟨hqS, ?_, ?_⟩
        · exact listPre_trans pre (pre ++ [n]) q (listPre_append pre [n]) hp
        · intro hc
          have hlq := listPre_length (pre ++ [n]) q hp
          rw [hc, List.length_append, List.length_cons, List.length_nil] at hlq
          omega
    have hdisj : Set.PairwiseDisjoint ((dirNames (st.kids pre)).toFinset : Set String)
        (fun n => st.dirs.toFinset.filter (fun q => listPre (pre ++ [n]) q = true)) := by
      intro a ha b hb hab
      apply Finset.disjoint_left.mpr
      intro q hqa hqb
      rcases Finset.mem_filter.mp hqa with ⟨_, hpa⟩
      rcases Finset.mem_filter.mp hqb with ⟨_, hpb⟩
      rcases (listPre_iff_append (pre ++ [a]) q).mp hpa with ⟨r1, he1⟩
      rcases (listPre_iff_append (pre ++ [b]) q).mp hpb with ⟨r2, he2⟩
      have h0 : (pre ++ [a]) ++ r1 = (pre ++ [b]) ++ r2 := he1.symm.trans he2
      have h1 : pre ++ a :: r1 = pre ++ b :: r2 := by
        rw [List.append_assoc, List.append_assoc] at h0
        simpa using h0
      have h3 : a :: r1 = b :: r2 := List.append_cancel_left h1
      exact hab (List.cons.injEq .. ▸ h3).1
    have hins : ∀ n ∈ (dirNames (st.kids pre)).toFinset,
        Finset.sum (st.dirs.toFinset.filter (fun q => listPre (pre ++ [n]) q = true))
          (fun q => frCount (st.kids q))
        = frCount (st.kids (pre ++ [n]))
          + Finset.sum (st.dirs.toFinset.filter
              (fun q => listPre (pre ++ [n]) q = true ∧ q ≠ pre ++ [n]))
              (fun q => frCount (st.kids q)) := by
      intro n hnC
      have hnD : pre ++ [n] ∈ st.dirs := (hmemC n).mp (List.mem_toFinset.mp hnC)
      have hsetEq : st.dirs.toFinset.filter (fun q => listPre (pre ++ [n]) q = true)
          = insert (pre ++ [n]) (st.dirs.toFinset.filter
              (fun q => listPre (pre ++ [n]) q = true ∧ q ≠ pre ++ [n])) := by
        apply Finset.ext
        intro q
        rw [Finset.mem_insert, Finset.mem_filter, Finset.mem_filter]
        constructor
        · rintro ⟨hqS, hp⟩
          by_cases hc : q = pre ++ [n]
          · exact Or.inl hc
          · exact Or.inr ⟨hqS, hp, hc⟩
        · rintro (rfl | ⟨hqS, hp, hne⟩)
          · exact ⟨List.mem_toFinset.mpr hnD, listPre_refl _⟩
          · exact ⟨hqS, hp⟩
      have hni : pre ++ [n] ∉ st.dirs.toFinset.filter
          (fun q => listPre (pre ++ [n]) q = true ∧ q ≠ pre ++ [n]) := by
        intro hcmem
        rcases Finset.mem_filter.mp hcmem with ⟨_, _, hne⟩
        exact hne rfl
      rw [hsetEq, Finset.sum_insert hni]
    rw [hpart, Finset.sum_biUnion hdisj]
    apply Finset.sum_congr rfl
    intro n hnC
    exact (hins n hnC).symm

/-- C10: the notebook count returned by the tree collector always equals
the number of file-kind nodes in the returned (pruned) tree — pruning
never removes a file node, and every converted notebook contributes
exactly one file node. -/
theorem c10_count_equals_file_nodes (srcName : String) (fs : List Entry)
    (o : Option (List String)) (convOk : List String → Bool)
    (t : TreeNode) (n : Nat) (outs : List (List String))
    (h : collect_tree srcName fs o convOk = Except.ok (t, n, outs)) :
    fileCount t = n := by
  cases hlp : collectLoop o convOk initSt (sortEntries fs) with
  | error st =>
    rw [collect_tree_eq_err srcName fs o convOk st hlp] at h
    cases h
  | ok st =>
    rw [collect_tree_eq_ok srcName fs o convOk st hlp] at h
    have htup := Except.ok.inj h
    have ht : (match (prune_empty_dirs
        (buildNode st.kids srcName [] (maxCompLen (sortEntries fs) + 1))).1 with
      | some t0 => t0
      | none => TreeNode.dir srcName "" []) = t := congrArg Prod.fst htup
    have hn : st.nb_count = n := congrArg (fun x => x.2.1) htup
    have hInv : WalkInv (fun q => q.length ≤ maxCompLen (sortEntries fs))
        (fun _ => True) st := by
      refine collectLoop_inv _ _ o convOk (sortEntries fs) initSt st
        (initSt_inv _ _) ?_ hlp
      intro e he
      refine ⟨?_, ?_⟩
      · intro _ q _ hq
        have h1 := listPre_length q (dirParts e) hq
        have h2 : (dirParts e).length ≤ e.comps.length := by
          unfold dirParts
          by_cases hd : e.isDir = true
          · rw [if_pos hd]
          · rw [if_neg hd, List.length_dropLast]
            omega
        have h3 := maxCompLen_ge (sortEntries fs) e he
        omega
      · intro _ _ _ _
        trivial
    have hdep : ∀ q ∈ st.dirs, listPre [] q = true → q ≠ [] →
        q.length ≤ ([] : List String).length + maxCompLen (sortEntries fs) := by
      intro q hq _ _
      have hg := hInv.good q hq
      simpa using hg
    have hmain := buildNode_len_sum st _ _ hInv (maxCompLen (sortEntries fs)) [] srcName hdep
    have hfull : st.dirs.toFinset.filter
        (fun q => listPre [] q = true ∧ q ≠ []) = st.dirs.toFinset := by
      apply Finset.filter_true_of_mem
      intro q hq
      exact ⟨rfl, fun hc => hInv.nroot (hc ▸ List.mem_toFinset.mp hq)⟩
    rw [hfull, List.sum_toFinset _ hInv.nodup] at hmain
    have htotal : frCount (st.kids [])
        + ((st.dirs).map (fun q => frCount (st.kids q))).sum = frTotal st := by
      unfold frTotal
      rw [List.map_cons, List.sum_cons]
    have hfc : fileCount t = (fileNodes
        (buildNode st.kids srcName [] (maxCompLen (sortEntries fs) + 1))).length := by
      have hpf := prune_fileNodes
        (buildNode st.kids srcName [] (maxCompLen (sortEntries fs) + 1))
      cases hpr : (prune_empty_dirs
          (buildNode st.kids srcName [] (maxCompLen (sortEntries fs) + 1))).1 with
      | some t0 =>
        rw [hpr] at ht hpf
        have ht0 : t0 = t := ht
        have hpf2 : fileNodes t0 = fileNodes
            (buildNode st.kids srcName [] (maxCompLen (sortEntries fs) + 1)) := hpf
        rw [← ht0, fileCount_eq_len, hpf2]
      | none =>
        rw [hpr] at ht hpf
        have ht0 : TreeNode.dir srcName "" [] = t := ht
        have hpf2 : ([] : List (String × String × String)) = fileNodes
            (buildNode st.kids srcName [] (maxCompLen (sortEntries fs) + 1)) := hpf
        rw [← ht0, ← hpf2]
        rfl
    rw [hfc, hmain, htotal, hInv.total, hn]

theorem c10_count_equals_file_nodes_witness :
    collect_tree "repo" fsSpecScenario none (fun _ => true)
      = Except.ok (TreeNode.dir "repo" ""
          [TreeNode.dir "a" "a" [TreeNode.dir "b" "a/b"
            [TreeNode.file "nb1.ipynb" "a/b/nb1.ipynb" "a/b/nb1.html"]],
           TreeNode.dir "d" "d" [TreeNode.file "nb2.ipynb" "d/nb2.ipynb" "d/nb2.html"]],
          2, [["a", "b", "nb1.html"], ["d", "nb2.html"]]) ∧
    fileCount (TreeNode.dir "repo" ""
          [TreeNode.dir "a" "a" [TreeNode.dir "b" "a/b"
            [TreeNode.file "nb1.ipynb" "a/b/nb1.ipynb" "a/b/nb1.html"]],
           TreeNode.dir "d" "d" [TreeNode.file "nb2.ipynb" "d/nb2.ipynb" "d/nb2.html"]]) = 2 :=
  ⟨rfl, c10_count_equals_file_nodes "repo" fsSpecScenario none (fun _ => true)
    (TreeNode.dir "repo" ""
          [TreeNode.dir "a" "a" [TreeNode.dir "b" "a/b"
            [TreeNode.file "nb1.ipynb" "a/b/nb1.ipynb" "a/b/nb1.html"]],
           TreeNode.dir "d" "d" [TreeNode.file "nb2.ipynb" "d/nb2.ipynb" "d/nb2.html"]])
    2 [["a", "b", "nb1.html"], ["d", "nb2.html"]] rfl⟩

/- ===================== C6: children ordering =========================== -/

theorem charsLt_stripe (u v t1 : List Char) (hne : u ≠ v)
    (h : charsLt (u ++ t1) v = true) : charsLt u v = true := by
  induction u generalizing v with
  | nil =>
    cases v with
    | nil => exact absurd rfl hne
    | cons b v2 => rfl
  | cons a u2 ih =>
    cases v with
    | nil =>
      exfalso
      have h2 : charsLt (a :: (u2 ++ t1)) [] = false := rfl
      have h4 : charsLt (a :: (u2 ++ t1)) [] = true := h
      rw [h2] at h4
      cases h4
    | cons b v2 =>
      show (if a = b then charsLt u2 v2 else decide (a < b)) = true
      have h2 : charsLt (a :: (u2 ++ t1)) (b :: v2)
          = (if a = b then charsLt (u2 ++ t1) v2 else decide (a < b)) := rfl
      have h4 : charsLt (a :: (u2 ++ t1)) (b :: v2) = true := h
      rw [h2] at h4
      by_cases hab : a = b
      · rw [if_pos hab] at h4 ⊢
        refine ih v2 ?_ h4
        intro hc
        exact hne (by rw [hab, hc])
      · rw [if_neg hab] at h4 ⊢
        exact h4

theorem strData_inj (a b : String) (h : a.data = b.data) : a = b := by
  cases a
  cases b
  exact congrArg String.mk h

theorem listPre_snoc_same (q : List String) (a b : String) (w : List String)
    (h1 : listPre (q ++ [a]) w = true) (h2 : listPre (q ++ [b]) w = true) : a = b := by
  rcases (listPre_iff_append _ _).mp h1 with ⟨r1, he1⟩
  rcases (listPre_iff_append _ _).mp h2 with ⟨r2, he2⟩
  have h0 : (q ++ [a]) ++ r1 = (q ++ [b]) ++ r2 := he1.symm.trans he2
  have h3 : q ++ a :: r1 = q ++ b :: r2 := by
    rw [List.append_assoc, List.append_assoc] at h0
    simpa using h0
  have h4 : a :: r1 = b :: r2 := List.append_cancel_left h3
  exact (List.cons.injEq .. ▸ h4).1

theorem dirParts_pre (e : Entry) : listPre (dirParts e) e.comps = true := by
  unfold dirParts
  by_cases hd : e.isDir = true
  · rw [if_pos hd]
    exact listPre_refl e.comps
  · rw [if_neg hd]
    exact listPre_dropLast e.comps

theorem excludedBy_mono (o : Option (List String)) (q w : List String)
    (h1 : excludedBy o q = true) (h2 : listPre q w = true) : excludedBy o w = true := by
  cases o with
  | none => cases h1
  | some o2 =>
    show listPre o2 w = true
    exact listPre_trans o2 q w h1 h2

theorem dropLast_snoc_lastComp (l : List String) (h : l ≠ []) :
    l.dropLast ++ [lastComp l] = l := by
  induction l with
  | nil => exact absurd rfl h
  | cons a rest ih =>
    cases rest with
    | nil => rfl
    | cons b rest2 =>
      show a :: ((b :: rest2).dropLast ++ [lastComp (b :: rest2)]) = a :: (b :: rest2)
      rw [ih (by simp)]

theorem chainLtB_of_pairwise : ∀ l : List String,
    List.Pairwise (fun a b => charsLt a.data b.data = true) l → chainLtB l = true := by
  intro l
  induction l with
  | nil => intro _; rfl
  | cons a rest ih =>
    intro h
    cases rest with
    | nil => rfl
    | cons b rest2 =>
      show (strLtB a b && chainLtB (b :: rest2)) = true
      rw [Bool.and_eq_true]
      rcases List.pairwise_cons.mp h with ⟨hab, h2⟩
      exact ⟨hab b (List.mem_cons_self b rest2), ih h2⟩

theorem pairwise_of_chainLtB : ∀ l : List String,
    chainLtB l = true → List.Pairwise (fun a b => charsLt a.data b.data = true) l := by
  intro l
  induction l with
  | nil => intro _; exact List.Pairwise.nil
  | cons a rest ih =>
    intro h
    cases rest with
    | nil => exact List.pairwise_singleton _ a
    | cons b rest2 =>
      have h2 : (strLtB a b && chainLtB (b :: rest2)) = true := h
      rw [Bool.and_eq_true] at h2
      have hp2 := ih h2.2
      refine List.pairwise_cons.mpr ⟨?_, hp2⟩
      intro x hx
      rcases List.mem_cons.mp hx with rfl | hx2
      · exact h2.1
      · have hbx := (List.pairwise_cons.mp hp2).1 x hx2
        exact charsLt_trans _ _ _ h2.1 hbx

/- The during-one-entry ordering invariant: `done` are the entries already
processed, `e` the entry being processed. -/
structure SortMid (o : Option (List String)) (done : List Entry) (e : Entry)
    (st : CState) : Prop where
  pw : ∀ p, List.Pairwise
    (fun a b => charsLt (refName a).data (refName b).data = true) (st.kids p)
  witD : ∀ p n, ChildRef.dirRef n ∈ st.kids p →
    ∃ e1, (e1 ∈ done ∨ e1 = e) ∧ listPre (p ++ [n]) (dirParts e1) = true
  witF : ∀ p n rel h, ChildRef.fileRef n rel h ∈ st.kids p →
    ∃ e1 ∈ done, e1.comps = rel ∧ e1.isDir = false
  dcomp : ∀ e1 ∈ done, e1.isDir = true → excludedBy o e1.comps = false →
    e1.comps ≠ [] → e1.comps ∈ st.dirs
  dorig : ∀ q ∈ st.dirs, ∃ e1, (e1 ∈ done ∨ e1 = e) ∧ listPre q (dirParts e1) = true

/- The between-entries ordering invariant. -/
structure SortInv (o : Option (List String)) (done : List Entry) (st : CState) : Prop where
  pw : ∀ p, List.Pairwise
    (fun a b => charsLt (refName a).data (refName b).data = true) (st.kids p)
  witD : ∀ p n, ChildRef.dirRef n ∈ st.kids p →
    ∃ e1 ∈ done, listPre (p ++ [n]) (dirParts e1) = true
  witF : ∀ p n rel h, ChildRef.fileRef n rel h ∈ st.kids p →
    ∃ e1 ∈ done, e1.comps = rel ∧ e1.isDir = false
  dcomp : ∀ e1 ∈ done, e1.isDir = true → excludedBy o e1.comps = false →
    e1.comps ≠ [] → e1.comps ∈ st.dirs
  dorig : ∀ q ∈ st.dirs, ∃ e1 ∈ done, listPre q (dirParts e1) = true

theorem sortInv_init (o : Option (List String)) : SortInv o [] initSt := by
  refine ⟨?_, ?_, ?_, ?_, ?_⟩
  · intro p; exact List.Pairwise.nil
  · intro p n hc; exact absurd hc (List.not_mem_nil _)
  · intro p n rel h hc; exact absurd hc (List.not_mem_nil _)
  · intro e1 he1; exact absurd he1 (List.not_mem_nil _)
  · intro q hq; exact absurd hq (List.not_mem_nil _)

theorem sortInv_to_mid (o : Option (List String)) (done : List Entry) (e : Entry)
    (st : CState) (h : SortInv o done st) : SortMid o done e st := by
  refine ⟨h.pw, ?_, h.witF, h.dcomp, ?_⟩
  · intro p n hc
    rcases h.witD p n hc with ⟨e1, he1, hp1⟩
    exact ⟨e1, Or.inl he1, hp1⟩
  · intro q hq
    rcases h.dorig q hq with ⟨e1, he1, hp1⟩
    exact ⟨e1, Or.inl he1, hp1⟩

theorem append_name_lt (done : List Entry) (e : Entry)
    (horder1 : ∀ e1 ∈ done, entryLtP e1 e)
    (pre : List String) (p n1 : String)
    (hfull : pre ++ [p] = e.comps) (hne : n1 ≠ p)
    (hw : ∃ e1 ∈ done, listPre (pre ++ [n1]) e1.comps = true) :
    charsLt n1.data p.data = true := by
  rcases hw with ⟨e1, he1, hp1⟩
  have hlt : charsLt (key e1.comps) (key e.comps) = true := horder1 e1 he1
  rcases (listPre_iff_append _ _).mp hp1 with ⟨s1, hs1⟩
  have hkey1 : key e1.comps = key (pre ++ n1 :: s1) := by
    rw [hs1, List.append_assoc, List.singleton_append]
  have hkey2 : key e.comps = key (pre ++ [p]) := by rw [hfull]
  rw [hkey1, hkey2] at hlt
  by_cases hpre0 : pre = []
  · subst hpre0
    rw [List.nil_append, List.nil_append] at hlt
    rw [key_cons_shape] at hlt
    have hk : key [p] = p.data := rfl
    rw [hk] at hlt
    exact charsLt_stripe n1.data p.data _ (fun hc => hne (strData_inj n1 p hc)) hlt
  · rw [key_append pre (n1 :: s1) hpre0 (List.cons_ne_nil n1 s1),
        key_append pre [p] hpre0 (List.cons_ne_nil p [])] at hlt
    rw [List.append_cons (key pre) '/' (key (n1 :: s1)),
        List.append_cons (key pre) '/' (key [p]), charsLt_cancel] at hlt
    rw [key_cons_shape] at hlt
    have hk : key [p] = p.data := rfl
    rw [hk] at hlt
    exact charsLt_stripe n1.data p.data _ (fun hc => hne (strData_inj n1 p hc)) hlt

theorem ensure1_sortMid (o : Option (List String)) (done : List Entry) (e : Entry)
    (horder1 : ∀ e1 ∈ done, entryLtP e1 e)
    (hneq1 : ∀ e1 ∈ done, e1.comps ≠ e.comps)
    (hcloD : ∀ i, 0 < i → i < e.comps.length →
      ∃ e2 ∈ done, e2.comps = e.comps.take i ∧ e2.isDir = true)
    (hexE : excludedBy o e.comps = false)
    (pre : List String) (p : String) (st : CState)
    (hW : WalkInv (fun _ => True) (fun _ => True) st)
    (hM : SortMid o done e st)
    (hchain : listPre (pre ++ [p]) (dirParts e) = true) :
    SortMid o done e (ensure1 pre p st) := by
  unfold ensure1
  by_cases hmem : pre ++ [p] ∈ st.dirs
  · rw [if_pos hmem]
    exact hM
  · rw [if_neg hmem]
    have hpc : listPre (pre ++ [p]) e.comps = true :=
      listPre_trans _ _ _ hchain (dirParts_pre e)
    have hfull : pre ++ [p] = e.comps := by
      rcases (listPre_iff_append _ _).mp hpc with ⟨s2, hs2⟩
      cases s2 with
      | nil =>
        rw [hs2, List.append_nil]
      | cons a s2b =>
        exfalso
        have hxlen : (pre ++ [p]).length = pre.length + 1 := by
          rw [List.length_append]
          rfl
        have hi2 : pre.length + 1 < e.comps.length := by
          rw [hs2, List.length_append, hxlen, List.length_cons]
          omega
        have htake : e.comps.take (pre.length + 1) = pre ++ [p] := by
          rw [hs2, ← hxlen, List.take_left]
        rcases hcloD (pre.length + 1) (by omega) hi2 with ⟨e2, he2, hc2, hd2⟩
        have hc2b : e2.comps = pre ++ [p] := by rw [hc2, htake]
        have hex2 : excludedBy o e2.comps = false := by
          cases hb : excludedBy o e2.comps with
          | false => rfl
          | true =>
            exfalso
            have hmono := excludedBy_mono o e2.comps e.comps hb (by rw [hc2b]; exact hpc)
            rw [hexE] at hmono
            cases hmono
        have hne2 : e2.comps ≠ [] := by
          rw [hc2b]
          intro hcc
          rcases List.append_eq_nil.mp hcc with ⟨_, h2⟩
          cases h2
        have hmem2 := hM.dcomp e2 he2 hd2 hex2 hne2
        rw [hc2b] at hmem2
        exact hmem hmem2
    have hnodirp : ChildRef.dirRef p ∉ st.kids pre := by
      intro hc
      have hcnt := hW.dirCount pre p
      have hp2 : p ∈ dirNames (st.kids pre) := dirRef_mem_dirNames _ p hc
      rw [if_neg hmem] at hcnt
      have hpos := List.count_pos_iff.mpr hp2
      omega
    have hprec : ∀ c ∈ st.kids pre, charsLt (refName c).data p.data = true := by
      intro c hc
      cases c with
      | dirRef n1 =>
        rcases hM.witD pre n1 hc with ⟨e1, he1, hw1⟩
        have hne : n1 ≠ p := by
          intro hcc
          rw [hcc] at hc
          exact hnodirp hc
        rcases he1 with he1 | heq
        · refine append_name_lt done e horder1 pre p n1 hfull hne
            ⟨e1, he1, listPre_trans _ _ _ hw1 (dirParts_pre e1)⟩
        · rw [heq] at hw1
          exact absurd (listPre_snoc_same pre n1 p (dirParts e) hw1 hchain) hne
      | fileRef n1 rel hh =>
        rcases hM.witF pre n1 rel hh hc with ⟨e1, he1, hrel, _⟩
        have hpl := hW.fileP pre (ChildRef.fileRef n1 rel hh) hc n1 rel hh rfl
        have hrelform : rel = pre ++ [n1] := by
          have h1 := hpl.1
          have h2 := hpl.2.1
          have h3 := hpl.2.2.2.1
          rw [h3, h2]
          exact (dropLast_snoc_lastComp rel h1).symm
        have hne : n1 ≠ p := by
          intro hcc
          apply hneq1 e1 he1
          rw [hrel, hrelform, hcc, hfull]
        refine append_name_lt done e horder1 pre p n1 hfull hne ⟨e1, he1, ?_⟩
        rw [hrel, hrelform]
        exact listPre_refl _
    refine ⟨?_, ?_, ?_, ?_, ?_⟩
    · intro p2
      show List.Pairwise _
        (if p2 = pre then st.kids p2 ++ [ChildRef.dirRef p] else st.kids p2)
      by_cases hp2 : p2 = pre
      · rw [if_pos hp2]
        subst hp2
        refine List.pairwise_append.mpr ⟨hM.pw p2, List.pairwise_singleton _ _, ?_⟩
        intro a ha b hb
        rcases List.mem_singleton.mp hb with rfl
        exact hprec a ha
      · rw [if_neg hp2]
        exact hM.pw p2
    · intro p2 n hcmem
      have hcm : ChildRef.dirRef n
          ∈ (if p2 = pre then st.kids p2 ++ [ChildRef.dirRef p] else st.kids p2) := hcmem
      by_cases hp2 : p2 = pre
      · rw [if_pos hp2] at hcm
        rcases List.mem_append.mp hcm with h1 | h1
        · exact hM.witD p2 n h1
        · have hnp : n = p := ChildRef.dirRef.inj (List.mem_singleton.mp h1)
          exact ⟨e, Or.inr rfl, by rw [hp2, hnp]; exact hchain⟩
      · rw [if_neg hp2] at hcm
        exact hM.witD p2 n hcm
    · intro p2 n rel hh hcmem
      have hcm : ChildRef.fileRef n rel hh
          ∈ (if p2 = pre then st.kids p2 ++ [ChildRef.dirRef p] else st.kids p2) := hcmem
      by_cases hp2 : p2 = pre
      · rw [if_pos hp2] at hcm
        rcases List.mem_append.mp hcm with h1 | h1
        · exact hM.witF p2 n rel hh h1
        · exact ChildRef.noConfusion (List.mem_singleton.mp h1)
      · rw [if_neg hp2] at hcm
        exact hM.witF p2 n rel hh hcm
    · intro e1 he1 hd hex hne
      show e1.comps ∈ st.dirs ++ [pre ++ [p]]
      exact List.mem_append_left _ (hM.dcomp e1 he1 hd hex hne)
    · intro q hq
      have hq2 : q ∈ st.dirs ++ [pre ++ [p]] := hq
      rcases List.mem_append.mp hq2 with h1 | h1
      · exact hM.dorig q h1
      · rcases List.mem_singleton.mp h1 with rfl
        exact ⟨e, Or.inr rfl, hchain⟩

theorem ensureFrom_sortMid (o : Option (List String)) (done : List Entry) (e : Entry)
    (horder1 : ∀ e1 ∈ done, entryLtP e1 e)
    (hneq1 : ∀ e1 ∈ done, e1.comps ≠ e.comps)
    (hcloD : ∀ i, 0 < i → i < e.comps.length →
      ∃ e2 ∈ done, e2.comps = e.comps.take i ∧ e2.isDir = true)
    (hexE : excludedBy o e.comps = false) :
    ∀ (ps pre : List String) (st : CState),
    pre ++ ps = dirParts e →
    (pre = [] ∨ pre ∈ st.dirs) →
    WalkInv (fun _ => True) (fun _ => True) st →
    SortMid o done e st →
    SortMid o done e (ensureFrom pre ps st) := by
  intro ps
  induction ps with
  | nil =>
    intro pre st _ _ _ hM
    exact hM
  | cons p rest ih =>
    intro pre st hsplit hpre hW hM
    rw [ensureFrom_cons]
    have hchain : listPre (pre ++ [p]) (dirParts e) = true := by
      rw [← hsplit, listPre_iff_append]
      exact ⟨rest, by rw [List.append_assoc, List.singleton_append]⟩
    have hW1 : WalkInv (fun _ => True) (fun _ => True) (ensure1 pre p st) :=
      ensure1_inv _ _ pre p st hW hpre trivial
    have hM1 : SortMid o done e (ensure1 pre p st) :=
      ensure1_sortMid o done e horder1 hneq1 hcloD hexE pre p st hW hM hchain
    refine ih (pre ++ [p]) (ensure1 pre p st) ?_ (Or.inr (ensure1_mem pre p st)) hW1 hM1
    rw [← hsplit, List.append_assoc, List.singleton_append]

theorem filePrec (o : Option (List String)) (done : List Entry) (e : Entry)
    (horder1 : ∀ e1 ∈ done, entryLtP e1 e)
    (hneq1 : ∀ e1 ∈ done, e1.comps ≠ e.comps)
    (hcne : e.comps ≠ []) (hd : e.isDir = false)
    (st2 : CState)
    (hW2 : WalkInv (fun _ => True) (fun _ => True) st2)
    (hM2 : SortMid o done e st2) :
    ∀ c ∈ st2.kids e.comps.dropLast,
      charsLt (refName c).data (lastComp e.comps).data = true := by
  intro c hc
  have hfull : e.comps.dropLast ++ [lastComp e.comps] = e.comps :=
    dropLast_snoc_lastComp e.comps hcne
  have hdp : dirParts e = e.comps.dropLast := by simp [dirParts, hd]
  cases c with
  | dirRef n1 =>
    rcases hM2.witD _ n1 hc with ⟨e1, he1, hw1⟩
    have hne : n1 ≠ lastComp e.comps := by
      intro hcc
      have hcnt := hW2.dirCount e.comps.dropLast n1
      have hp2 : n1 ∈ dirNames (st2.kids e.comps.dropLast) := dirRef_mem_dirNames _ n1 hc
      have hmemd : e.comps.dropLast ++ [n1] ∈ st2.dirs := by
        by_cases hin : e.comps.dropLast ++ [n1] ∈ st2.dirs
        · exact hin
        · exfalso
          rw [if_neg hin] at hcnt
          have := List.count_pos_iff.mpr hp2
          omega
      rw [hcc, hfull] at hmemd
      rcases hM2.dorig e.comps hmemd with ⟨e3, he3, hw3⟩
      rcases he3 with he3 | heq3
      · have hw3b : listPre e.comps e3.comps = true :=
          listPre_trans _ _ _ hw3 (dirParts_pre e3)
        rcases (listPre_iff_append _ _).mp hw3b with ⟨r, hr⟩
        cases r with
        | nil =>
          rw [List.append_nil] at hr
          exact hneq1 e3 he3 hr
        | cons x xs =>
          have hlt1 : charsLt (key e3.comps) (key e.comps) = true := horder1 e3 he3
          have hlt2 : charsLt (key e.comps) (key e3.comps) = true := by
            rw [hr]
            refine key_lt_of_listPre_proper e.comps (e.comps ++ x :: xs) hcne
              (listPre_append _ _) ?_
            intro hcc2
            have hlen := congrArg List.length hcc2
            rw [List.length_append, List.length_cons] at hlen
            omega
          have hasy := charsLt_asymm _ _ hlt2
          rw [hasy] at hlt1
          cases hlt1
      · rw [heq3, hdp] at hw3
        have hl1 := listPre_length _ _ hw3
        have hl2 : e.comps.dropLast.length = e.comps.length - 1 := List.length_dropLast _
        have hl3 : 0 < e.comps.length := List.length_pos.mpr hcne
        omega
    rcases he1 with he1 | heq
    · exact append_name_lt done e horder1 _ _ n1 hfull hne
        ⟨e1, he1, listPre_trans _ _ _ hw1 (dirParts_pre e1)⟩
    · exfalso
      rw [heq, hdp] at hw1
      have hl1 := listPre_length _ _ hw1
      rw [List.length_append] at hl1
      have hl4 : ([n1] : List String).length = 1 := rfl
      omega
  | fileRef n1 rel hh =>
    rcases hM2.witF _ n1 rel hh hc with ⟨e1, he1, hrel, _⟩
    have hpl := hW2.fileP _ (ChildRef.fileRef n1 rel hh) hc n1 rel hh rfl
    have hrelform : rel = e.comps.dropLast ++ [n1] := by
      have h1 := hpl.1
      have h2 := hpl.2.1
      have h3 := hpl.2.2.2.1
      rw [h3, h2]
      exact (dropLast_snoc_lastComp rel h1).symm
    have hne : n1 ≠ lastComp e.comps := by
      intro hcc
      apply hneq1 e1 he1
      rw [hrel, hrelform, hcc, hfull]
    refine append_name_lt done e horder1 _ _ n1 hfull hne ⟨e1, he1, ?_⟩
    rw [hrel, hrelform]
    exact listPre_refl _

theorem sortInv_extend_skip (o : Option (List String)) (done : List Entry) (e : Entry)
    (st : CState) (h : SortInv o done st)
    (he : excludedBy o e.comps = true ∨ e.comps = []) :
    SortInv o (done ++ [e]) st := by
  refine ⟨h.pw, ?_, ?_, ?_, ?_⟩
  · intro p n hc
    rcases h.witD p n hc with ⟨e1, he1, hp1⟩
    exact ⟨e1, List.mem_append_left _ he1, hp1⟩
  · intro p n rel hh hc
    rcases h.witF p n rel hh hc with ⟨e1, he1, hp1⟩
    exact ⟨e1, List.mem_append_left _ he1, hp1⟩
  · intro e1 he1 hdd hex hne
    rcases List.mem_append.mp he1 with h1 | h1
    · exact h.dcomp e1 h1 hdd hex hne
    · have heq := List.mem_singleton.mp h1
      rcases he with he | he
      · rw [heq, he] at hex
        cases hex
      · rw [heq] at hne
        exact absurd he hne
  · intro q hq
    rcases h.dorig q hq with ⟨e1, he1, hp1⟩
    exact ⟨e1, List.mem_append_left _ he1, hp1⟩

theorem sortMid_to_inv (o : Option (List String)) (done : List Entry) (e : Entry)
    (st : CState) (hM : SortMid o done e st)
    (hdirE : e.isDir = true → excludedBy o e.comps = false → e.comps ≠ [] →
      e.comps ∈ st.dirs) :
    SortInv o (done ++ [e]) st := by
  refine ⟨hM.pw, ?_, ?_, ?_, ?_⟩
  · intro p n hc
    rcases hM.witD p n hc with ⟨e1, he1, hp1⟩
    rcases he1 with he1 | heq
    · exact ⟨e1, List.mem_append_left _ he1, hp1⟩
    · exact ⟨e1, List.mem_append_right _ (by rw [heq]; exact List.mem_singleton_self e), hp1⟩
  · intro p n rel hh hc
    rcases hM.witF p n rel hh hc with ⟨e1, he1, hp1⟩
    exact ⟨e1, List.mem_append_left _ he1, hp1⟩
  · intro e1 he1 hdd hex hne
    rcases List.mem_append.mp he1 with h1 | h1
    · exact hM.dcomp e1 h1 hdd hex hne
    · have heq := List.mem_singleton.mp h1
      rw [heq]
      rw [heq] at hdd hex hne
      exact hdirE hdd hex hne
  · intro q hq
    rcases hM.dorig q hq with ⟨e1, he1, hp1⟩
    rcases he1 with he1 | heq
    · exact ⟨e1, List.mem_append_left _ he1, hp1⟩
    · exact ⟨e1, List.mem_append_right _ (by rw [heq]; exact List.mem_singleton_self e), hp1⟩

theorem procEntry_sortInv (o : Option (List String)) (cv : List String → Bool)
    (done : List Entry) (e : Entry) (rest : List Entry)
    (hPW : List.Pairwise entryLtP (done ++ e :: rest))
    (hND : List.Pairwise (fun a b : Entry => a.comps ≠ b.comps) (done ++ e :: rest))
    (hcloL : ∀ i, 0 < i → i < e.comps.length →
      ∃ e2 ∈ done ++ e :: rest, e2.comps = e.comps.take i ∧ e2.isDir = true)
    (st st1 : CState)
    (hW : WalkInv (fun _ => True) (fun _ => True) st)
    (hI : SortInv o done st)
    (hstep : procEntry o cv st e = Except.ok st1) :
    SortInv o (done ++ [e]) st1 := by
  have hparts := List.pairwise_append.mp hPW
  have hpartsND := List.pairwise_append.mp hND
  have horder1 : ∀ e1 ∈ done, entryLtP e1 e := fun e1 he1 =>
    hparts.2.2 e1 he1 e (List.mem_cons_self e rest)
  have hneq1 : ∀ e1 ∈ done, e1.comps ≠ e.comps := fun e1 he1 =>
    hpartsND.2.2 e1 he1 e (List.mem_cons_self e rest)
  have horder2 : ∀ e2 ∈ rest, entryLtP e e2 :=
    (List.pairwise_cons.mp hparts.2.1).1
  by_cases hex : excludedBy o e.comps = true
  · rw [procEntry_excl o cv st e hex] at hstep
    rw [← Except.ok.inj hstep]
    exact sortInv_extend_skip o done e st hI (Or.inl hex)
  · have hexE : excludedBy o e.comps = false := bool_eq_false_of_ne_true hex
    by_cases hcne : e.comps = []
    · rw [procEntry_empty o cv st e hexE hcne] at hstep
      rw [← Except.ok.inj hstep]
      exact sortInv_extend_skip o done e st hI (Or.inr hcne)
    · have hcloD : ∀ i, 0 < i → i < e.comps.length →
          ∃ e2 ∈ done, e2.comps = e.comps.take i ∧ e2.isDir = true := by
        intro i h1 h2
        rcases hcloL i h1 h2 with ⟨e2, he2, hc2, hd2⟩
        rcases List.mem_append.mp he2 with hin | hin
        · exact ⟨e2, hin, hc2, hd2⟩
        · exfalso
          rcases List.mem_cons.mp hin with heq | hin2
          · have hc3 : e.comps = e.comps.take i := heq ▸ hc2
            have hlen := congrArg List.length hc3
            rw [List.length_take] at hlen
            omega
          · have hlt1 : charsLt (key e.comps) (key e2.comps) = true := horder2 e2 hin2
            have hlt2 : charsLt (key e2.comps) (key e.comps) = true := by
              rw [hc2]
              refine key_lt_of_listPre_proper (e.comps.take i) e.comps
                (take_ne_nil e.comps i h1 hcne) (listPre_take e.comps i) ?_
              intro hc3
              have hlen := congrArg List.length hc3
              rw [List.length_take] at hlen
              omega
            have hasy := charsLt_asymm _ _ hlt1
            rw [hasy] at hlt2
            cases hlt2
      have hMid0 : SortMid o done e st := sortInv_to_mid o done e st hI
      by_cases hdir : e.isDir = true
      · rw [procEntry_dir o cv st e hexE hcne hdir] at hstep
        rw [← Except.ok.inj hstep]
        have hs2 : ([] : List String) ++ e.comps = dirParts e := by
          rw [List.nil_append]
          simp [dirParts, hdir]
        have hM2 := ensureFrom_sortMid o done e horder1 hneq1 hcloD hexE
          e.comps [] st hs2 (Or.inl rfl) hW hMid0
        refine sortMid_to_inv o done e _ hM2 ?_
        intro _ _ _
        have hch := ensureFrom_chain e.comps [] st e.comps.length
          (List.length_pos.mpr hcne) (le_refl _)
        rw [List.take_length, List.nil_append] at hch
        exact hch
      · have hdf : e.isDir = false := bool_eq_false_of_ne_true hdir
        have hs2 : ([] : List String) ++ e.comps.dropLast = dirParts e := by
          rw [List.nil_append]
          simp [dirParts, hdf]
        by_cases hnb : lowerL (pySuffix (lastComp e.comps)) = nbExt
        · cases hcv : cv e.comps with
          | false =>
            rw [procEntry_nb_fail o cv st e hexE hcne hdf hnb hcv] at hstep
            cases hstep
          | true =>
            rw [procEntry_nb_ok o cv st e hexE hcne hdf hnb hcv] at hstep
            rw [← Except.ok.inj hstep]
            have hM2 := ensureFrom_sortMid o done e horder1 hneq1 hcloD hexE
              e.comps.dropLast [] st hs2 (Or.inl rfl) hW hMid0
            have hW2 : WalkInv (fun _ => True) (fun _ => True)
                (ensureFrom [] e.comps.dropLast st) :=
              ensureFrom_inv _ _ e.comps.dropLast [] st hW (Or.inl rfl)
                (fun _ _ _ => trivial)
            have hprec := filePrec o done e horder1 hneq1 hcne hdf
              (ensureFrom [] e.comps.dropLast st) hW2 hM2
            refine ⟨?_, ?_, ?_, ?_, ?_⟩
            · intro p2
              show List.Pairwise _ (if p2 = e.comps.dropLast
                then (ensureFrom [] e.comps.dropLast st).kids p2
                  ++ [ChildRef.fileRef (lastComp e.comps) e.comps (htmlRel e.comps)]
                else (ensureFrom [] e.comps.dropLast st).kids p2)
              by_cases hp2 : p2 = e.comps.dropLast
              · rw [if_pos hp2, hp2]
                refine List.pairwise_append.mpr
                  ⟨hM2.pw _, List.pairwise_singleton _ _, ?_⟩
                intro a ha b hb
                rcases List.mem_singleton.mp hb with rfl
                exact hprec a ha
              · rw [if_neg hp2]
                exact hM2.pw p2
            · intro p2 n hc
              have hcm : ChildRef.dirRef n ∈ (if p2 = e.comps.dropLast
                then (ensureFrom [] e.comps.dropLast st).kids p2
                  ++ [ChildRef.fileRef (lastComp e.comps) e.comps (htmlRel e.comps)]
                else (ensureFrom [] e.comps.dropLast st).kids p2) := hc
              have hold : ChildRef.dirRef n ∈ (ensureFrom [] e.comps.dropLast st).kids p2 := by
                by_cases hp2 : p2 = e.comps.dropLast
                · rw [if_pos hp2] at hcm
                  rcases List.mem_append.mp hcm with h1 | h1
                  · exact h1
                  · exact ChildRef.noConfusion (List.mem_singleton.mp h1)
                · rw [if_neg hp2] at hcm
                  exact hcm
              rcases hM2.witD p2 n hold with ⟨e1, he1, hp1⟩
              rcases he1 with he1 | heq
              · exact ⟨e1, List.mem_append_left _ he1, hp1⟩
              · exact ⟨e1, List.mem_append_right _
                  (by rw [heq]; exact List.mem_singleton_self e), hp1⟩
            · intro p2 n rel hh hc
              have hcm : ChildRef.fileRef n rel hh ∈ (if p2 = e.comps.dropLast
                then (ensureFrom [] e.comps.dropLast st).kids p2
                  ++ [ChildRef.fileRef (lastComp e.comps) e.comps (htmlRel e.comps)]
                else (ensureFrom [] e.comps.dropLast st).kids p2) := hc
              by_cases hp2 : p2 = e.comps.dropLast
              · rw [if_pos hp2] at hcm
                rcases List.mem_append.mp hcm with h1 | h1
                · rcases hM2.witF p2 n rel hh h1 with ⟨e1, he1, hp1⟩
                  exact ⟨e1, List.mem_append_left _ he1, hp1⟩
                · have h2 := List.mem_singleton.mp h1
                  have h3 := ChildRef.fileRef.inj h2
                  refine ⟨e, List.mem_append_right _ (List.mem_singleton_self e), ?_, hdf⟩
                  rw [← h3.2.1]
              · rw [if_neg hp2] at hcm
                rcases hM2.witF p2 n rel hh hcm with ⟨e1, he1, hp1⟩
                exact ⟨e1, List.mem_append_left _ he1, hp1⟩
            · intro e1 he1 hdd hex2 hne2
              show e1.comps ∈ (ensureFrom [] e.comps.dropLast st).dirs
              rcases List.mem_append.mp he1 with h1 | h1
              · exact hM2.dcomp e1 h1 hdd hex2 hne2
              · have heq := List.mem_singleton.mp h1
                rw [heq, hdf] at hdd
                cases hdd
            · intro q hq
              have hq2 : q ∈ (ensureFrom [] e.comps.dropLast st).dirs := hq
              rcases hM2.dorig q hq2 with ⟨e1, he1, hp1⟩
              rcases he1 with he1 | heq
              · exact ⟨e1, List.mem_append_left _ he1, hp1⟩
              · exact ⟨e1, List.mem_append_right _
                  (by rw [heq]; exact List.mem_singleton_self e), hp1⟩
        · rw [procEntry_skip o cv st e hexE hcne hdf hnb] at hstep
          rw [← Except.ok.inj hstep]
          have hM2 := ensureFrom_sortMid o done e horder1 hneq1 hcloD hexE
            e.comps.dropLast [] st hs2 (Or.inl rfl) hW hMid0
          refine sortMid_to_inv o done e _ hM2 ?_
          intro hdd
          rw [hdf] at hdd
          cases hdd

theorem collectLoop_sortInv (o : Option (List String)) (cv : List String → Bool) :
    ∀ (rest done : List Entry) (st st2 : CState),
    List.Pairwise entryLtP (done ++ rest) →
    List.Pairwise (fun a b : Entry => a.comps ≠ b.comps) (done ++ rest) →
    (∀ e ∈ rest, ∀ i, 0 < i → i < e.comps.length →
      ∃ e2 ∈ done ++ rest, e2.comps = e.comps.take i ∧ e2.isDir = true) →
    WalkInv (fun _ => True) (fun _ => True) st →
    SortInv o done st →
    collectLoop o cv st rest = Except.ok st2 →
    SortInv o (done ++ rest) st2 := by
  intro rest
  induction rest with
  | nil =>
    intro done st st2 _ _ _ _ hI hl
    rw [collectLoop_nil] at hl
    rw [← Except.ok.inj hl, List.append_nil]
    exact hI
  | cons e rest2 ih =>
    intro done st st2 hPW hND hclo hW hI hl
    cases hp : procEntry o cv st e with
    | error st3 =>
      rw [collectLoop_cons_err o cv st st3 e rest2 hp] at hl
      cases hl
    | ok st3 =>
      rw [collectLoop_cons_ok o cv st st3 e rest2 hp] at hl
      have hstep := procEntry_sortInv o cv done e rest2 hPW hND
        (hclo e (List.mem_cons_self e rest2)) st st3 hW hI hp
      have hW3 : WalkInv (fun _ => True) (fun _ => True) st3 :=
        procEntry_inv _ _ o cv st e st3 hW (fun _ q _ _ => trivial)
          (fun _ _ _ _ => trivial) hp
      have happ : done ++ e :: rest2 = (done ++ [e]) ++ rest2 := by
        rw [List.append_assoc, List.singleton_append]
      rw [happ] at hPW hND
      rw [happ]
      refine ih (done ++ [e]) st3 st2 hPW hND ?_ hW3 hstep hl
      intro e2 he2 i h1 h2
      rcases hclo e2 (List.mem_cons_of_mem e he2) i h1 h2 with ⟨e3, he3, hc3, hd3⟩
      rw [happ] at he3
      exact ⟨e3, he3, hc3, hd3⟩

theorem buildNode_sorted (kids : List String → List ChildRef)
    (hpw : ∀ p, List.Pairwise
      (fun a b => charsLt (refName a).data (refName b).data = true) (kids p)) :
    ∀ (f : Nat) (name : String) (pre : List String),
    treeChildrenSorted (buildNode kids name pre f) = true := by
  intro f
  induction f with
  | zero =>
    intro name pre
    rfl
  | succ f ih =>
    intro name pre
    show (chainLtB (((kids pre).map (fun c => match c with
        | ChildRef.dirRef n => buildNode kids n (pre ++ [n]) f
        | ChildRef.fileRef n rel h =>
          TreeNode.file n (joinPath rel) (joinPath h))).map nodeName)
      && kidsChildrenSorted ((kids pre).map (fun c => match c with
        | ChildRef.dirRef n => buildNode kids n (pre ++ [n]) f
        | ChildRef.fileRef n rel h =>
          TreeNode.file n (joinPath rel) (joinPath h)))) = true
    rw [Bool.and_eq_true]
    constructor
    · have hmapmap : ((kids pre).map (fun c => match c with
          | ChildRef.dirRef n => buildNode kids n (pre ++ [n]) f
          | ChildRef.fileRef n rel h =>
            TreeNode.file n (joinPath rel) (joinPath h))).map nodeName
          = (kids pre).map (fun c => refName c) := by
        rw [List.map_map]
        apply List.map_congr_left
        intro c _
        cases c with
        | dirRef n =>
          show nodeName (buildNode kids n (pre ++ [n]) f) = refName (ChildRef.dirRef n)
          cases f <;> rfl
        | fileRef n rel h => rfl
      rw [hmapmap]
      apply chainLtB_of_pairwise
      exact (List.pairwise_map).mpr (hpw pre)
    · have key2 : ∀ l : List ChildRef, kidsChildrenSorted (l.map (fun c => match c with
          | ChildRef.dirRef n => buildNode kids n (pre ++ [n]) f
          | ChildRef.fileRef n rel h =>
            TreeNode.file n (joinPath rel) (joinPath h))) = true := by
        intro l
        induction l with
        | nil => rfl
        | cons c rest ihl =>
          cases c with
          | dirRef n =>
            show (treeChildrenSorted (buildNode kids n (pre ++ [n]) f)
              && kidsChildrenSorted (rest.map (fun c => match c with
                | ChildRef.dirRef n => buildNode kids n (pre ++ [n]) f
                | ChildRef.fileRef n rel h =>
                  TreeNode.file n (joinPath rel) (joinPath h)))) = true
            rw [Bool.and_eq_true]
            exact ⟨ih n (pre ++ [n]), ihl⟩
          | fileRef n rel h =>
            show (treeChildrenSorted (TreeNode.file n (joinPath rel) (joinPath h))
              && kidsChildrenSorted (rest.map (fun c => match c with
                | ChildRef.dirRef n => buildNode kids n (pre ++ [n]) f
                | ChildRef.fileRef n rel h =>
                  TreeNode.file n (joinPath rel) (joinPath h)))) = true
            rw [Bool.and_eq_true]
            exact ⟨rfl, ihl⟩
      exact key2 (kids pre)

theorem prune_name (t : TreeNode) (t2 : TreeNode)
    (h : (prune_empty_dirs t).1 = some t2) : nodeName t2 = nodeName t := by
  cases t with
  | file n p hh =>
    have h2 : some (TreeNode.file n p hh) = some t2 := h
    rw [← Option.some.inj h2]
  | dir n p cs =>
    by_cases hb : (pruneKids cs).2 = true
    · have h2 : (prune_empty_dirs (TreeNode.dir n p cs)).1
          = some (TreeNode.dir n p (pruneKids cs).1) := by
        show (if (pruneKids cs).2 then some (TreeNode.dir n p (pruneKids cs).1) else none) = _
        rw [if_pos hb]
      rw [h2] at h
      rw [← Option.some.inj h]
      rfl
    · have h2 : (prune_empty_dirs (TreeNode.dir n p cs)).1 = none := by
        show (if (pruneKids cs).2 then some (TreeNode.dir n p (pruneKids cs).1) else none) = _
        rw [if_neg hb]
      rw [h2] at h
      cases h

theorem prune_sorted :
    ∀ t : TreeNode, treeChildrenSorted t = true →
    ∀ t2, (prune_empty_dirs t).1 = some t2 → treeChildrenSorted t2 = true := by
  intro t
  induction t using TreeNode.rec
    (motive_2 := fun cs => kidsChildrenSorted cs = true →
      kidsChildrenSorted (pruneKids cs).1 = true ∧
      List.Sublist ((pruneKids cs).1.map nodeName) (cs.map nodeName)) with
  | file n p hh =>
    intro hs t2 h2
    have h3 : some (TreeNode.file n p hh) = some t2 := h2
    rw [← Option.some.inj h3]
    exact hs
  | dir n p cs ih =>
    intro hs t2 h2
    have hs2 : (chainLtB (cs.map nodeName) && kidsChildrenSorted cs) = true := hs
    rw [Bool.and_eq_true] at hs2
    rcases ih hs2.2 with ⟨ihk, ihsub⟩
    by_cases hb : (pruneKids cs).2 = true
    · have h3 : (prune_empty_dirs (TreeNode.dir n p cs)).1
          = some (TreeNode.dir n p (pruneKids cs).1) := by
        show (if (pruneKids cs).2 then some (TreeNode.dir n p (pruneKids cs).1) else none) = _
        rw [if_pos hb]
      rw [h3] at h2
      rw [← Option.some.inj h2]
      show (chainLtB ((pruneKids cs).1.map nodeName)
        && kidsChildrenSorted (pruneKids cs).1) = true
      rw [Bool.and_eq_true]
      refine ⟨?_, ihk⟩
      apply chainLtB_of_pairwise
      exact List.Pairwise.sublist ihsub (pairwise_of_chainLtB _ hs2.1)
    · have h3 : (prune_empty_dirs (TreeNode.dir n p cs)).1 = none := by
        show (if (pruneKids cs).2 then some (TreeNode.dir n p (pruneKids cs).1) else none) = _
        rw [if_neg hb]
      rw [h3] at h2
      cases h2
  | nil =>
    exact ⟨rfl, List.Sublist.refl _⟩
  | cons c cs ih1 ih2 =>
    rename_i hs
    have hs2 : (treeChildrenSorted c && kidsChildrenSorted cs) = true := hs
    rw [Bool.and_eq_true] at hs2
    rcases ih2 hs2.2 with ⟨ihk, ihsub⟩
    cases hpc : (prune_empty_dirs c).1 with
    | none =>
      constructor
      · show kidsChildrenSorted (match (prune_empty_dirs c).1 with
          | some t => t :: (pruneKids cs).1
          | none => (pruneKids cs).1) = true
        rw [hpc]
        exact ihk
      · show List.Sublist ((match (prune_empty_dirs c).1 with
          | some t => t :: (pruneKids cs).1
          | none => (pruneKids cs).1).map nodeName) ((c :: cs).map nodeName)
        rw [hpc]
        exact List.Sublist.cons (nodeName c) ihsub
    | some t0 =>
      constructor
      · show kidsChildrenSorted (match (prune_empty_dirs c).1 with
          | some t => t :: (pruneKids cs).1
          | none => (pruneKids cs).1) = true
        rw [hpc]
        show (treeChildrenSorted t0 && kidsChildrenSorted (pruneKids cs).1) = true
        rw [Bool.and_eq_true]
        exact ⟨ih1 hs2.1 t0 hpc, ihk⟩
      · show List.Sublist ((match (prune_empty_dirs c).1 with
          | some t => t :: (pruneKids cs).1
          | none => (pruneKids cs).1).map nodeName) ((c :: cs).map nodeName)
        rw [hpc]
        show List.Sublist (nodeName t0 :: (pruneKids cs).1.map nodeName)
          (nodeName c :: cs.map nodeName)
        rw [prune_name c t0 hpc]
        exact List.Sublist.cons₂ (nodeName c) ihsub

/-- C6: in the collected and pruned tree, the children of every directory
node appear in strictly ascending case-sensitive lexicographic order of
their names, directory and file children interleaved by name. -/
theorem c6_children_alphabetical (srcName : String) (fs : List Entry)
    (o : Option (List String)) (convOk : List String → Bool)
    (hwf : wfB fs = true) :
    (treeOf (collect_tree srcName fs o convOk)).all treeChildrenSorted = true := by
  rcases wfB_parts fs hwf with ⟨hgood, hnodup, hclo⟩
  cases hlp : collectLoop o convOk initSt (sortEntries fs) with
  | error st =>
    rw [collect_tree_eq_err srcName fs o convOk st hlp]
    rfl
  | ok st =>
    rw [collect_tree_eq_ok srcName fs o convOk st hlp]
    have hperm := sortEntries_perm fs
    have hPW : List.Pairwise entryLtP (sortEntries fs) := sortEntries_sortedLt fs hnodup hgood
    have hND : List.Pairwise (fun a b : Entry => a.comps ≠ b.comps) (sortEntries fs) := by
      have h2 : ((sortEntries fs).map (fun e => e.comps)).Nodup :=
        (List.Perm.nodup_iff (hperm.map (fun e => e.comps))).mpr hnodup
      exact (List.pairwise_map).mp h2
    have hI := collectLoop_sortInv o convOk (sortEntries fs) [] initSt st
      (by rw [List.nil_append]; exact hPW)
      (by rw [List.nil_append]; exact hND)
      (by
        intro e he i h1 h2
        rcases hclo e (hperm.mem_iff.mp he) i h1 h2 with ⟨e2, he2, hc2, hd2⟩
        exact ⟨e2, by rw [List.nil_append]; exact hperm.mem_iff.mpr he2, hc2, hd2⟩)
      (initSt_inv _ _) (sortInv_init o) hlp
    have hbuilt := buildNode_sorted st.kids (fun p => hI.pw p)
      (maxCompLen (sortEntries fs) + 1) srcName []
    show treeChildrenSorted (match (prune_empty_dirs
      (buildNode st.kids srcName [] (maxCompLen (sortEntries fs) + 1))).1 with
      | some t => t
      | none => TreeNode.dir srcName "" []) = true
    cases hpr : (prune_empty_dirs
        (buildNode st.kids srcName [] (maxCompLen (sortEntries fs) + 1))).1 with
    | none => rfl
    | some t2 => exact prune_sorted _ hbuilt t2 hpr

theorem c6_children_alphabetical_witness :
    wfB fsSpecScenario = true ∧
    (treeOf (collect_tree "repo" fsSpecScenario none (fun _ => true))).all
      treeChildrenSorted = true :=
  ⟨by decide, c6_children_alphabetical "repo" fsSpecScenario none (fun _ => true) (by decide)⟩
